import Mathlib

/-!
# goreduce: the reduction rule engine (rules.go)

A shallow embedding of `rules.go` and the properties of its rules.

Conventions of the embedding.

* Go pointers that the rules compare or write through are identities: an
  `*ast.Ident` is an `IdentId`, an `*ast.AssignStmt` carries an `AssignId`,
  a `types.Object` is an `Obj`, a `*types.Scope` a `ScopeId`.
* The fields the rules write in place live in the reducer state, keyed by
  identity: `Ident.Name` in `names`, `AssignStmt.Tok` in `toks`.
* The statement list behind a `*[]ast.Stmt` is the field `list`; `r.file` is
  rebuilt around it by `fileOf`, so a traversal of the file sees the current
  content of the list.
* The slots `*r.stmt` and `*r.expr` are the fields `stmt` and `expr`; the
  fields of the expression node a rule writes to (`BasicLit.Value`,
  `CompositeLit.Elts`, the bounds of a `SliceExpr`) are the field `node`.
* A run-time panic is an `Except.error`.
* Positions, line merging and the change log are not part of the state.
-/

namespace Goreduce

/-! ## Syntax trees (go/ast) -/

abbrev IdentId := Nat
abbrev AssignId := Nat
abbrev Obj := Nat
abbrev ScopeId := Nat

/-- The values of `token.Token` that occur in the trees handled here. -/
inductive Token
  | INT | FLOAT | IMAG | CHAR | STRING
  | ADD | SUB | MUL | QUO | REM | AND | OR | XOR | SHL | SHR | AND_NOT
  | ADD_ASSIGN | SUB_ASSIGN | MUL_ASSIGN | QUO_ASSIGN | REM_ASSIGN
  | AND_ASSIGN | OR_ASSIGN | XOR_ASSIGN | SHL_ASSIGN | SHR_ASSIGN | AND_NOT_ASSIGN
  | LAND | LOR | ARROW | INC | DEC
  | EQL | LSS | GTR | ASSIGN | NOT | NEQ | LEQ | GEQ | DEFINE
  | CONST | IMPORT | TYPE | VAR
  deriving DecidableEq, Repr

mutual
/-- Expressions, `ast.Expr`. -/
inductive Expr
  | ident (id : IdentId)
  | basicLit (kind : Token) (value : String)
  | compositeLit (type : Option Expr) (elts : List Expr)
  | parenExpr (x : Expr)
  | selectorExpr (x : Expr) (sel : IdentId)
  | indexExpr (x : Expr) (index : Expr)
  | sliceExpr (x : Expr) (low : Option Expr) (high : Option Expr) (max : Option Expr)
      (slice3 : Bool)
  | starExpr (x : Expr)
  | callExpr (fn : Expr) (args : List Expr)
  | unaryExpr (op : Token) (x : Expr)
  | binaryExpr (x : Expr) (op : Token) (y : Expr)
  | keyValueExpr (key : Expr) (value : Expr)
  | arrayType (len : Option Expr) (elt : Expr)
  | funcLit (params : List Field) (results : Option (List Field)) (body : List Stmt)
/-- One `ast.Field` of a parameter or result list. -/
inductive Field
  | mk (names : List IdentId) (type : Expr)
/-- Statements, `ast.Stmt`. A block (`*ast.BlockStmt`) is its statement list. -/
inductive Stmt
  | declStmt (decl : GenDecl)
  | emptyStmt
  | exprStmt (x : Expr)
  | incDecStmt (x : Expr) (tok : Token)
  | assignStmt (id : AssignId) (lhs : List Expr) (rhs : List Expr)
  | goStmt (call : Expr)
  | deferStmt (call : Expr)
  | returnStmt (results : List Expr)
  | blockStmt (list : List Stmt)
  | ifStmt (init : Option Stmt) (cond : Expr) (body : List Stmt) (els : Option Stmt)
  | forStmt (init : Option Stmt) (cond : Option Expr) (post : Option Stmt) (body : List Stmt)
/-- The specs of a declaration other than an import. -/
inductive Spec
  | valueSpec (names : List IdentId) (type : Option Expr) (values : List Expr)
  | typeSpec (name : IdentId) (type : Expr)
/-- A `*ast.GenDecl` with token `CONST`, `TYPE` or `VAR`. -/
inductive GenDecl
  | mk (tok : Token) (specs : List Spec)
end

/-- A top-level declaration of a file. -/
inductive Decl
  | genDecl (d : GenDecl)
  | funcDecl (recv : Option (List Field)) (name : IdentId) (params : List Field)
      (results : Option (List Field)) (body : Option (List Stmt))

/-- The tree under `*ast.File`: the package name and the declarations. The import
specs are kept apart, in the reducer (`Reducer.imports`). -/
structure File where
  name : IdentId
  decls : List Decl

/-- An import spec: the alias (empty when the import is not named) and the path. -/
structure ImportSpec where
  name : String
  path : String
  deriving DecidableEq, Repr

/-- The nodes a traversal hands to its callback (`ast.Node`). An identifier is
always presented as the expression `Expr.ident`. -/
inductive Node
  | expr (e : Expr)
  | stmt (s : Stmt)
  | spec (s : Spec)
  | genDecl (d : GenDecl)
  | field (f : Field)
  | fieldList (l : List Field)
  | funcType (params : List Field) (results : Option (List Field))
  | funcDecl (d : Decl)
  | file (f : File)
  | importSpec (s : ImportSpec)

/-! ## ast.Inspect -/

/-- The callback of `ast.Inspect`, with the variables it captures passed as a state:
it returns whether to descend and the new state. -/
abbrev Callback (σ : Type) := Node → σ → Bool × σ

/-- One step of `ast.Walk` under `ast.Inspect`: the callback is called on the node and,
when it returns true, the children are traversed (`k`). The closing call of the callback
on `nil` is left out: the callbacks of rules.go return at once on it. -/
def descend {σ : Type} (f : Callback σ) (n : Node) (k : σ → σ) (s : σ) : σ :=
  let p := f n s
  if p.1 then k p.2 else p.2

mutual
/-- `ast.Inspect` at an expression; the children are traversed in the order of
`ast.Walk`. -/
def inspectExpr {σ : Type} (f : Callback σ) : Expr → σ → σ
  | .ident id, s => descend f (.expr (.ident id)) (fun s => s) s
  | .basicLit kind value, s => descend f (.expr (.basicLit kind value)) (fun s => s) s
  | .compositeLit type elts, s => descend f (.expr (.compositeLit type elts)) (fun s =>
      inspectExprs f elts (inspectOptExpr f type s)) s
  | .parenExpr x, s => descend f (.expr (.parenExpr x)) (fun s =>
      inspectExpr f x s) s
  | .selectorExpr x sel, s => descend f (.expr (.selectorExpr x sel)) (fun s =>
      descend f (.expr (.ident sel)) (fun s => s) (inspectExpr f x s)) s
  | .indexExpr x index, s => descend f (.expr (.indexExpr x index)) (fun s =>
      inspectExpr f index (inspectExpr f x s)) s
  | .sliceExpr x low high max slice3, s =>
    descend f (.expr (.sliceExpr x low high max slice3)) (fun s =>
      inspectOptExpr f max (inspectOptExpr f high (inspectOptExpr f low (inspectExpr f x s)))) s
  | .starExpr x, s => descend f (.expr (.starExpr x)) (fun s =>
      inspectExpr f x s) s
  | .callExpr fn args, s => descend f (.expr (.callExpr fn args)) (fun s =>
      inspectExprs f args (inspectExpr f fn s)) s
  | .unaryExpr op x, s => descend f (.expr (.unaryExpr op x)) (fun s =>
      inspectExpr f x s) s
  | .binaryExpr x op y, s => descend f (.expr (.binaryExpr x op y)) (fun s =>
      inspectExpr f y (inspectExpr f x s)) s
  | .keyValueExpr key value, s => descend f (.expr (.keyValueExpr key value)) (fun s =>
      inspectExpr f value (inspectExpr f key s)) s
  | .arrayType len elt, s => descend f (.expr (.arrayType len elt)) (fun s =>
      inspectExpr f elt (inspectOptExpr f len s)) s
  | .funcLit params results body, s => descend f (.expr (.funcLit params results body)) (fun s =>
      descend f (.stmt (.blockStmt body)) (inspectStmts f body)
        (descend f (.funcType params results)
        (fun s => inspectOptFieldList f results
        (descend f (.fieldList params) (inspectFields f params) s)) s)) s
/-- `ast.Inspect` at an expression that may be nil. -/
def inspectOptExpr {σ : Type} (f : Callback σ) : Option Expr → σ → σ
  | none, s => s
  | some e, s => inspectExpr f e s
/-- `ast.Inspect` over a list of expressions, in order. -/
def inspectExprs {σ : Type} (f : Callback σ) : List Expr → σ → σ
  | [], s => s
  | e :: es, s => inspectExprs f es (inspectExpr f e s)
/-- `ast.Inspect` at a field: the names, then the type. -/
def inspectField {σ : Type} (f : Callback σ) : Field → σ → σ
  | .mk names type => descend f (.field (.mk names type))
      (fun s => inspectExpr f type
        (names.foldl (fun s i => descend f (.expr (.ident i)) (fun s => s) s) s))
/-- `ast.Inspect` over the fields of a field list, in order. -/
def inspectFields {σ : Type} (f : Callback σ) : List Field → σ → σ
  | [], s => s
  | x :: xs, s => inspectFields f xs (inspectField f x s)
/-- `ast.Inspect` at a `*ast.FieldList` that may be nil. -/
def inspectOptFieldList {σ : Type} (f : Callback σ) : Option (List Field) → σ → σ
  | none, s => s
  | some l, s => descend f (.fieldList l) (inspectFields f l) s
/-- `ast.Inspect` at a statement. A body is a `*ast.BlockStmt`, itself a node. -/
def inspectStmt {σ : Type} (f : Callback σ) : Stmt → σ → σ
  | .declStmt decl, s => descend f (.stmt (.declStmt decl)) (fun s =>
      inspectGenDecl f decl s) s
  | .emptyStmt, s => descend f (.stmt .emptyStmt) (fun s => s) s
  | .exprStmt x, s => descend f (.stmt (.exprStmt x)) (fun s =>
      inspectExpr f x s) s
  | .incDecStmt x tok, s => descend f (.stmt (.incDecStmt x tok)) (fun s =>
      inspectExpr f x s) s
  | .assignStmt id lhs rhs, s => descend f (.stmt (.assignStmt id lhs rhs)) (fun s =>
      inspectExprs f rhs (inspectExprs f lhs s)) s
  | .goStmt call, s => descend f (.stmt (.goStmt call)) (fun s =>
      inspectExpr f call s) s
  | .deferStmt call, s => descend f (.stmt (.deferStmt call)) (fun s =>
      inspectExpr f call s) s
  | .returnStmt results, s => descend f (.stmt (.returnStmt results)) (fun s =>
      inspectExprs f results s) s
  | .blockStmt list, s => descend f (.stmt (.blockStmt list)) (fun s =>
      inspectStmts f list s) s
  | .ifStmt init cond body els, s => descend f (.stmt (.ifStmt init cond body els)) (fun s =>
      inspectOptStmt f els
        (descend f (.stmt (.blockStmt body)) (inspectStmts f body)
        (inspectExpr f cond (inspectOptStmt f init s)))) s
  | .forStmt init cond post body, s => descend f (.stmt (.forStmt init cond post body)) (fun s =>
      descend f (.stmt (.blockStmt body)) (inspectStmts f body)
        (inspectOptStmt f post (inspectOptExpr f cond (inspectOptStmt f init s)))) s
/-- `ast.Inspect` at a statement that may be nil. -/
def inspectOptStmt {σ : Type} (f : Callback σ) : Option Stmt → σ → σ
  | none, s => s
  | some st, s => inspectStmt f st s
/-- `ast.Inspect` over a list of statements, in order. -/
def inspectStmts {σ : Type} (f : Callback σ) : List Stmt → σ → σ
  | [], s => s
  | st :: sts, s => inspectStmts f sts (inspectStmt f st s)
/-- `ast.Inspect` at a spec. -/
def inspectSpec {σ : Type} (f : Callback σ) : Spec → σ → σ
  | .valueSpec names type values, s => descend f (.spec (.valueSpec names type values)) (fun s =>
      inspectExprs f values (inspectOptExpr f type
        (names.foldl (fun s i => descend f (.expr (.ident i)) (fun s => s) s) s))) s
  | .typeSpec name type, s => descend f (.spec (.typeSpec name type)) (fun s =>
      inspectExpr f type (descend f (.expr (.ident name)) (fun s => s) s)) s
/-- `ast.Inspect` over the specs of a declaration, in order. -/
def inspectSpecs {σ : Type} (f : Callback σ) : List Spec → σ → σ
  | [], s => s
  | sp :: sps, s => inspectSpecs f sps (inspectSpec f sp s)
/-- `ast.Inspect` at a `*ast.GenDecl`. -/
def inspectGenDecl {σ : Type} (f : Callback σ) : GenDecl → σ → σ
  | .mk tok specs => descend f (.genDecl (.mk tok specs)) (inspectSpecs f specs)
end

/-- `ast.Inspect` at a `*ast.BlockStmt` held in a field (a body). -/
def inspectBlock {σ : Type} (f : Callback σ) (list : List Stmt) (s : σ) : σ :=
  descend f (.stmt (.blockStmt list)) (inspectStmts f list) s

/-- `ast.Inspect` at a `*ast.FieldList`. -/
def inspectFieldList {σ : Type} (f : Callback σ) (l : List Field) (s : σ) : σ :=
  descend f (.fieldList l) (inspectFields f l) s

/-- `ast.Inspect` at a `*ast.FuncType`: the parameters, then the results. -/
def inspectFuncType {σ : Type} (f : Callback σ) (params : List Field)
    (results : Option (List Field)) (s : σ) : σ :=
  descend f (.funcType params results)
    (fun s => inspectOptFieldList f results (inspectFieldList f params s)) s

/-- `ast.Inspect` at a body that may be nil. -/
def inspectOptBlock {σ : Type} (f : Callback σ) : Option (List Stmt) → σ → σ
  | none, s => s
  | some l, s => inspectBlock f l s

/-- `ast.Inspect` at a top-level declaration. For a function: the receiver, the name,
the type, the body. -/
def inspectDecl {σ : Type} (f : Callback σ) : Decl → σ → σ
  | .genDecl d, s => inspectGenDecl f d s
  | .funcDecl recv name params results body, s =>
    descend f (.funcDecl (.funcDecl recv name params results body))
      (fun s => inspectOptBlock f body
        (inspectFuncType f params results
          (descend f (.expr (.ident name)) (fun s => s) (inspectOptFieldList f recv s)))) s

/-- `ast.Inspect` over the declarations of a file, in order. -/
def inspectDecls {σ : Type} (f : Callback σ) : List Decl → σ → σ
  | [], s => s
  | d :: ds, s => inspectDecls f ds (inspectDecl f d s)

/-- `ast.Inspect(r.file, f)`: the package name, then the declarations. -/
def inspectFile {σ : Type} (f : Callback σ) (file : File) (s : σ) : σ :=
  descend f (.file file)
    (fun s => inspectDecls f file.decls (descend f (.expr (.ident file.name)) (fun s => s) s)) s

/-- `ast.Inspect(node, f)` at any node. -/
def inspect {σ : Type} (f : Callback σ) : Node → σ → σ
  | .expr e, s => inspectExpr f e s
  | .stmt st, s => inspectStmt f st s
  | .spec sp, s => inspectSpec f sp s
  | .genDecl d, s => inspectGenDecl f d s
  | .field fl, s => inspectField f fl s
  | .fieldList l, s => inspectFieldList f l s
  | .funcType params results, s => inspectFuncType f params results s
  | .funcDecl d, s => inspectDecl f d s
  | .file fl, s => inspectFile f fl s
  | .importSpec sp, s => descend f (.importSpec sp) (fun s => s) s

/-! ## The nodes a traversal visits -/

/-- A node followed, when the traversal descends at it, by the nodes visited below it. -/
def visitNode (go : Node → Bool) (n : Node) (below : List Node) : List Node :=
  n :: (if go n then below else [])

mutual
/-- The nodes `ast.Inspect` hands to its callback at an expression, in order, when the
callback descends exactly at the nodes satisfying `go`. -/
def visitExpr (go : Node → Bool) : Expr → List Node
  | .ident id => visitNode go (.expr (.ident id)) []
  | .basicLit kind value => visitNode go (.expr (.basicLit kind value)) []
  | .compositeLit type elts =>
    visitNode go (.expr (.compositeLit type elts)) (visitOptExpr go type ++ visitExprs go elts)
  | .parenExpr x => visitNode go (.expr (.parenExpr x)) (visitExpr go x)
  | .selectorExpr x sel =>
    visitNode go (.expr (.selectorExpr x sel)) (visitExpr go x ++ [.expr (.ident sel)])
  | .indexExpr x index =>
    visitNode go (.expr (.indexExpr x index)) (visitExpr go x ++ visitExpr go index)
  | .sliceExpr x low high max slice3 =>
    visitNode go (.expr (.sliceExpr x low high max slice3))
      (visitExpr go x ++ visitOptExpr go low ++ visitOptExpr go high ++ visitOptExpr go max)
  | .starExpr x => visitNode go (.expr (.starExpr x)) (visitExpr go x)
  | .callExpr fn args =>
    visitNode go (.expr (.callExpr fn args)) (visitExpr go fn ++ visitExprs go args)
  | .unaryExpr op x => visitNode go (.expr (.unaryExpr op x)) (visitExpr go x)
  | .binaryExpr x op y =>
    visitNode go (.expr (.binaryExpr x op y)) (visitExpr go x ++ visitExpr go y)
  | .keyValueExpr key value =>
    visitNode go (.expr (.keyValueExpr key value)) (visitExpr go key ++ visitExpr go value)
  | .arrayType len elt =>
    visitNode go (.expr (.arrayType len elt)) (visitOptExpr go len ++ visitExpr go elt)
  | .funcLit params results body =>
    visitNode go (.expr (.funcLit params results body))
      (visitNode go (.funcType params results)
          (visitNode go (.fieldList params) (visitFields go params) ++
            visitOptFieldList go results) ++
        visitNode go (.stmt (.blockStmt body)) (visitStmts go body))
/-- The nodes visited at an expression that may be nil. -/
def visitOptExpr (go : Node → Bool) : Option Expr → List Node
  | none => []
  | some e => visitExpr go e
/-- The nodes visited over a list of expressions. -/
def visitExprs (go : Node → Bool) : List Expr → List Node
  | [] => []
  | e :: es => visitExpr go e ++ visitExprs go es
/-- The nodes visited at a field. -/
def visitField (go : Node → Bool) : Field → List Node
  | .mk names type => visitNode go (.field (.mk names type))
      (names.map (fun i => Node.expr (.ident i)) ++ visitExpr go type)
/-- The nodes visited over the fields of a field list. -/
def visitFields (go : Node → Bool) : List Field → List Node
  | [] => []
  | x :: xs => visitField go x ++ visitFields go xs
/-- The nodes visited at a field list that may be nil. -/
def visitOptFieldList (go : Node → Bool) : Option (List Field) → List Node
  | none => []
  | some l => visitNode go (.fieldList l) (visitFields go l)
/-- The nodes visited at a statement. -/
def visitStmt (go : Node → Bool) : Stmt → List Node
  | .declStmt decl => visitNode go (.stmt (.declStmt decl)) (visitGenDecl go decl)
  | .emptyStmt => visitNode go (.stmt .emptyStmt) []
  | .exprStmt x => visitNode go (.stmt (.exprStmt x)) (visitExpr go x)
  | .incDecStmt x tok => visitNode go (.stmt (.incDecStmt x tok)) (visitExpr go x)
  | .assignStmt id lhs rhs =>
    visitNode go (.stmt (.assignStmt id lhs rhs)) (visitExprs go lhs ++ visitExprs go rhs)
  | .goStmt call => visitNode go (.stmt (.goStmt call)) (visitExpr go call)
  | .deferStmt call => visitNode go (.stmt (.deferStmt call)) (visitExpr go call)
  | .returnStmt results => visitNode go (.stmt (.returnStmt results)) (visitExprs go results)
  | .blockStmt list => visitNode go (.stmt (.blockStmt list)) (visitStmts go list)
  | .ifStmt init cond body els =>
    visitNode go (.stmt (.ifStmt init cond body els))
      (visitOptStmt go init ++ visitExpr go cond ++
        visitNode go (.stmt (.blockStmt body)) (visitStmts go body) ++ visitOptStmt go els)
  | .forStmt init cond post body =>
    visitNode go (.stmt (.forStmt init cond post body))
      (visitOptStmt go init ++ visitOptExpr go cond ++ visitOptStmt go post ++
        visitNode go (.stmt (.blockStmt body)) (visitStmts go body))
/-- The nodes visited at a statement that may be nil. -/
def visitOptStmt (go : Node → Bool) : Option Stmt → List Node
  | none => []
  | some st => visitStmt go st
/-- The nodes visited over a list of statements. -/
def visitStmts (go : Node → Bool) : List Stmt → List Node
  | [] => []
  | st :: sts => visitStmt go st ++ visitStmts go sts
/-- The nodes visited at a spec. -/
def visitSpec (go : Node → Bool) : Spec → List Node
  | .valueSpec names type values =>
    visitNode go (.spec (.valueSpec names type values))
      (names.map (fun i => Node.expr (.ident i)) ++ visitOptExpr go type ++
        visitExprs go values)
  | .typeSpec name type =>
    visitNode go (.spec (.typeSpec name type)) (Node.expr (.ident name) :: visitExpr go type)
/-- The nodes visited over the specs of a declaration. -/
def visitSpecs (go : Node → Bool) : List Spec → List Node
  | [] => []
  | sp :: sps => visitSpec go sp ++ visitSpecs go sps
/-- The nodes visited at a `*ast.GenDecl`. -/
def visitGenDecl (go : Node → Bool) : GenDecl → List Node
  | .mk tok specs => visitNode go (.genDecl (.mk tok specs)) (visitSpecs go specs)
end

/-- The nodes visited at a body. -/
def visitBlock (go : Node → Bool) (list : List Stmt) : List Node :=
  visitNode go (.stmt (.blockStmt list)) (visitStmts go list)

/-- The nodes visited at a `*ast.FieldList`. -/
def visitFieldList (go : Node → Bool) (l : List Field) : List Node :=
  visitNode go (.fieldList l) (visitFields go l)

/-- The nodes visited at a `*ast.FuncType`. -/
def visitFuncType (go : Node → Bool) (params : List Field) (results : Option (List Field)) :
    List Node :=
  visitNode go (.funcType params results)
    (visitFieldList go params ++ visitOptFieldList go results)

/-- The nodes visited at a body that may be nil. -/
def visitOptBlock (go : Node → Bool) : Option (List Stmt) → List Node
  | none => []
  | some l => visitBlock go l

/-- The nodes visited at a top-level declaration. -/
def visitDecl (go : Node → Bool) : Decl → List Node
  | .genDecl d => visitGenDecl go d
  | .funcDecl recv name params results body =>
    visitNode go (.funcDecl (.funcDecl recv name params results body))
      (visitOptFieldList go recv ++ [Node.expr (.ident name)] ++
        visitFuncType go params results ++ visitOptBlock go body)

/-- The nodes visited over the declarations of a file. -/
def visitDecls (go : Node → Bool) : List Decl → List Node
  | [] => []
  | d :: ds => visitDecl go d ++ visitDecls go ds

/-- The nodes visited in a file. -/
def visitFile (go : Node → Bool) (file : File) : List Node :=
  visitNode go (.file file) (Node.expr (.ident file.name) :: visitDecls go file.decls)

/-- The nodes `ast.Inspect(node, f)` hands to `f`, in order, when `f` descends exactly at
the nodes satisfying `go`. -/
def visit (go : Node → Bool) : Node → List Node
  | .expr e => visitExpr go e
  | .stmt st => visitStmt go st
  | .spec sp => visitSpec go sp
  | .genDecl d => visitGenDecl go d
  | .field fl => visitField go fl
  | .fieldList l => visitFieldList go l
  | .funcType params results => visitFuncType go params results
  | .funcDecl d => visitDecl go d
  | .file fl => visitFile go fl
  | .importSpec sp => [.importSpec sp]

/-- Whether a node is an identifier. -/
def Node.isIdent : Node → Bool
  | .expr (.ident _) => true
  | _ => false

/-- Whether a node is an assignment statement. -/
def Node.isAssign : Node → Bool
  | .stmt (.assignStmt _ _ _) => true
  | _ => false

/-- The identifier occurrences among a list of nodes. -/
def identsOf : List Node → List IdentId
  | [] => []
  | .expr (.ident i) :: ns => i :: identsOf ns
  | _ :: ns => identsOf ns

/-- The nodes visited in the nodes of a group, nil entries skipped, when every node is
descended into. -/
def groupNodes : List (Option Node) → List Node
  | [] => []
  | none :: nodes => groupNodes nodes
  | some n :: nodes => visit (fun _ => true) n ++ groupNodes nodes

/-- The identifier occurrences inside the nodes of a group, in the order of traversal. -/
def groupIdents (nodes : List (Option Node)) : List IdentId :=
  identsOf (groupNodes nodes)

/-- The state update of a callback at a node. -/
def step {σ : Type} (f : Callback σ) (s : σ) (n : Node) : σ := (f n s).2

/-! ## Type information (go/types) and the reducer -/

/-- The dynamic type of a `types.Object`, as far as the rules tell them apart. For a
package name: the local name, and the name and path of the imported package. -/
inductive ObjKind
  | pkgName (name : String) (importedName : String) (importedPath : String)
  | var
  | const
  | other
  deriving DecidableEq, Repr

/-- The result of `obj.Type()`: a `*types.Basic`, with its `IsUntyped` flag, or anything
else (nil included). -/
inductive ObjType
  | basic (untyped : Bool)
  | other
  deriving DecidableEq, Repr

/-- What the rules read from a `types.Object`; `parent` is `obj.Parent()`, `none` when
it is nil. -/
structure Object where
  kind : ObjKind
  type : ObjType
  parent : Option ScopeId

/-- A `*types.Scope`: its parent (`none` when nil) and the objects it declares,
by name. -/
structure Scope where
  parent : Option ScopeId
  elems : List (String × Obj)

/-- `scope.Lookup(name)`: the object declared in this very scope under `name`, if any.
Parent scopes are not searched. -/
def Scope.Lookup (s : Scope) (name : String) : Option Obj :=
  s.elems.lookup name

/-- `types.Info` with the objects and scopes reachable from it. A key absent from
`Defs` or `Uses`, like a key mapped to nil, reads as `none`. -/
structure Info where
  Defs : IdentId → Option Obj
  Uses : IdentId → Option Obj
  object : Obj → Object
  scope : ScopeId → Scope

/-- The positions of a statement that rules.go reads, as offsets in the file: `Pos()`,
`End()`, and for a block the positions of its statements. The trees here do not carry
the position fields of the nodes; the reducer holds them for the list under reduction. -/
inductive Layout
  | mk (pos : Nat) (stop : Nat) (inner : List Layout)

/-- `node.Pos()`. -/
def Layout.pos : Layout → Nat
  | .mk pos _ _ => pos

/-- `node.End()`. -/
def Layout.stop : Layout → Nat
  | .mk _ stop _ => stop

/-- The positions of the statements of a block. -/
def Layout.inner : Layout → List Layout
  | .mk _ _ inner => inner

/-- The positions of the statement at index `i`. -/
def Layout.nth (ls : List Layout) (i : Nat) : Layout :=
  ls.getD i (.mk 0 0 [])

/-- The program as one trial presents it. -/
structure Prog where
  imports : List ImportSpec
  names : IdentId → String
  toks : AssignId → Token
  list : List Stmt
  stmt : Stmt
  expr : Expr
  node : Expr

/-- The fields of `reducer` that rules.go reads or writes.

`useIdents` is the map from objects to the identifiers using them; its keys are
interface values, nil (`none`) included, and an absent key reads as `none`.
`tried` records every call of the oracle gate: the program presented and the verdict.
`lines` is the line table of the file in `r.fset` (the offsets at which its lines start,
in increasing order), and `layout` gives the positions of the statements of the list
under reduction, one entry for each statement. -/
structure Reducer where
  info : Info
  useIdents : Option Obj → Option (List IdentId)
  fileOf : List Stmt → File
  imports : List ImportSpec
  names : IdentId → String
  toks : AssignId → Token
  list : List Stmt
  stmt : Stmt
  expr : Expr
  node : Expr
  didChange : Bool
  tried : List (Prog × Bool)
  lines : List Nat
  layout : List Layout

/-- `r.file`: the file, with the statement list under reduction in its current state. -/
def Reducer.file (r : Reducer) : File := r.fileOf r.list

/-- The program a trial presents. -/
def Reducer.prog (r : Reducer) : Prog :=
  { imports := r.imports, names := r.names, toks := r.toks, list := r.list,
    stmt := r.stmt, expr := r.expr, node := r.node }

/-- The write `id.Name = name`. -/
def Reducer.setName (r : Reducer) (id : IdentId) (name : String) : Reducer :=
  { r with names := fun i => if i = id then name else r.names i }

/-- The write `x.Tok = tok`. -/
def Reducer.setTok (r : Reducer) (x : AssignId) (tok : Token) : Reducer :=
  { r with toks := fun a => if a = x then tok else r.toks a }

/-- `r.useIdents[obj]` read as a slice: empty when the key is absent. -/
def Reducer.uses (r : Reducer) (obj : Option Obj) : List IdentId :=
  (r.useIdents obj).getD []

/-- The run-time panics of rules.go. -/
inductive Panic
  | nilDereference
  | indexOutOfRange
  | negativeLen
  | typeAssertion
  | invalidLine
  deriving DecidableEq, Repr

/-- The verdict of the oracle gate in a reducer state. The state holds the candidate
program, and also what else a gate may consult (the change flag, the earlier trials). -/
abbrev Oracle := Reducer → Bool

/-- Modelled from the spec: `okChange`, the Oracle Gate, is defined outside rules.go. It
wraps one call to the external acceptance oracle on the current candidate program and
returns the verdict; on acceptance the pass-level change flag is raised. The call is
recorded in `tried`. -/
def okChange (oracle : Oracle) (r : Reducer) : Bool × Reducer :=
  let ok := oracle r
  (ok, { r with tried := r.tried ++ [(r.prog, ok)], didChange := r.didChange || ok })

/-- Modelled from the spec: `astutil.DeleteNamedImport` is a library function outside
rules.go. It deletes from the file the import specs with the given name and path. -/
def DeleteNamedImport (r : Reducer) (name path : String) : Reducer :=
  { r with imports := r.imports.filter (fun s => ¬ (s.name = name ∧ s.path = path)) }

/-- Modelled from the spec: `astutil.AddNamedImport` is a library function outside
rules.go. It adds an import spec with the given name and path to the file unless the
file has one already. Where the new spec is placed among the imports is its business;
here it comes last. -/
def AddNamedImport (r : Reducer) (name path : String) : Reducer :=
  if r.imports.any (fun s => s.name = name ∧ s.path = path) then r
  else { r with imports := r.imports ++ [⟨name, path⟩] }

/-! ## unusedAfterDelete and afterDelete -/

/-- The callback of `ast.Inspect` in `unusedAfterDelete`. The state is the map
`remaining` and the result `objs`. -/
def unusedVisit (r : Reducer) : Callback ((Obj → Option Int) × List Obj)
  | .expr (.ident id), (remaining, objs) =>
    match r.info.Uses id with
    | none => (false, (remaining, objs))
    | some obj =>
      match remaining obj with
      | some num =>
        let objs := if num = 1 then objs ++ [obj] else objs
        (true, (fun k => if k = obj then some (num - 1) else remaining k, objs))
      | none =>
        match r.useIdents (some obj) with
        | some ids =>
          if ids.length = 1 then (true, (remaining, objs ++ [obj]))
          else (true, (fun k => if k = obj then some ((ids.length : Int) - 1) else remaining k,
            objs))
        | none => (true, (remaining, objs))
  | _, s => (true, s)

/-- `unusedAfterDelete(nodes...)`: a nil node is skipped. -/
def unusedAfterDelete (r : Reducer) (nodes : List (Option Node)) : List Obj :=
  let init : (Obj → Option Int) × List Obj := (fun _ => none, [])
  (nodes.foldl (fun s node =>
    match node with
    | none => s
    | some node => inspect (unusedVisit r) node s) init).2

/-- An entry of `imps` in `afterDelete`. -/
structure redoImp where
  name : String
  path : String

/-- An entry of `vars` in `afterDelete`; `asgn` is `none` when nil. -/
structure redoVar where
  id : IdentId
  name : String
  asgn : Option AssignId

/-- The callback of `ast.Inspect` in the `*types.Var` case of `afterDelete`. The state
is the reducer (for `Ident.Name` and `AssignStmt.Tok`) and `vars`. -/
def afterDeleteVisit (info : Info) (obj : Obj) : Callback (Reducer × List redoVar)
  | .expr (.ident x), (r, vars) =>
    let vars := vars ++ [⟨x, r.names x, none⟩]
    if info.Defs x = some obj then (true, (r.setName x "_", vars))
    else (true, (r, vars))
  | .stmt (.assignStmt x lhs _), (r, vars) =>
    if lhs.length ≠ 1 then (false, (r, vars))
    else
      match lhs.head? with
      | some (.ident id) =>
        if info.Defs id ≠ some obj then (false, (r, vars))
        else (false, ((r.setName id "_").setTok x .ASSIGN, vars ++ [⟨id, r.names id, some x⟩]))
      | _ => (false, (r, vars))
  | _, s => (true, s)

/-- The variables `afterDelete` builds up: the reducer, `imps` and `vars`. -/
structure Deleting where
  r : Reducer
  imps : List redoImp
  vars : List redoVar

/-- The body of the loop of `afterDelete` over the objects left unused. -/
def afterDeleteObj (d : Deleting) (obj : Obj) : Deleting :=
  match (d.r.info.object obj).kind with
  | .pkgName name importedName importedPath =>
    -- import wasn't named
    let name := if importedName = name then "" else name
    let path := importedPath
    { d with r := DeleteNamedImport d.r name path, imps := d.imps ++ [⟨name, path⟩] }
  | .var =>
    let p := inspectFile (afterDeleteVisit d.r.info obj) d.r.file (d.r, d.vars)
    { d with r := p.1, vars := p.2 }
  | _ => d

/-- The closure `afterDelete` returns: the imports are added back, then the entries of
`vars` are written back first to last. -/
def undoDelete (imps : List redoImp) (vars : List redoVar) (r : Reducer) : Reducer :=
  let r := imps.foldl (fun r imp => AddNamedImport r imp.name imp.path) r
  vars.foldl (fun r rvar =>
    let r := r.setName rvar.id rvar.name
    match rvar.asgn with
    | some asgn => r.setTok asgn .DEFINE
    | none => r) r

/-- `afterDelete(nodes...)`: the reducer after the call and the `undo` closure. -/
def afterDelete (nodes : List (Option Node)) (r : Reducer) : Reducer × (Reducer → Reducer) :=
  let d := (unusedAfterDelete r nodes).foldl afterDeleteObj ⟨r, [], []⟩
  (d.r, undoDelete d.imps d.vars)

/-- `afterDeleteExprs(exprs)`. -/
def afterDeleteExprs (exprs : List Expr) (r : Reducer) : Reducer × (Reducer → Reducer) :=
  afterDelete (exprs.map (fun expr => some (.expr expr))) r

/-! ## removeStmt -/

/-- `allUnusedNames(gd)`: all specs are value specs and no declared name has a recorded
use. -/
def allUnusedNames (r : Reducer) : GenDecl → Bool
  | .mk _ specs => specs.all (fun spec =>
    match spec with
    | .valueSpec names _ _ => names.all (fun name => ¬ (r.uses (r.info.Defs name)).length > 0)
    | .typeSpec _ _ => false)

/-- The statements `removeStmt` passes over without a trial (the `continue`s of its
switch): "discard those that will likely break compilation". -/
def skipStmt (r : Reducer) : Stmt → Bool
  | .declStmt gd => ! allUnusedNames r gd
  | .assignStmt x _ _ => r.toks x = .DEFINE
  | _ => false

/-! ## mergeLines (go/token) -/

/-- Modelled from the spec: `File.Line` is a library function of `go/token`, outside
rules.go. It gives the number of the line that holds the offset `p`, the lines being
numbered from 1 and starting at the offsets of the line table. -/
def lineOf (lines : List Nat) (p : Nat) : Nat :=
  (lines.filter (fun start => start ≤ p)).length

/-- Modelled from the spec: `File.MergeLine` is a library function of `go/token`, outside
rules.go. The line is merged with the next one, whose entry leaves the line table. It
panics unless `1 ≤ line < len(lines)`. -/
def MergeLine (lines : List Nat) (line : Nat) : Except Panic (List Nat) :=
  if line < 1 then .error .invalidLine
  else if line ≥ lines.length then .error .invalidLine
  else .ok (lines.eraseIdx line)

/-- The loop `for l1 < l2 { file.MergeLine(l1); l1++ }` of `mergeLines`, with `n` the
number of its iterations, `l2 - l1`. -/
def mergeLoop : Nat → Nat → List Nat → Except Panic (List Nat)
  | 0, _, lines => .ok lines
  | n + 1, l1, lines =>
    match MergeLine lines l1 with
    | .error e => .error e
    | .ok lines => mergeLoop n (l1 + 1) lines

/-- `r.mergeLines(start, end)`: the line table after the call. -/
def mergeLines (start stop : Nat) (lines : List Nat) : Except Panic (List Nat) :=
  let l1 := lineOf lines start
  let l2 := lineOf lines stop
  mergeLoop (l2 - l1) l1 lines

/-- `r.mergeLinesNode(stmt)` for the statement at index `i` of the list as it was; the
statement has left the list, and `layout` follows. -/
def mergeLinesNode (i : Nat) (r : Reducer) : Except Panic Reducer :=
  let span := Layout.nth r.layout i
  match mergeLines span.pos (span.stop + 1) r.lines with
  | .error e => .error e
  | .ok lines => .ok { r with lines := lines, layout := r.layout.eraseIdx i }

/-- The loop of `removeStmt` from statement `i` on (`rest` is `orig[i:]`), then the
closing `*list = orig`. The two `copy` calls fill `l`, of length `len(orig)-1`, with
`orig[:i]` followed by `orig[i+1:]`. After an accepted trial `mergeLinesNode` is called,
which may panic. -/
def removeStmtLoop (oracle : Oracle) (orig : List Stmt) :
    Nat → List Stmt → Reducer → Except Panic Reducer
  | _, [], r => .ok { r with list := orig }
  | i, stmt :: rest, r =>
    if skipStmt r stmt then removeStmtLoop oracle orig (i + 1) rest r
    else
      let (r, undo) := afterDelete [some (.stmt stmt)] r
      let l := orig.take i ++ orig.drop (i + 1)
      let r := { r with list := l }
      let (ok, r) := okChange oracle r
      if ok then mergeLinesNode i r
      else removeStmtLoop oracle orig (i + 1) rest (undo r)

/-- `removeStmt(list)`. The allocation `make([]ast.Stmt, len(orig)-1)` panics when the
list is empty. -/
def removeStmt (oracle : Oracle) (r : Reducer) : Except Panic Reducer :=
  let orig := r.list
  if orig.length = 0 then .error .negativeLen
  else removeStmtLoop oracle orig 0 orig r

/-! ## inlineBlock -/

/-- An entry of `undoIdents` in `inlineBlock`. -/
structure undoIdent where
  id : IdentId
  name : String

/-- The loop `for scope.Lookup(newName) != nil { newName += "_" }`, run for at most
`fuel` tests of its condition. -/
def freshLoop (scope : Scope) : Nat → String → String
  | 0, newName => newName
  | fuel + 1, newName =>
    if scope.Lookup newName ≠ none then freshLoop scope fuel (newName ++ "_") else newName

/-- The name `inlineBlock` renames to: `name + "_"` with underscores appended while the
scope holds the name. A scope of `n` objects fails one of any `n + 1` names, so `n + 1`
tests are enough: the loop ends on a name the scope does not hold (`freshName_lookup`). -/
def freshName (scope : Scope) (name : String) : String :=
  freshLoop scope (scope.elems.length + 1) (name ++ "_")

/-- The body of the loop of `inlineBlock` over the statements of a block: the renaming
of one statement's target. A call through a nil object or a nil scope panics. -/
def renameStmt (r : Reducer) (undoIdents : List undoIdent) :
    Stmt → Except Panic (Reducer × List undoIdent)
  | .assignStmt x lhs _ =>
    if r.toks x = .ASSIGN ∨ lhs.length ≠ 1 then .ok (r, undoIdents)
    else
      match lhs.head? with
      | some (.ident id) =>
        match r.info.Defs id with
        | none => .error .nilDereference
        | some obj =>
          match (r.info.object obj).parent with
          | none => .error .nilDereference
          | some scope =>
            match (r.info.scope scope).parent with
            | none => .error .nilDereference
            | some outer =>
              if (r.info.scope outer).Lookup (r.names id) = none then .ok (r, undoIdents)
              else
                let origName := r.names id
                let newName := freshName (r.info.scope scope) (r.names id)
                let r := r.setName id newName
                .ok ((r.uses (some obj)).foldl (fun p id =>
                  (p.1.setName id newName, p.2 ++ [⟨id, origName⟩])) (r, undoIdents))
      | _ => .ok (r, undoIdents)
  | _ => .ok (r, undoIdents)

/-- The loop of `inlineBlock` over the statements of a block. -/
def renameStmts :
    List Stmt → Reducer → List undoIdent → Except Panic (Reducer × List undoIdent)
  | [], r, undoIdents => .ok (r, undoIdents)
  | stmt :: rest, r, undoIdents =>
    match renameStmt r undoIdents stmt with
    | .error e => .error e
    | .ok p => renameStmts rest p.1 p.2

/-- The two calls `r.mergeLines(bl.Pos(), bl.List[0].Pos())` and
`r.mergeLines(bl.List[len(bl.List)-1].End(), bl.End())` for the block at index `i` of the
list as it was, a block of `n` statements; the statements of the block have taken its
place in the list, and `layout` follows. -/
def mergeLinesBlock (i n : Nat) (r : Reducer) : Except Panic Reducer :=
  let bl := Layout.nth r.layout i
  match mergeLines bl.pos (Layout.nth bl.inner 0).pos r.lines with
  | .error e => .error e
  | .ok lines =>
    match mergeLines (Layout.nth bl.inner (n - 1)).stop bl.stop lines with
    | .error e => .error e
    | .ok lines =>
      .ok { r with lines := lines,
                   layout := r.layout.take i ++ bl.inner ++ r.layout.drop (i + 1) }

/-- The loop of `inlineBlock` from statement `i` on (`rest` is `orig[i:]`), then the
closing writes: the names of `undoIdents` are restored and `*list = orig`. On an accepted
splice `bl.List[0]` is evaluated for the line merging, which panics on an empty block;
the line merging itself may panic too. -/
def inlineBlockLoop (oracle : Oracle) (orig : List Stmt) :
    Nat → List Stmt → Reducer → List undoIdent → Except Panic Reducer
  | _, [], r, undoIdents =>
    let r := undoIdents.foldl (fun r ui => r.setName ui.id ui.name) r
    .ok { r with list := orig }
  | i, .blockStmt bl :: rest, r, undoIdents =>
    match renameStmts bl r undoIdents with
    | .error e => .error e
    | .ok (r, undoIdents) =>
      let l := orig.take i ++ bl ++ orig.drop (i + 1)
      let r := { r with list := l }
      let (ok, r) := okChange oracle r
      if ok then
        if bl.length = 0 then .error .indexOutOfRange else mergeLinesBlock i bl.length r
      else inlineBlockLoop oracle orig (i + 1) rest r undoIdents
  | i, _ :: rest, r, undoIdents => inlineBlockLoop oracle orig (i + 1) rest r undoIdents

/-- `inlineBlock(list)`. -/
def inlineBlock (oracle : Oracle) (r : Reducer) : Except Panic Reducer :=
  let orig := r.list
  inlineBlockLoop oracle orig 0 orig r []

/-! ## changeStmt, changeExpr, reduceLit, reduceSlice -/

/-- `changeStmt(stmt)`. -/
def changeStmt (oracle : Oracle) (stmt : Stmt) (r : Reducer) : Bool × Reducer :=
  let orig := r.stmt
  let (ok, r) := okChange oracle { r with stmt := stmt }
  if ok then (true, r) else (false, { r with stmt := orig })

/-- `changeExpr(expr)`. -/
def changeExpr (oracle : Oracle) (expr : Expr) (r : Reducer) : Bool × Reducer :=
  let orig := r.expr
  let (ok, r) := okChange oracle { r with expr := expr }
  if ok then (true, r) else (false, { r with expr := orig })

/-- `reduceLit(l)` for the literal `l` of the given kind and value. -/
def reduceLit (oracle : Oracle) (kind : Token) (value : String) (r : Reducer) : Reducer :=
  let orig := value
  let changeValue := fun (val : String) =>
    if value = val then (false, r)
    else
      let (ok, r) := okChange oracle { r with node := .basicLit kind val }
      if ok then (true, r) else (false, { r with node := .basicLit kind orig })
  match kind with
  | .STRING => (changeValue "\"\"").2
  | .INT => (changeValue "0").2
  | _ => r

/-- The fields of a `*ast.SliceExpr`. -/
structure SliceExpr where
  X : Expr
  Low : Option Expr
  High : Option Expr
  Max : Option Expr
  Slice3 : Bool

/-- The slice expression as an expression node. -/
def SliceExpr.toExpr (sl : SliceExpr) : Expr :=
  .sliceExpr sl.X sl.Low sl.High sl.Max sl.Slice3

/-- The read `*expr` through entry `i` of `[...]*ast.Expr{&sl.Max, &sl.High, &sl.Low}`. -/
def SliceExpr.bound (sl : SliceExpr) : Nat → Option Expr
  | 0 => sl.Max
  | 1 => sl.High
  | _ => sl.Low

/-- The write `*expr = v` through entry `i` of the same array. -/
def SliceExpr.setBound (sl : SliceExpr) (v : Option Expr) : Nat → SliceExpr
  | 0 => { sl with Max := v }
  | 1 => { sl with High := v }
  | _ => { sl with Low := v }

/-- The loop of `reduceSlice` over the entries `is` of the array of bounds. It returns
the slice expression as the loop leaves it, and the reducer. -/
def reduceSliceLoop (oracle : Oracle) : List Nat → SliceExpr → Reducer → SliceExpr × Reducer
  | [], sl, r => (sl, r)
  | i :: is, sl, r =>
    match sl.bound i with
    | none => reduceSliceLoop oracle is sl r
    | some orig =>
      let sl := if i = 0 then { sl with Slice3 := false } else sl
      let sl := sl.setBound none i
      let (ok, r) := okChange oracle { r with node := sl.toExpr }
      if ok then (sl, r)
      else
        let sl := if i = 0 then { sl with Slice3 := true } else sl
        let sl := sl.setBound (some orig) i
        reduceSliceLoop oracle is sl { r with node := sl.toExpr }

/-- `reduceSlice(sl)`: the slice expression as the call leaves it, and the reducer. -/
def reduceSlice (oracle : Oracle) (sl : SliceExpr) (r : Reducer) : SliceExpr × Reducer :=
  let (ok, r) := changeExpr oracle sl.X r
  if ok then (sl, r)
  else reduceSliceLoop oracle [0, 1, 2] sl r

/-! ## reduceNode -/

/-- The inner loop of the constant search: the names of one value spec. `vs.Values[i]`
panics when the spec has no value at the index of the name. -/
def constInNames (info : Info) (obj : Obj) (values : List Expr) :
    Nat → List IdentId → Except Panic (Option Expr)
  | _, [] => .ok none
  | i, name :: names =>
    if info.Defs name = some obj then
      match values.get? i with
      | some expr => .ok (some expr)
      | none => .error .indexOutOfRange
    else constInNames info obj values (i + 1) names

/-- The loop of the constant search over the specs of a constant declaration. The
assertion `spec.(*ast.ValueSpec)` panics on another spec. -/
def constInSpecs (info : Info) (obj : Obj) : List Spec → Except Panic (Option Expr)
  | [] => .ok none
  | .valueSpec names _ values :: specs =>
    match constInNames info obj values 0 names with
    | .error e => .error e
    | .ok (some expr) => .ok (some expr)
    | .ok none => constInSpecs info obj specs
  | .typeSpec _ _ :: _ => .error .typeAssertion

/-- The callback of `ast.Inspect` in the identifier case of `reduceNode`. The state is
the variable `expr`, or the panic that ended the search. -/
def constVisit (info : Info) (obj : Obj) : Callback (Except Panic (Option Expr))
  | .stmt (.declStmt (.mk tok specs)), s =>
    if tok ≠ .CONST then (false, s)
    else
      match constInSpecs info obj specs with
      | .error e => (false, s.bind (fun _ => .error e))
      | .ok (some expr) => (false, s.bind (fun _ => .ok (some expr)))
      | .ok none => (true, s)
  | _, s => (true, s)

/-- The argument of `reduceNode`: a node, or a `*[]ast.Stmt`, which is the list of the
reducer. -/
inductive Value
  | node (n : Node)
  | stmts

/-- `reduceNode(v)`: the result and the reducer after the call. -/
def reduceNode (oracle : Oracle) (v : Value) (r : Reducer) : Except Panic (Bool × Reducer) :=
  if r.didChange then .ok (false, r)
  else
    match v with
    | .node (.importSpec _) => .ok (false, r)
    | .stmts =>
      match removeStmt oracle r with
      | .error e => .error e
      | .ok r =>
        match inlineBlock oracle r with
        | .error e => .error e
        | .ok r => .ok (true, r)
    | .node (.stmt (.ifStmt init cond body els)) =>
      let (r, undo) := afterDelete [init.map .stmt, some (.expr cond), els.map .stmt] r
      let (ok, r) := changeStmt oracle (.blockStmt body) r
      if ok then .ok (true, r)
      else
        let r := undo r
        match els with
        | some e =>
          let (r, undo) :=
            afterDelete [init.map .stmt, some (.expr cond), some (.stmt (.blockStmt body))] r
          let (ok, r) := changeStmt oracle e r
          if ok then .ok (true, r) else .ok (true, undo r)
        | none => .ok (true, r)
    | .node (.expr (.ident x)) =>
      match r.info.Uses x with
      | none => .ok (true, r)
      | some obj =>
        match (r.info.object obj).type with
        | .other => .ok (true, r)
        | .basic untyped =>
          if untyped = false then .ok (true, r)
          else
            match inspectFile (constVisit r.info obj) r.file (.ok none) with
            | .error e => .error e
            | .ok none => .ok (true, r)
            | .ok (some expr) => .ok (true, (changeExpr oracle expr r).2)
    | .node (.expr (.basicLit kind value)) => .ok (true, reduceLit oracle kind value r)
    | .node (.expr (.sliceExpr x low high max slice3)) =>
      .ok (true, (reduceSlice oracle ⟨x, low, high, max, slice3⟩ r).2)
    | .node (.expr (.compositeLit type elts)) =>
      if elts.length = 0 then .ok (true, r)
      else
        let orig := elts
        let (r, undo) := afterDeleteExprs elts r
        let (ok, r) := okChange oracle { r with node := .compositeLit type [] }
        if ok then .ok (true, r)
        else
          let r := undo r
          .ok (true, { r with node := .compositeLit type orig })
    | .node (.expr (.binaryExpr x _ y)) =>
      let (r, undo) := afterDelete [some (.expr y)] r
      let (ok, r) := changeExpr oracle x r
      if ok then .ok (true, r)
      else
        let r := undo r
        let (r, undo) := afterDelete [some (.expr x)] r
        let (ok, r) := changeExpr oracle y r
        if ok then .ok (true, r) else .ok (true, undo r)
    | .node (.expr (.parenExpr x)) => .ok (true, (changeExpr oracle x r).2)
    | .node (.expr (.indexExpr x index)) =>
      let (r, undo) := afterDelete [some (.expr index)] r
      let (ok, r) := changeExpr oracle x r
      if ok then .ok (true, r) else .ok (true, undo r)
    | .node (.expr (.starExpr x)) => .ok (true, (changeExpr oracle x r).2)
    | .node (.expr (.unaryExpr _ x)) => .ok (true, (changeExpr oracle x r).2)
    | .node (.stmt (.goStmt call)) => .ok (true, (changeStmt oracle (.exprStmt call) r).2)
    | .node (.stmt (.deferStmt call)) => .ok (true, (changeStmt oracle (.exprStmt call) r).2)
    | _ => .ok (true, r)


/-! ## Notions used in the statements -/

/-- The occurrences among `ids` whose `Uses` entry is `S`. -/
def usesIn (r : Reducer) (S : Obj) (ids : List IdentId) : List IdentId :=
  ids.filter (fun id => r.info.Uses id = some S)

/-- The state of `unusedAfterDelete` as far as it concerns the object `S`, after the
identifiers `P` have been visited: `S` is in `objs` exactly when all its recorded uses are
among `P`, and `remaining[S]` counts the uses still outside `P` once `S` has been met and
has several uses. -/
def UnusedAt (r : Reducer) (P : List IdentId) (st : (Obj → Option Int) × List Obj)
    (S : Obj) : Prop :=
  ((usesIn r S P).length = 0 → st.1 S = none ∧ S ∉ st.2) ∧
  (1 ≤ (usesIn r S P).length → (r.uses (some S)).length = 1 →
    st.1 S = none ∧ S ∈ st.2) ∧
  (1 ≤ (usesIn r S P).length → (r.uses (some S)).length ≠ 1 →
    st.1 S = some (((r.uses (some S)).length : Int) - ((usesIn r S P).length : Int)) ∧
    (S ∈ st.2 ↔ (usesIn r S P).length = (r.uses (some S)).length))

/-- The state of `unusedAfterDelete` after the identifiers `P` have been visited. -/
def UnusedInv (r : Reducer) (P : List IdentId) (st : (Obj → Option Int) × List Obj) : Prop :=
  st.2.Nodup ∧ ∀ S : Obj, UnusedAt r P st S

/-- The assumption on `useIdents`: for every object it lists, without duplicates, exactly
the identifiers whose `Uses` entry is the object. -/
def UseIdentsExact (r : Reducer) : Prop :=
  ∀ S : Obj, (r.uses (some S)).Nodup ∧
    ∀ id, id ∈ r.uses (some S) ↔ r.info.Uses id = some S

/-- The reducer `r'` has the symbol index, the file around the list, the list, the
record of trials and the change flag of `r`: the two differ at most in the names, the
tokens, the imports and the slots. -/
def Frame (r r' : Reducer) : Prop :=
  r'.info = r.info ∧ r'.useIdents = r.useIdents ∧ r'.fileOf = r.fileOf ∧
    r'.list = r.list ∧ r'.tried = r.tried ∧ r'.didChange = r.didChange

/-- The assignment statement and its target, for an assignment statement with a single
target that is an identifier. -/
def defTarget : Node → Option (AssignId × IdentId)
  | .stmt (.assignStmt x [.ident id] _) => some (x, id)
  | _ => none

/-- The single-target assignments among a list of nodes. -/
def defTargets (ns : List Node) : List (AssignId × IdentId) :=
  ns.filterMap defTarget

/-- The state of a traversal of `afterDelete` started from `r`: the reducer is `r` up to
names, tokens and imports, a token differs from its value in `r` only for an assignment
entered in `vars`, and the assignments entered in `vars` satisfy `T`. -/
def VisitInv (T : AssignId → Prop) (r : Reducer) (p : Reducer × List redoVar) : Prop :=
  Frame r p.1 ∧ (∀ a, p.1.toks a = r.toks a ∨ ∃ v ∈ p.2, v.asgn = some a) ∧
    ∀ v ∈ p.2, ∀ a, v.asgn = some a → T a

/-- The nodes the traversal of `afterDelete` visits in the file: it descends everywhere
but into assignment statements. -/
def deleteNodes (r : Reducer) : List Node :=
  visitFile (fun n => !n.isAssign) r.file

/-- Every single-target assignment that `afterDelete` reaches in the file of `r` and whose
target has an entry in `Defs` satisfies `T`. -/
def TargetsSatisfy (T : AssignId → Prop) (r : Reducer) : Prop :=
  ∀ q ∈ defTargets (deleteNodes r), (r.info.Defs q.2).isSome → T q.1

/-- A declaration all of whose specs are value specs declaring names without a recorded
use. -/
def UnusedValueSpecs (r : Reducer) (specs : List Spec) : Prop :=
  ∀ spec ∈ specs, ∃ names type values, spec = .valueSpec names type values ∧
    ∀ name ∈ names, r.uses (r.info.Defs name) = []

/-- The statements that are not to be removed: a defining assignment (`:=`), and a
declaration statement unless every spec in it is a value spec and every declared name has
no recorded use. -/
def Kept (r : Reducer) (stmt : Stmt) : Prop :=
  (∃ x lhs rhs, stmt = .assignStmt x lhs rhs ∧ r.toks x = .DEFINE) ∨
  (∃ tok specs, stmt = .declStmt (.mk tok specs) ∧ ¬ UnusedValueSpecs r specs)

/-- The list `removeStmt` presents at index `i`: `orig` without its statement `i`. -/
def without (orig : List Stmt) (i : Nat) : List Stmt :=
  orig.take i ++ orig.drop (i + 1)

/-- The candidate list and the verdict of a recorded trial. -/
def trialList (t : Prog × Bool) : List Stmt × Bool := (t.1.list, t.2)

/-- The statement at index `j` of `orig` exists and `removeStmt` does not pass over it. -/
def notSkipped (r : Reducer) (orig : List Stmt) (j : Nat) : Bool :=
  match orig[j]? with
  | some stmt => !skipStmt r stmt
  | none => false

/-- The rejected trials of `removeStmt` over the indices `js`: one for each statement not
passed over, in order. -/
def rejected (r : Reducer) (orig : List Stmt) (js : List Nat) : List (List Stmt × Bool) :=
  (js.filter (notSkipped r orig)).map (fun j => (without orig j, false))

/-- The symbol index agrees with the tokens on the assignments: in the file, with the
list as it is or with one statement removed, every assignment statement outside other
assignment statements whose single target has an entry in `Defs` is a defining one (the
type checker enters in `Defs` the targets of `:=` only). -/
def TypedAssigns (r : Reducer) : Prop :=
  ∀ l ∈ r.list :: (List.range r.list.length).map (without r.list),
    ∀ q ∈ defTargets (visitFile (fun n => !n.isAssign) (r.fileOf l)),
      (r.info.Defs q.2).isSome → r.toks q.1 = .DEFINE

/-- The name `s` followed by `k` underscores. -/
def underscores (s : String) : Nat → String
  | 0 => s
  | k + 1 => underscores (s ++ "_") k

/-! ## Example programs -/

/-- A table read as a Go map with values that may be nil. -/
def mapOf {α : Type} (l : List (Nat × α)) : Nat → Option α :=
  fun k => l.lookup k

/-- The names of identifiers, from a table. -/
def namesOf (l : List (IdentId × String)) : IdentId → String :=
  fun i => (l.lookup i).getD ""

/-- The objects of the examples: variables `10`–`19`, anything else is not a variable.
A variable's scope is given by the table. -/
def objectsOf (parents : List (Obj × ScopeId)) : Obj → Object :=
  fun o =>
    if 10 ≤ o ∧ o < 20 then ⟨.var, .other, parents.lookup o⟩ else ⟨.other, .other, none⟩

/-- The scopes, from a table; a scope outside the table is empty and has no parent. -/
def scopesOf (l : List (ScopeId × Scope)) : ScopeId → Scope :=
  fun s => (l.lookup s).getD ⟨none, []⟩

/-- `useIdents`, from a table. -/
def useIdentsOf (l : List (Obj × List IdentId)) : Option Obj → Option (List IdentId)
  | none => none
  | some o => l.lookup o

mutual
/-- The number of lines of a statement of the examples as they are printed: a block is
`{`, its statements and `}`, each on lines of their own; any other statement of the
examples is one line. -/
def stmtHeight : Stmt → Nat
  | .blockStmt list => stmtsHeight list + 2
  | _ => 1
/-- The number of lines of a list of statements. -/
def stmtsHeight : List Stmt → Nat
  | [] => 0
  | stmt :: list => stmtHeight stmt + stmtsHeight list
end

mutual
/-- The positions of a statement printed from line `line` on with `depth` tabs before
it. Line `k` of the examples holds the offsets `100 * (k - 1)` to `100 * k - 1`, the last
one being its newline: a statement that ends its line ends at the newline. -/
def layoutStmt (line depth : Nat) : Stmt → Layout
  | .blockStmt list =>
    .mk (100 * (line - 1) + depth) (100 * (line + stmtsHeight list) + 99)
      (layoutStmts (line + 1) (depth + 1) list)
  | _ => .mk (100 * (line - 1) + depth) (100 * (line - 1) + 99) []
/-- The positions of the statements of a list printed from line `line` on. -/
def layoutStmts (line depth : Nat) : List Stmt → List Layout
  | [] => []
  | stmt :: list => layoutStmt line depth stmt :: layoutStmts (line + stmtHeight stmt) depth list
end

/-- The line table of a file of `n` lines. -/
def fileLines (n : Nat) : List Nat := (List.range n).map (fun k => 100 * k)

/-- The file `package p; func f(params) { list }`: identifier `0` is `p`, identifier `1`
is `f`. It is printed with `package p` on line 1, `func f(params) {` on line 2, the
statements of the list from line 3 on and the closing `}` on the last line. -/
def inFuncOf (params : List Field) (list : List Stmt) : File :=
  ⟨0, [.funcDecl none 1 params none (some list)]⟩

/-- The file `package p; func f() { list }`. -/
def inFunc (list : List Stmt) : File := inFuncOf [] list

/-- The statement `println(a, b)` of `twoVars`. -/
def printAB : Stmt := .exprStmt (.callExpr (.ident 4) [.ident 5, .ident 6])

/-- The program
```
package p
func f() {
	var a = 1
	var b = 2
	println(a, b)
}
```
Identifiers: `2` and `3` declare `a` and `b`, `4` is `println`, `5` and `6` use `a` and
`b`. Objects: `10` is `a`, `11` is `b`, `20` is `f`, `21` is `println`. -/
def twoVars : Reducer :=
  { info :=
      { Defs := mapOf [(1, 20), (2, 10), (3, 11)]
        Uses := mapOf [(4, 21), (5, 10), (6, 11)]
        object := objectsOf [(10, 2), (11, 2)]
        scope := scopesOf [(1, ⟨none, [("f", 20)]⟩),
          (2, ⟨some 1, [("a", 10), ("b", 11)]⟩)] }
    useIdents := useIdentsOf [(10, [5]), (11, [6]), (21, [4])]
    fileOf := inFunc
    imports := []
    names := namesOf [(0, "p"), (1, "f"), (2, "a"), (3, "b"), (4, "println"), (5, "a"),
      (6, "b")]
    toks := fun _ => .ASSIGN
    list := [.declStmt (.mk .VAR [.valueSpec [2] none [.basicLit .INT "1"]]),
      .declStmt (.mk .VAR [.valueSpec [3] none [.basicLit .INT "2"]]), printAB]
    stmt := .emptyStmt
    expr := .ident 0
    node := .ident 0
    didChange := false
    tried := []
    lines := fileLines 6
    layout := [.mk 201 299 [], .mk 301 399 [], .mk 401 499 []] }

/-- The block `{ a := 1; println(a) }` of the examples below: identifier `5` declares the
block's `a` (object `11`), `6` is `println`, `7` uses the block's `a`; the assignment has
identity `0`. -/
def blockA : Stmt :=
  .blockStmt [.assignStmt 0 [.ident 5] [.basicLit .INT "1"],
    .exprStmt (.callExpr (.ident 6) [.ident 7])]

/-- The statement `g()`: identifier `4` uses `g` (object `22`). -/
def callG : Stmt := .exprStmt (.callExpr (.ident 4) [])

/-- The symbol index of the programs below, over a function `f(a int)` or
`f(a, a_ int)`, with `outer` the objects of the function's scope: identifier `2` declares
the parameter `a` (object `10`), identifier `3` the parameter `a_` (object `12`),
identifier `8` is `int` (object `23`); scope `2` is the function's, scope `3` the
block's. -/
def blockInfo (outer : List (String × Obj)) : Info :=
  { Defs := mapOf [(1, 20), (2, 10), (3, 12), (5, 11)]
    Uses := mapOf [(4, 22), (6, 21), (7, 11), (8, 23)]
    object := objectsOf [(10, 2), (12, 2), (11, 3)]
    scope := scopesOf [(1, ⟨none, [("f", 20), ("g", 22)]⟩), (2, ⟨some 1, outer⟩),
      (3, ⟨some 2, [("a", 11)]⟩)] }

/-- A reducer over the body `list` of a function with the parameters `params`, whose
scope declares `outer`, with the symbol index `blockInfo`. The file is printed as the
examples below show it, after the line `package p`. -/
def blockReducer (params : List IdentId) (outer : List (String × Obj)) (list : List Stmt) :
    Reducer :=
  { info := blockInfo outer
    useIdents := useIdentsOf [(11, [7]), (21, [6]), (22, [4]), (23, [8])]
    fileOf := inFuncOf [.mk params (.ident 8)]
    imports := []
    names := namesOf [(0, "p"), (1, "f"), (2, "a"), (3, "a_"), (4, "g"), (5, "a"),
      (6, "println"), (7, "a"), (8, "int")]
    toks := fun _ => .DEFINE
    list := list
    stmt := .emptyStmt
    expr := .ident 0
    node := .ident 0
    didChange := false
    tried := []
    lines := fileLines (stmtsHeight list + 3)
    layout := layoutStmts 3 1 list }

/-- The program
```
func f(a int) {
	g()
	{
		a := 1
		println(a)
	}
}
``` -/
def callThenBlock : Reducer := blockReducer [2] [("a", 10)] [callG, blockA]

/-- The program
```
func f(a int) {
	{
		a := 1
		println(a)
	}
}
``` -/
def oneBlock : Reducer := blockReducer [2] [("a", 10)] [blockA]

/-- The program
```
func f(a int) {
	{
		a := 1
		println(a)
	}
	{
		g()
	}
}
``` -/
def twoBlocks : Reducer := blockReducer [2] [("a", 10)] [blockA, .blockStmt [callG]]

/-- The program
```
func f(a, a_ int) {
	{
		a := 1
		println(a)
	}
}
``` -/
def outerTaken : Reducer := blockReducer [2, 3] [("a", 10), ("a_", 12)] [blockA]

/-- The oracle that accepts the candidates whose list has `n` statements. -/
def acceptLength (n : Nat) : Oracle := fun r => r.list.length = n

/-- The oracle that rejects every candidate. -/
def rejectAll : Oracle := fun _ => false

/-- The statement `println(x)` of `inFuncLit`. -/
def printX : Stmt := .exprStmt (.callExpr (.ident 5) [.ident 6])

/-- The program
```
package p
func f() {
	h := func() {
		x := 1
		println(x)
	}
	h()
}
```
with the body of the function literal as the list under reduction. Identifiers: `2`
declares `h` (object `10`), `3` uses it, `4` declares `x` (object `11`), `5` is `println`,
`6` uses `x`. Assignment `0` is `h := ...`, assignment `1` is `x := 1`. -/
def inFuncLit : Reducer :=
  { info :=
      { Defs := mapOf [(1, 20), (2, 10), (4, 11)]
        Uses := mapOf [(3, 10), (5, 21), (6, 11)]
        object := objectsOf [(10, 2), (11, 3)]
        scope := scopesOf [(1, ⟨none, [("f", 20)]⟩), (2, ⟨some 1, [("h", 10)]⟩),
          (3, ⟨some 2, [("x", 11)]⟩)] }
    useIdents := useIdentsOf [(10, [3]), (11, [6]), (21, [5])]
    fileOf := fun list => inFunc [.assignStmt 0 [.ident 2] [.funcLit [] none list],
      .exprStmt (.callExpr (.ident 3) [])]
    imports := []
    names := namesOf [(0, "p"), (1, "f"), (2, "h"), (3, "h"), (4, "x"), (5, "println"),
      (6, "x")]
    toks := fun _ => .DEFINE
    list := [.assignStmt 1 [.ident 4] [.basicLit .INT "1"], printX]
    stmt := .emptyStmt
    expr := .ident 0
    node := .ident 0
    didChange := false
    tried := []
    lines := fileLines 8
    layout := [.mk 302 399 [], .mk 402 499 []] }

/-- What a property reads from the reducer a rule returns; `none` when the rule
panics. -/
def observe {α : Type} (res : Except Panic Reducer) (f : Reducer → α) : Option α :=
  match res with
  | .ok r => some (f r)
  | .error _ => none

/-! ## Notions used in the statements on reduceNode and its rules -/

/-- Whether the argument of `reduceNode` is an import spec. -/
def Value.isImportSpec : Value → Bool
  | .node (.importSpec _) => true
  | _ => false

/-- The reducer `r'` is `r` up to the names, the tokens and the imports: the symbol
index, the file around the list, the list, the slots, the record of trials and the change
flag are those of `r`. -/
def OnlyNames (r r' : Reducer) : Prop :=
  r' = { r with names := r'.names, toks := r'.toks, imports := r'.imports }

/-- The slice expression after a rejected trial on its max bound: the code sets the
three-bound flag when it puts the bound back. Without a max bound nothing is written. -/
def SliceExpr.afterMax (sl : SliceExpr) : SliceExpr :=
  match sl.Max with
  | some _ => { sl with Slice3 := true }
  | none => sl

/-- The candidates after the base operand, in the order of the claim: max bound removed,
high bound removed, low bound removed, skipping the absent bounds. -/
def SliceExpr.boundCandidates (sl : SliceExpr) : List SliceExpr :=
  (match sl.Max with
    | some _ => [{ sl with Max := none, Slice3 := false }]
    | none => []) ++
  (match sl.High with
    | some _ => [{ sl.afterMax with High := none }]
    | none => []) ++
  (match sl.Low with
    | some _ => [{ sl.afterMax with Low := none }]
    | none => [])

/-- The candidates of `reduceSlice` as the oracle sees them, the slot `*r.expr` and the
node under reduction: first the base operand in the slot, then the node with a bound
removed. -/
def sliceCandidates (sl : SliceExpr) (r : Reducer) : List (Expr × Expr) :=
  (sl.X, r.node) :: sl.boundCandidates.map (fun s => (r.expr, s.toExpr))

/-- What a trial shows of the expression slot and of the node under reduction, and the
verdict. -/
def trialView (t : Prog × Bool) : (Expr × Expr) × Bool := ((t.1.expr, t.1.node), t.2)

/-- The candidate of the loop of `reduceSlice` at entry `i`: the bound removed, and the
three-bound flag cleared with the max bound. -/
def SliceExpr.candidate (sl : SliceExpr) (i : Nat) : SliceExpr :=
  (if i = 0 then { sl with Slice3 := false } else sl).setBound none i

/-- The slice expression after a rejected trial at entry `i`, whose bound was `orig`. -/
def SliceExpr.restored (sl : SliceExpr) (i : Nat) (orig : Expr) : SliceExpr :=
  (if i = 0 then { sl.candidate i with Slice3 := true } else sl.candidate i).setBound
    (some orig) i

/-- The candidates of the loop of `reduceSlice` over the entries `is` when every trial
is rejected. -/
def loopCandidates : List Nat → SliceExpr → List SliceExpr
  | [], _ => []
  | i :: is, sl =>
    match sl.bound i with
    | none => loopCandidates is sl
    | some orig => sl.candidate i :: loopCandidates is (sl.restored i orig)

/-- The slice expression after the loop of `reduceSlice` over the entries `is` when every
trial is rejected. -/
def loopRestored : List Nat → SliceExpr → SliceExpr
  | [], sl => sl
  | i :: is, sl =>
    match sl.bound i with
    | none => loopRestored is sl
    | some orig => loopRestored is (sl.restored i orig)

/-- The reducer `r'` differs from `r` in names, tokens and imports only by what
`afterDelete` writes: a name is as in `r` or `_`, a token is as in `r` or `=`, and
every import spec of `r'` is one of `r`. -/
def Blanked (r r' : Reducer) : Prop :=
  (∀ x, r'.names x = r.names x ∨ r'.names x = "_") ∧
  (∀ a, r'.toks a = r.toks a ∨ r'.toks a = .ASSIGN) ∧
  (∀ s ∈ r'.imports, s ∈ r.imports)

/-- What `afterDelete` does for the object `obj`, read in `r'`, `ns` being the nodes its
traversal visits. For an imported package known in the file under a name that is not the
package's own, no import spec with this name and the package's path is left; for one
known under the package's own name, no import spec without a name and with the package's
path is left (an import spec that gives the package its own name, as
`fmt "fmt"`, is not covered). For a variable, every identifier among `ns` that declares it
is named `_`, and every assignment statement among `ns` with a single target that declares
it has this target named `_` and the token `=`. Nothing is asked for an object of another
kind. -/
def NeutralizedObj (info : Info) (ns : List Node) (r' : Reducer) (obj : Obj) : Prop :=
  (∀ name iname ipath, (info.object obj).kind = .pkgName name iname ipath →
    ∀ s ∈ r'.imports, s.path = ipath →
      (name ≠ iname → s.name ≠ name) ∧ (name = iname → s.name ≠ "")) ∧
  ((info.object obj).kind = .var →
    (∀ x ∈ identsOf ns, info.Defs x = some obj → r'.names x = "_") ∧
    (∀ q ∈ defTargets ns, info.Defs q.2 = some obj →
      r'.names q.2 = "_" ∧ r'.toks q.1 = .ASSIGN))

/-- Every object of `objs` is neutralized in `r'`. -/
def Neutralized (info : Info) (ns : List Node) (objs : List Obj) (r' : Reducer) : Prop :=
  ∀ obj ∈ objs, NeutralizedObj info ns r' obj

/-- The groups of nodes that the rules of `reduceNode` hand to `afterDelete`, one for each
trial in order: for a conditional statement the init statement, the condition and the else
branch, then (with an else branch) the init statement, the condition and the body; for
a composite literal its elements; for a binary expression the right operand, then the
left one; for an index expression the index. -/
def removedGroups : Value → List (List (Option Node))
  | .node (.stmt (.ifStmt init cond body els)) =>
    [init.map .stmt, some (.expr cond), els.map .stmt] ::
      (match els with
        | some _ => [[init.map .stmt, some (.expr cond), some (.stmt (.blockStmt body))]]
        | none => [])
  | .node (.expr (.compositeLit _ elts)) => [elts.map (fun expr => some (.expr expr))]
  | .node (.expr (.binaryExpr x _ y)) => [[some (.expr y)], [some (.expr x)]]
  | .node (.expr (.indexExpr _ index)) => [[some (.expr index)]]
  | _ => []

/-- The initializer of the constant `obj` in a value spec: the value at the index of the
first name that declares it, whether the spec has one name or several; none when no name
of the spec declares it. -/
def declaredValue (info : Info) (obj : Obj) (names : List IdentId) (values : List Expr) :
    Option Expr :=
  ((names.zip values).find? (fun p => info.Defs p.1 = some obj)).map Prod.snd

/-- The initializer of the constant `obj` in the specs of a declaration: the one of the
first value spec that has one. -/
def specsValue (info : Info) (obj : Obj) : List Spec → Option Expr
  | [] => none
  | .valueSpec names _ values :: specs =>
    match declaredValue info obj names values with
    | some expr => some expr
    | none => specsValue info obj specs
  | .typeSpec _ _ :: specs => specsValue info obj specs

/-- The specs of a constant declaration statement. -/
def constSpecs : Node → Option (List Spec)
  | .stmt (.declStmt (.mk tok specs)) => if tok = .CONST then some specs else none
  | _ => none

/-- The nodes that the search for the declaration of the constant `obj` visits in the
file: it does not descend into a declaration statement unless it is a constant
declaration in which it has not found `obj`. -/
def searchNodes (info : Info) (obj : Obj) (file : File) : List Node :=
  visitFile (fun n => (constVisit info obj n (.ok none)).1) file

/-- The initializer the search ends with: the one of the last constant declaration
statement, among the nodes `ns`, that has one for `obj`. -/
def foundValue (info : Info) (obj : Obj) (ns : List Node) : Option Expr :=
  (ns.filterMap (fun n => (constSpecs n).bind (specsValue info obj))).getLast?

/-- The specs are value specs, and a name of theirs that declares `obj` has a value at
its index. -/
def HasValues (info : Info) (obj : Obj) (specs : List Spec) : Prop :=
  ∀ spec ∈ specs, ∃ names type values, spec = .valueSpec names type values ∧
    ∀ (i : Nat) (name : IdentId), names[i]? = some name → info.Defs name = some obj →
      i < values.length

/-- The check of `HasValues`, computed. -/
def hasValues (info : Info) (obj : Obj) : List Spec → Bool
  | [] => true
  | .valueSpec names _ values :: specs =>
    (List.range names.length).all (fun i =>
      match names[i]? with
      | some name => decide (info.Defs name = some obj → i < values.length)
      | none => true) && hasValues info obj specs
  | .typeSpec _ _ :: _ => false

/-- The check of `HasValues` on every constant declaration statement the search
visits, computed. -/
def searchHasValues (info : Info) (obj : Obj) (file : File) : Bool :=
  (searchNodes info obj file).all (fun n =>
    match constSpecs n with
    | some specs => hasValues info obj specs
    | none => true)

/-- The identifiers of the file that refer to `obj`. -/
def references (r : Reducer) (obj : Obj) : List IdentId :=
  usesIn r obj (identsOf (visitFile (fun _ => true) r.file))

/-- The identifiers of the file that declare `obj`, each with its name. -/
def declarations (r : Reducer) (obj : Obj) : List (IdentId × String) :=
  ((identsOf (visitFile (fun _ => true) r.file)).filter
    (fun id => r.info.Defs id = some obj)).map (fun id => (id, r.names id))

/-- The object `S` loses its last referencing occurrence with the nodes `g`: it has
referencing occurrences, and all of them are in `g`. -/
def Orphaned (r : Reducer) (g : List (Option Node)) (S : Obj) : Prop :=
  r.uses (some S) ≠ [] ∧ ∀ id ∈ r.uses (some S), id ∈ groupIdents g

/-- Neither a declaration nor an import of `S` is left in the file of `r'` under its name:
if `S` is an imported package, no import spec with its path is left that has its name, or
that has no name when the package is known under its own name; if `S` is a variable, every
identifier of the file that declares it is named `_`. Nothing is asked for an object of
another kind. -/
def Undeclared (r' : Reducer) (S : Obj) : Prop :=
  (∀ name iname ipath, (r'.info.object S).kind = .pkgName name iname ipath →
    ∀ s ∈ r'.imports,
      ¬ (s.path = ipath ∧ (s.name = name ∨ (s.name = "" ∧ name = iname)))) ∧
  ((r'.info.object S).kind = .var → ∀ d ∈ declarations r' S, d.2 = "_")

/-- No import spec of `r` gives a package the package's own name, as `fmt "fmt"` does. -/
def OwnNameFree (r : Reducer) : Prop :=
  ∀ s ∈ r.imports, ∀ (S : Obj) (name iname ipath : String),
    (r.info.object S).kind = .pkgName name iname ipath → name = iname →
    ¬ (s.name = name ∧ s.path = ipath)

/-- Every identifier of the file of `r'` that declares `S` is, in the file of `r` with
the list `l`, outside the assignment statements, or the single target of an assignment
statement that is not inside another one. -/
def DeclsReached (r : Reducer) (l : List Stmt) (r' : Reducer) (S : Obj) : Prop :=
  ∀ d ∈ declarations r' S,
    d.1 ∈ identsOf (visitFile (fun n => !n.isAssign) (r.fileOf l)) ∨
    ∃ q ∈ defTargets (visitFile (fun n => !n.isAssign) (r.fileOf l)), q.2 = d.1

/-! ## Example programs for the rules of reduceNode -/

/-- The oracle that accepts every candidate. -/
def acceptAll : Oracle := fun _ => true

/-- What a property reads from the result of `reduceNode` and from the reducer after the
call; `none` when the call panics. -/
def observeNode {α : Type} (res : Except Panic (Bool × Reducer)) (f : Bool → Reducer → α) :
    Option α :=
  match res with
  | .ok p => some (f p.1 p.2)
  | .error _ => none

/-- The raw value of a literal. -/
def Expr.litValue : Expr → Option String
  | .basicLit _ value => some value
  | _ => none

/-- The program
```
func f(a int) {
}
``` -/
def emptyBody : Reducer := blockReducer [2] [("a", 10)] []

/-- The program
```
func f(a int) {
	{
	}
}
``` -/
def emptyBlock : Reducer := blockReducer [2] [("a", 10)] [.blockStmt []]

/-- The program
```
func f(a int) {
	{
		a := 1
		println(a)
	}
	{
	}
}
``` -/
def blockThenEmpty : Reducer := blockReducer [2] [("a", 10)] [blockA, .blockStmt []]

/-- The oracle that accepts the candidates with one statement in the list in which the
identifier declaring the block's `a` is named `a_`. -/
def acceptRenamed : Oracle := fun r => r.names 5 = "a_" ∧ r.list.length = 1

/-- The program
```
func f(a int) {
	{
		a += 1
	}
}
```
Identifier `2` declares the parameter `a` (object `10`), identifier `5` uses it: it has
an entry in `Uses` and none in `Defs`. The assignment has identity `0` and the token
`+=`. -/
def addAssign : Reducer :=
  { info :=
      { Defs := mapOf [(1, 20), (2, 10)]
        Uses := mapOf [(5, 10), (8, 23)]
        object := objectsOf [(10, 2)]
        scope := scopesOf [(1, ⟨none, [("f", 20)]⟩), (2, ⟨some 1, [("a", 10)]⟩),
          (3, ⟨some 2, []⟩)] }
    useIdents := useIdentsOf [(10, [5]), (23, [8])]
    fileOf := inFuncOf [.mk [2] (.ident 8)]
    imports := []
    names := namesOf [(0, "p"), (1, "f"), (2, "a"), (5, "a"), (8, "int")]
    toks := fun _ => .ADD_ASSIGN
    list := [.blockStmt [.assignStmt 0 [.ident 5] [.basicLit .INT "1"]]]
    stmt := .emptyStmt
    expr := .ident 0
    node := .ident 0
    didChange := false
    tried := []
    lines := fileLines 6
    layout := [.mk 201 499 [.mk 302 399 []]] }

/-- The objects of the examples with constants: `10`–`19` are untyped constants of the
function's scope. -/
def constObjects : Obj → Object :=
  fun o => if 10 ≤ o ∧ o < 20 then ⟨.const, .basic true, some 2⟩ else ⟨.other, .other, none⟩

/-- A reducer over the body `list` of `func f()`, with constants declared by the
identifiers of `defs`, used by those of `uses`; identifier `4` is `println` (object `21`),
identifier `6` is `iota` (object `24`). The slot `*r.expr` holds the identifier `5`. -/
def constReducer (defs uses : List (IdentId × Obj)) (useIdents : List (Obj × List IdentId))
    (names : List (IdentId × String)) (list : List Stmt) : Reducer :=
  { info :=
      { Defs := mapOf ((1, 20) :: defs)
        Uses := mapOf ((4, 21) :: (6, 24) :: uses)
        object := constObjects
        scope := scopesOf [(1, ⟨none, [("f", 20)]⟩), (2, ⟨some 1, []⟩)] }
    useIdents := useIdentsOf ((21, [4]) :: (24, [6]) :: useIdents)
    fileOf := inFunc
    imports := []
    names := namesOf ((0, "p") :: (1, "f") :: (4, "println") :: (6, "iota") :: names)
    toks := fun _ => .DEFINE
    list := list
    stmt := .emptyStmt
    expr := .ident 5
    node := .ident 5
    didChange := false
    tried := []
    lines := fileLines (stmtsHeight list + 3)
    layout := layoutStmts 3 1 list }

/-- The program
```
func f() {
	const c = 1
	println(c)
}
```
Identifier `2` declares `c` (object `10`), identifier `5` uses it. -/
def constPrint : Reducer :=
  constReducer [(2, 10)] [(5, 10)] [(10, [5])] [(2, "c"), (5, "c")]
    [.declStmt (.mk .CONST [.valueSpec [2] none [.basicLit .INT "1"]]),
      .exprStmt (.callExpr (.ident 4) [.ident 5])]

/-- The program
```
func f() {
	const a, b = 1, 2
	println(b)
}
```
Identifiers `2` and `3` declare `a` and `b` (objects `10` and `11`), identifier `5` uses
`b`. -/
def constPair : Reducer :=
  constReducer [(2, 10), (3, 11)] [(5, 11)] [(11, [5])] [(2, "a"), (3, "b"), (5, "b")]
    [.declStmt (.mk .CONST
      [.valueSpec [2, 3] none [.basicLit .INT "1", .basicLit .INT "2"]]),
      .exprStmt (.callExpr (.ident 4) [.ident 5])]

/-- The program
```
func f() {
	const (
		a = iota
		b
	)
	println(b)
}
```
Identifiers `2` and `3` declare `a` and `b` (objects `10` and `11`), identifier `5` uses
`b`; the spec of `b` has no value. -/
def constIota : Reducer :=
  constReducer [(2, 10), (3, 11)] [(5, 11)] [(11, [5])] [(2, "a"), (3, "b"), (5, "b")]
    [.declStmt (.mk .CONST [.valueSpec [2] none [.ident 6], .valueSpec [3] none []]),
      .exprStmt (.callExpr (.ident 4) [.ident 5])]

/-- The index expression `s[i]` of `indexProg`. -/
def indexSI : Expr := .indexExpr (.ident 5) (.ident 6)

/-- The program
```
func f(s []int) {
	i := 0
	println(s[i])
}
```
Identifier `2` declares `s` (object `10`), `3` declares `i` (object `11`), `4` is
`println`, `5` uses `s`, `6` uses `i`, `8` is `int`. The assignment has identity `0`. The
slot `*r.expr` holds `s[i]`. -/
def indexProg : Reducer :=
  { info :=
      { Defs := mapOf [(1, 20), (2, 10), (3, 11)]
        Uses := mapOf [(4, 21), (5, 10), (6, 11), (8, 23)]
        object := objectsOf [(10, 2), (11, 2)]
        scope := scopesOf [(1, ⟨none, [("f", 20)]⟩),
          (2, ⟨some 1, [("s", 10), ("i", 11)]⟩)] }
    useIdents := useIdentsOf [(10, [5]), (11, [6]), (21, [4]), (23, [8])]
    fileOf := inFuncOf [.mk [2] (.arrayType none (.ident 8))]
    imports := []
    names := namesOf [(0, "p"), (1, "f"), (2, "s"), (3, "i"), (4, "println"), (5, "s"),
      (6, "i"), (8, "int")]
    toks := fun _ => .DEFINE
    list := [.assignStmt 0 [.ident 3] [.basicLit .INT "0"],
      .exprStmt (.callExpr (.ident 4) [indexSI])]
    stmt := .emptyStmt
    expr := indexSI
    node := indexSI
    didChange := false
    tried := []
    lines := fileLines 5
    layout := [.mk 201 299 [], .mk 301 399 []] }

/-- The fields of the slice expression `s[1:5:10]`, with `s` the identifier `5`. -/
def threeBounds : SliceExpr :=
  ⟨.ident 5, some (.basicLit .INT "1"), some (.basicLit .INT "5"),
    some (.basicLit .INT "10"), true⟩

/-- The list `inlineBlock` presents for the statement at index `j` of `orig` when it is a
block: the statements before it, the statements of the block, the statements after it. -/
def spliceAt (orig : List Stmt) (j : Nat) : Option (List Stmt) :=
  match orig[j]? with
  | some (.blockStmt bl) => some (orig.take j ++ bl ++ orig.drop (j + 1))
  | _ => none

/-- The rejected trials of `inlineBlock` over the indices `js`: one for each block, in
order. -/
def rejectedSplices (orig : List Stmt) (js : List Nat) : List (List Stmt × Bool) :=
  js.filterMap (fun j => (spliceAt orig j).map (fun l => (l, false)))

/-! # Traversals as folds -/

theorem descend_eq_foldl {σ : Type} (f : Callback σ) (go : Node → Bool)
    (n : Node) (h : ∀ s, (f n s).1 = go n) (k : σ → σ) (below : List Node)
    (hk : ∀ s, k s = below.foldl (step f) s) (s : σ) :
    descend f n k s = (visitNode go n below).foldl (step f) s := by
  unfold descend visitNode
  simp only [List.foldl_cons, h]
  cases go n <;> simp [step, hk]

theorem descend_leaf_eq {σ : Type} (f : Callback σ) (n : Node) (s : σ) :
    descend f n (fun s => s) s = step f s n := by
  unfold descend step
  simp only [ite_self]

theorem visitNode_nil_foldl {σ : Type} (f : Callback σ) (go : Node → Bool) (n : Node)
    (s : σ) : (visitNode go n []).foldl (step f) s = step f s n := by
  unfold visitNode
  cases go n <;> rfl

theorem foldl_idents_eq {σ : Type} (f : Callback σ) (names : List IdentId) (s : σ) :
    names.foldl (fun s i => descend f (.expr (.ident i)) (fun s => s) s) s =
      (names.map (fun i => Node.expr (.ident i))).foldl (step f) s := by
  rw [List.foldl_map]
  congr 1
  funext s i
  exact descend_leaf_eq f _ s

mutual
theorem inspectExpr_eq_foldl {σ : Type} (f : Callback σ) (go : Node → Bool)
    (h : ∀ n s, n.isIdent = false → (f n s).1 = go n) :
    ∀ (e : Expr) (s : σ), inspectExpr f e s = (visitExpr go e).foldl (step f) s
  | .ident id, s => by
    rw [inspectExpr, visitExpr, descend_leaf_eq, visitNode_nil_foldl]
  | .basicLit kind value, s => by
    rw [inspectExpr, visitExpr]; exact descend_eq_foldl f go _ (fun s => h _ s (by rfl)) (fun s => s) [] (fun _ => rfl) s
  | .compositeLit type elts, s => by
    rw [inspectExpr, visitExpr]
    refine descend_eq_foldl f go _ (fun s => h _ s (by rfl)) _ _ (fun s => ?_) s
    simp only [List.foldl_append, inspectOptExpr_eq_foldl f go h type,
      inspectExprs_eq_foldl f go h elts]
  | .parenExpr x, s => by
    rw [inspectExpr, visitExpr]
    refine descend_eq_foldl f go _ (fun s => h _ s (by rfl)) _ _ (fun s => ?_) s
    simp only [inspectExpr_eq_foldl f go h x]
  | .selectorExpr x sel, s => by
    rw [inspectExpr, visitExpr]
    refine descend_eq_foldl f go _ (fun s => h _ s (by rfl)) _ _ (fun s => ?_) s
    simp only [List.foldl_append, inspectExpr_eq_foldl f go h x, descend_leaf_eq,
      List.foldl_cons, List.foldl_nil]
  | .indexExpr x index, s => by
    rw [inspectExpr, visitExpr]
    refine descend_eq_foldl f go _ (fun s => h _ s (by rfl)) _ _ (fun s => ?_) s
    simp only [List.foldl_append, inspectExpr_eq_foldl f go h x,
      inspectExpr_eq_foldl f go h index]
  | .sliceExpr x low high max slice3, s => by
    rw [inspectExpr, visitExpr]
    refine descend_eq_foldl f go _ (fun s => h _ s (by rfl)) _ _ (fun s => ?_) s
    simp only [List.foldl_append, inspectExpr_eq_foldl f go h x,
      inspectOptExpr_eq_foldl f go h low, inspectOptExpr_eq_foldl f go h high,
      inspectOptExpr_eq_foldl f go h max]
  | .starExpr x, s => by
    rw [inspectExpr, visitExpr]
    refine descend_eq_foldl f go _ (fun s => h _ s (by rfl)) _ _ (fun s => ?_) s
    simp only [inspectExpr_eq_foldl f go h x]
  | .callExpr fn args, s => by
    rw [inspectExpr, visitExpr]
    refine descend_eq_foldl f go _ (fun s => h _ s (by rfl)) _ _ (fun s => ?_) s
    simp only [List.foldl_append, inspectExpr_eq_foldl f go h fn,
      inspectExprs_eq_foldl f go h args]
  | .unaryExpr op x, s => by
    rw [inspectExpr, visitExpr]
    refine descend_eq_foldl f go _ (fun s => h _ s (by rfl)) _ _ (fun s => ?_) s
    simp only [inspectExpr_eq_foldl f go h x]
  | .binaryExpr x op y, s => by
    rw [inspectExpr, visitExpr]
    refine descend_eq_foldl f go _ (fun s => h _ s (by rfl)) _ _ (fun s => ?_) s
    simp only [List.foldl_append, inspectExpr_eq_foldl f go h x,
      inspectExpr_eq_foldl f go h y]
  | .keyValueExpr key value, s => by
    rw [inspectExpr, visitExpr]
    refine descend_eq_foldl f go _ (fun s => h _ s (by rfl)) _ _ (fun s => ?_) s
    simp only [List.foldl_append, inspectExpr_eq_foldl f go h key,
      inspectExpr_eq_foldl f go h value]
  | .arrayType len elt, s => by
    rw [inspectExpr, visitExpr]
    refine descend_eq_foldl f go _ (fun s => h _ s (by rfl)) _ _ (fun s => ?_) s
    simp only [List.foldl_append, inspectOptExpr_eq_foldl f go h len,
      inspectExpr_eq_foldl f go h elt]
  | .funcLit params results body, s => by
    rw [inspectExpr, visitExpr]
    refine descend_eq_foldl f go _ (fun s => h _ s (by rfl)) _ _ (fun s => ?_) s
    rw [List.foldl_append]
    refine (descend_eq_foldl f go _ (fun s => h _ s (by rfl)) _ _ (fun s => inspectStmts_eq_foldl f go h body s) _).trans ?_
    congr 1
    refine descend_eq_foldl f go _ (fun s => h _ s (by rfl)) _ _ (fun s => ?_) s
    rw [List.foldl_append, inspectOptFieldList_eq_foldl f go h results]
    congr 1
    exact descend_eq_foldl f go _ (fun s => h _ s (by rfl)) _ _ (fun s => inspectFields_eq_foldl f go h params s) s
theorem inspectOptExpr_eq_foldl {σ : Type} (f : Callback σ) (go : Node → Bool)
    (h : ∀ n s, n.isIdent = false → (f n s).1 = go n) :
    ∀ (e : Option Expr) (s : σ), inspectOptExpr f e s = (visitOptExpr go e).foldl (step f) s
  | none, s => by simp only [inspectOptExpr, visitOptExpr, List.foldl_nil]
  | some e, s => by simp only [inspectOptExpr, visitOptExpr, inspectExpr_eq_foldl f go h e]
theorem inspectExprs_eq_foldl {σ : Type} (f : Callback σ) (go : Node → Bool)
    (h : ∀ n s, n.isIdent = false → (f n s).1 = go n) :
    ∀ (es : List Expr) (s : σ), inspectExprs f es s = (visitExprs go es).foldl (step f) s
  | [], s => by simp only [inspectExprs, visitExprs, List.foldl_nil]
  | e :: es, s => by
    simp only [inspectExprs, visitExprs, List.foldl_append, inspectExpr_eq_foldl f go h e,
      inspectExprs_eq_foldl f go h es]
theorem inspectField_eq_foldl {σ : Type} (f : Callback σ) (go : Node → Bool)
    (h : ∀ n s, n.isIdent = false → (f n s).1 = go n) :
    ∀ (x : Field) (s : σ), inspectField f x s = (visitField go x).foldl (step f) s
  | .mk names type, s => by
    rw [inspectField, visitField]
    refine descend_eq_foldl f go _ (fun s => h _ s (by rfl)) _ _ (fun s => ?_) s
    simp only [List.foldl_append, inspectExpr_eq_foldl f go h type, foldl_idents_eq]
theorem inspectFields_eq_foldl {σ : Type} (f : Callback σ) (go : Node → Bool)
    (h : ∀ n s, n.isIdent = false → (f n s).1 = go n) :
    ∀ (xs : List Field) (s : σ), inspectFields f xs s = (visitFields go xs).foldl (step f) s
  | [], s => by simp only [inspectFields, visitFields, List.foldl_nil]
  | x :: xs, s => by
    simp only [inspectFields, visitFields, List.foldl_append, inspectField_eq_foldl f go h x,
      inspectFields_eq_foldl f go h xs]
theorem inspectOptFieldList_eq_foldl {σ : Type} (f : Callback σ) (go : Node → Bool)
    (h : ∀ n s, n.isIdent = false → (f n s).1 = go n) :
    ∀ (l : Option (List Field)) (s : σ),
      inspectOptFieldList f l s = (visitOptFieldList go l).foldl (step f) s
  | none, s => by simp only [inspectOptFieldList, visitOptFieldList, List.foldl_nil]
  | some l, s => by
    rw [inspectOptFieldList, visitOptFieldList]
    exact descend_eq_foldl f go _ (fun s => h _ s (by rfl)) _ _ (fun s => inspectFields_eq_foldl f go h l s) s
theorem inspectStmt_eq_foldl {σ : Type} (f : Callback σ) (go : Node → Bool)
    (h : ∀ n s, n.isIdent = false → (f n s).1 = go n) :
    ∀ (st : Stmt) (s : σ), inspectStmt f st s = (visitStmt go st).foldl (step f) s
  | .declStmt decl, s => by
    rw [inspectStmt, visitStmt]
    exact descend_eq_foldl f go _ (fun s => h _ s (by rfl)) _ _ (fun s => inspectGenDecl_eq_foldl f go h decl s) s
  | .emptyStmt, s => by
    rw [inspectStmt, visitStmt]; exact descend_eq_foldl f go _ (fun s => h _ s (by rfl)) (fun s => s) [] (fun _ => rfl) s
  | .exprStmt x, s => by
    rw [inspectStmt, visitStmt]
    exact descend_eq_foldl f go _ (fun s => h _ s (by rfl)) _ _ (fun s => inspectExpr_eq_foldl f go h x s) s
  | .incDecStmt x tok, s => by
    rw [inspectStmt, visitStmt]
    exact descend_eq_foldl f go _ (fun s => h _ s (by rfl)) _ _ (fun s => inspectExpr_eq_foldl f go h x s) s
  | .assignStmt id lhs rhs, s => by
    rw [inspectStmt, visitStmt]
    refine descend_eq_foldl f go _ (fun s => h _ s (by rfl)) _ _ (fun s => ?_) s
    simp only [List.foldl_append, inspectExprs_eq_foldl f go h lhs,
      inspectExprs_eq_foldl f go h rhs]
  | .goStmt call, s => by
    rw [inspectStmt, visitStmt]
    exact descend_eq_foldl f go _ (fun s => h _ s (by rfl)) _ _ (fun s => inspectExpr_eq_foldl f go h call s) s
  | .deferStmt call, s => by
    rw [inspectStmt, visitStmt]
    exact descend_eq_foldl f go _ (fun s => h _ s (by rfl)) _ _ (fun s => inspectExpr_eq_foldl f go h call s) s
  | .returnStmt results, s => by
    rw [inspectStmt, visitStmt]
    exact descend_eq_foldl f go _ (fun s => h _ s (by rfl)) _ _ (fun s => inspectExprs_eq_foldl f go h results s) s
  | .blockStmt list, s => by
    rw [inspectStmt, visitStmt]
    exact descend_eq_foldl f go _ (fun s => h _ s (by rfl)) _ _ (fun s => inspectStmts_eq_foldl f go h list s) s
  | .ifStmt init cond body els, s => by
    rw [inspectStmt, visitStmt]
    refine descend_eq_foldl f go _ (fun s => h _ s (by rfl)) _ _ (fun s => ?_) s
    simp only [List.foldl_append, inspectOptStmt_eq_foldl f go h els]
    congr 1
    refine (descend_eq_foldl f go _ (fun s => h _ s (by rfl)) _ _ (fun s => inspectStmts_eq_foldl f go h body s) _).trans ?_
    simp only [inspectExpr_eq_foldl f go h cond, inspectOptStmt_eq_foldl f go h init]
  | .forStmt init cond post body, s => by
    rw [inspectStmt, visitStmt]
    refine descend_eq_foldl f go _ (fun s => h _ s (by rfl)) _ _ (fun s => ?_) s
    simp only [List.foldl_append]
    refine (descend_eq_foldl f go _ (fun s => h _ s (by rfl)) _ _ (fun s => inspectStmts_eq_foldl f go h body s) _).trans ?_
    simp only [inspectOptExpr_eq_foldl f go h cond, inspectOptStmt_eq_foldl f go h init,
      inspectOptStmt_eq_foldl f go h post]
theorem inspectOptStmt_eq_foldl {σ : Type} (f : Callback σ) (go : Node → Bool)
    (h : ∀ n s, n.isIdent = false → (f n s).1 = go n) :
    ∀ (st : Option Stmt) (s : σ), inspectOptStmt f st s = (visitOptStmt go st).foldl (step f) s
  | none, s => by simp only [inspectOptStmt, visitOptStmt, List.foldl_nil]
  | some st, s => by simp only [inspectOptStmt, visitOptStmt, inspectStmt_eq_foldl f go h st]
theorem inspectStmts_eq_foldl {σ : Type} (f : Callback σ) (go : Node → Bool)
    (h : ∀ n s, n.isIdent = false → (f n s).1 = go n) :
    ∀ (sts : List Stmt) (s : σ), inspectStmts f sts s = (visitStmts go sts).foldl (step f) s
  | [], s => by simp only [inspectStmts, visitStmts, List.foldl_nil]
  | st :: sts, s => by
    simp only [inspectStmts, visitStmts, List.foldl_append, inspectStmt_eq_foldl f go h st,
      inspectStmts_eq_foldl f go h sts]
theorem inspectSpec_eq_foldl {σ : Type} (f : Callback σ) (go : Node → Bool)
    (h : ∀ n s, n.isIdent = false → (f n s).1 = go n) :
    ∀ (sp : Spec) (s : σ), inspectSpec f sp s = (visitSpec go sp).foldl (step f) s
  | .valueSpec names type values, s => by
    rw [inspectSpec, visitSpec]
    refine descend_eq_foldl f go _ (fun s => h _ s (by rfl)) _ _ (fun s => ?_) s
    simp only [List.foldl_append, inspectExprs_eq_foldl f go h values,
      inspectOptExpr_eq_foldl f go h type, foldl_idents_eq]
  | .typeSpec name type, s => by
    rw [inspectSpec, visitSpec]
    refine descend_eq_foldl f go _ (fun s => h _ s (by rfl)) _ _ (fun s => ?_) s
    simp only [List.foldl_cons, inspectExpr_eq_foldl f go h type, descend_leaf_eq]
theorem inspectSpecs_eq_foldl {σ : Type} (f : Callback σ) (go : Node → Bool)
    (h : ∀ n s, n.isIdent = false → (f n s).1 = go n) :
    ∀ (sps : List Spec) (s : σ), inspectSpecs f sps s = (visitSpecs go sps).foldl (step f) s
  | [], s => by simp only [inspectSpecs, visitSpecs, List.foldl_nil]
  | sp :: sps, s => by
    simp only [inspectSpecs, visitSpecs, List.foldl_append, inspectSpec_eq_foldl f go h sp,
      inspectSpecs_eq_foldl f go h sps]
theorem inspectGenDecl_eq_foldl {σ : Type} (f : Callback σ) (go : Node → Bool)
    (h : ∀ n s, n.isIdent = false → (f n s).1 = go n) :
    ∀ (d : GenDecl) (s : σ), inspectGenDecl f d s = (visitGenDecl go d).foldl (step f) s
  | .mk tok specs, s => by
    rw [inspectGenDecl, visitGenDecl]
    exact descend_eq_foldl f go _ (fun s => h _ s (by rfl)) _ _ (fun s => inspectSpecs_eq_foldl f go h specs s) s
end


theorem inspectBlock_eq_foldl {σ : Type} (f : Callback σ) (go : Node → Bool)
    (h : ∀ n s, n.isIdent = false → (f n s).1 = go n) (l : List Stmt) (s : σ) :
    inspectBlock f l s = (visitBlock go l).foldl (step f) s :=
  descend_eq_foldl f go _ (fun s => h _ s (by rfl)) _ _ (fun s => inspectStmts_eq_foldl f go h l s) s

theorem inspectFieldList_eq_foldl {σ : Type} (f : Callback σ) (go : Node → Bool)
    (h : ∀ n s, n.isIdent = false → (f n s).1 = go n) (l : List Field) (s : σ) :
    inspectFieldList f l s = (visitFieldList go l).foldl (step f) s :=
  descend_eq_foldl f go _ (fun s => h _ s (by rfl)) _ _ (fun s => inspectFields_eq_foldl f go h l s) s

theorem inspectFuncType_eq_foldl {σ : Type} (f : Callback σ) (go : Node → Bool)
    (h : ∀ n s, n.isIdent = false → (f n s).1 = go n) (params : List Field)
    (results : Option (List Field)) (s : σ) :
    inspectFuncType f params results s = (visitFuncType go params results).foldl (step f) s := by
  refine descend_eq_foldl f go _ (fun s => h _ s (by rfl)) _ _ (fun s => ?_) s
  rw [List.foldl_append, inspectOptFieldList_eq_foldl f go h, inspectFieldList_eq_foldl f go h]

theorem inspectOptBlock_eq_foldl {σ : Type} (f : Callback σ) (go : Node → Bool)
    (h : ∀ n s, n.isIdent = false → (f n s).1 = go n) (l : Option (List Stmt)) (s : σ) :
    inspectOptBlock f l s = (visitOptBlock go l).foldl (step f) s := by
  cases l with
  | none => rfl
  | some l => exact inspectBlock_eq_foldl f go h l s

theorem inspectDecl_eq_foldl {σ : Type} (f : Callback σ) (go : Node → Bool)
    (h : ∀ n s, n.isIdent = false → (f n s).1 = go n) (d : Decl) (s : σ) :
    inspectDecl f d s = (visitDecl go d).foldl (step f) s := by
  cases d with
  | genDecl d => exact inspectGenDecl_eq_foldl f go h d s
  | funcDecl recv name params results body =>
    rw [inspectDecl, visitDecl]
    refine descend_eq_foldl f go _ (fun s => h _ s (by rfl)) _ _ (fun s => ?_) s
    simp only [List.foldl_append, inspectOptBlock_eq_foldl f go h,
      inspectFuncType_eq_foldl f go h, inspectOptFieldList_eq_foldl f go h, descend_leaf_eq,
      List.foldl_cons, List.foldl_nil]

theorem inspectDecls_eq_foldl {σ : Type} (f : Callback σ) (go : Node → Bool)
    (h : ∀ n s, n.isIdent = false → (f n s).1 = go n) (ds : List Decl) (s : σ) :
    inspectDecls f ds s = (visitDecls go ds).foldl (step f) s := by
  induction ds generalizing s with
  | nil => rfl
  | cons d ds ih =>
    simp only [inspectDecls, visitDecls, List.foldl_append, inspectDecl_eq_foldl f go h, ih]

theorem inspectFile_eq_foldl {σ : Type} (f : Callback σ) (go : Node → Bool)
    (h : ∀ n s, n.isIdent = false → (f n s).1 = go n) (file : File) (s : σ) :
    inspectFile f file s = (visitFile go file).foldl (step f) s := by
  refine descend_eq_foldl f go _ (fun s => h _ s (by rfl)) _ _ (fun s => ?_) s
  simp only [List.foldl_cons, inspectDecls_eq_foldl f go h, descend_leaf_eq]

/-- A traversal is the fold of its callback over the nodes it visits, provided the
callback's decision to descend at a node other than an identifier depends on the node
alone. -/
theorem inspect_eq_foldl {σ : Type} (f : Callback σ) (go : Node → Bool)
    (h : ∀ n s, n.isIdent = false → (f n s).1 = go n) (n : Node) (s : σ) :
    inspect f n s = (visit go n).foldl (step f) s := by
  cases n with
  | expr e => exact inspectExpr_eq_foldl f go h e s
  | stmt st => exact inspectStmt_eq_foldl f go h st s
  | spec sp => exact inspectSpec_eq_foldl f go h sp s
  | genDecl d => exact inspectGenDecl_eq_foldl f go h d s
  | field fl => exact inspectField_eq_foldl f go h fl s
  | fieldList l => exact inspectFieldList_eq_foldl f go h l s
  | funcType params results => exact inspectFuncType_eq_foldl f go h params results s
  | funcDecl d => exact inspectDecl_eq_foldl f go h d s
  | file fl => exact inspectFile_eq_foldl f go h fl s
  | importSpec sp =>
    rw [inspect, visit, descend_leaf_eq]
    rfl

/-! # unusedAfterDelete -/

theorem identsOf_append (a b : List Node) : identsOf (a ++ b) = identsOf a ++ identsOf b := by
  induction a with
  | nil => rfl
  | cons n a ih =>
    cases n with
    | expr e => cases e <;> simp [identsOf, ih]
    | _ => simp [identsOf, ih]

theorem foldl_step_identsOf {σ : Type} (f : Callback σ)
    (hf : ∀ n s, n.isIdent = false → step f s n = s) (ns : List Node) (s : σ) :
    ns.foldl (step f) s =
      (identsOf ns).foldl (fun s id => step f s (.expr (.ident id))) s := by
  induction ns generalizing s with
  | nil => rfl
  | cons n ns ih =>
    cases n with
    | expr e =>
      cases e with
      | ident id => simp only [List.foldl_cons, identsOf, ih]
      | _ =>
        simp only [List.foldl_cons, identsOf]
        rw [hf]
        · exact ih _
        · rfl
    | _ =>
      simp only [List.foldl_cons, identsOf]
      rw [hf]
      · exact ih _
      · rfl

theorem unusedVisit_nonIdent (r : Reducer) (n : Node) (s : (Obj → Option Int) × List Obj)
    (hn : n.isIdent = false) : unusedVisit r n s = (true, s) := by
  unfold unusedVisit
  split
  · simp [Node.isIdent] at hn
  · rfl

theorem unusedAfterDelete_eq_foldl (r : Reducer) (nodes : List (Option Node)) :
    unusedAfterDelete r nodes =
      ((groupIdents nodes).foldl (fun s id => step (unusedVisit r) s (.expr (.ident id)))
        (fun _ => none, [])).2 := by
  unfold unusedAfterDelete groupIdents
  simp only
  generalize ((fun _ => none, []) : (Obj → Option Int) × List Obj) = init
  induction nodes generalizing init with
  | nil => rfl
  | cons node nodes ih =>
    cases node with
    | none => simp only [List.foldl_cons, groupNodes, ih]
    | some n =>
      simp only [List.foldl_cons, groupNodes, identsOf_append, List.foldl_append, ih]
      rw [inspect_eq_foldl (unusedVisit r) (fun _ => true)
        (fun n s hn => by rw [unusedVisit_nonIdent r n s hn]) n init]
      rw [foldl_step_identsOf (unusedVisit r)
        (fun n s hn => by rw [step, unusedVisit_nonIdent r n s hn])]

theorem usesIn_length_le (r : Reducer) (huse : UseIdentsExact r) (S : Obj)
    (P : List IdentId) (hP : P.Nodup) :
    (usesIn r S P).length ≤ (r.uses (some S)).length := by
  have hsub : usesIn r S P ⊆ r.uses (some S) := by
    intro id hid
    simp only [usesIn, List.mem_filter, decide_eq_true_eq] at hid
    exact ((huse S).2 id).2 hid.2
  have hnd : (usesIn r S P).Nodup := hP.filter _
  exact (List.subperm_of_subset hnd hsub).length_le

theorem usesIn_snoc_of_uses (r : Reducer) (S : Obj) (P : List IdentId) (id : IdentId)
    (h : r.info.Uses id = some S) : usesIn r S (P ++ [id]) = usesIn r S P ++ [id] := by
  simp [usesIn, List.filter_append, h]

theorem usesIn_snoc_of_not_uses (r : Reducer) (S : Obj) (P : List IdentId) (id : IdentId)
    (h : r.info.Uses id ≠ some S) : usesIn r S (P ++ [id]) = usesIn r S P := by
  simp [usesIn, List.filter_append, h]

theorem UnusedAt.transfer {r : Reducer} {P P' : List IdentId}
    {st st' : (Obj → Option Int) × List Obj} {S : Obj} (h : UnusedAt r P st S)
    (hP : usesIn r S P' = usesIn r S P) (h1 : st'.1 S = st.1 S) (h2 : S ∈ st'.2 ↔ S ∈ st.2) :
    UnusedAt r P' st' S := by
  unfold UnusedAt at *
  rw [hP, h1, h2]
  exact h

theorem unusedInv_step (r : Reducer) (huse : UseIdentsExact r) (P : List IdentId)
    (st : (Obj → Option Int) × List Obj) (id : IdentId) (hinv : UnusedInv r P st)
    (hP : (P ++ [id]).Nodup) :
    UnusedInv r (P ++ [id]) (step (unusedVisit r) st (.expr (.ident id))) := by
  obtain ⟨remaining, objs⟩ := st
  obtain ⟨hnd, hall⟩ := hinv
  cases hU : r.info.Uses id with
  | none =>
    have hstep : step (unusedVisit r) (remaining, objs) (.expr (.ident id)) =
        (remaining, objs) := by
      simp only [step, unusedVisit, hU]
    rw [hstep]
    refine ⟨hnd, fun S => (hall S).transfer ?_ rfl Iff.rfl⟩
    exact usesIn_snoc_of_not_uses r S P id (by simp [hU])
  | some S0 =>
    have hk : (usesIn r S0 (P ++ [id])).length = (usesIn r S0 P).length + 1 := by
      rw [usesIn_snoc_of_uses r S0 P id hU, List.length_append, List.length_singleton]
    have hle := usesIn_length_le r huse S0 (P ++ [id]) hP
    rw [hk] at hle
    have hother : ∀ S, S ≠ S0 → usesIn r S (P ++ [id]) = usesIn r S P := fun S hS =>
      usesIn_snoc_of_not_uses r S P id (by rw [hU]; intro h; exact hS (Option.some.inj h).symm)
    have hmem : id ∈ r.uses (some S0) := ((huse S0).2 id).2 hU
    obtain ⟨h0, h1, h2⟩ := hall S0
    simp only at h0 h1 h2
    cases hrem : remaining S0 with
    | none =>
      have hk0 : (usesIn r S0 P).length = 0 := by
        by_contra hne
        have hpos : 1 ≤ (usesIn r S0 P).length := Nat.one_le_iff_ne_zero.mpr hne
        by_cases hn : (r.uses (some S0)).length = 1
        · omega
        · have := (h2 hpos hn).1
          rw [hrem] at this
          exact Option.noConfusion this
      have hnot : S0 ∉ objs := (h0 hk0).2
      cases hui : r.useIdents (some S0) with
      | none =>
        exfalso
        simp [Reducer.uses, hui] at hmem
      | some ids =>
        have hids : r.uses (some S0) = ids := by simp [Reducer.uses, hui]
        by_cases hlen : ids.length = 1
        · have hstep : step (unusedVisit r) (remaining, objs) (.expr (.ident id)) =
              (remaining, objs ++ [S0]) := by
            simp only [step, unusedVisit, hU, hrem, hui, hlen, if_true]
          rw [hstep]
          refine ⟨?_, fun S => ?_⟩
          · exact List.Nodup.append hnd (List.nodup_singleton S0)
              (by intro a ha hb; rw [List.mem_singleton] at hb; exact hnot (hb ▸ ha))
          · by_cases hS : S = S0
            · subst hS
              refine ⟨?_, ?_, ?_⟩
              · intro h; omega
              · intro _ _
                exact ⟨hrem, by simp⟩
              · intro _ hn
                exact absurd (hids ▸ hlen) hn
            · refine (hall S).transfer (hother S hS) rfl ?_
              simp [hS]
        · have hstep : step (unusedVisit r) (remaining, objs) (.expr (.ident id)) =
              (fun k => if k = S0 then some ((ids.length : Int) - 1) else remaining k, objs) := by
            simp only [step, unusedVisit, hU, hrem, hui, hlen, if_false]
          rw [hstep]
          refine ⟨hnd, fun S => ?_⟩
          by_cases hS : S = S0
          · subst hS
            refine ⟨?_, ?_, ?_⟩
            · intro h; omega
            · intro _ hn
              exact absurd (hids ▸ hn) hlen
            · intro _ _
              refine ⟨?_, ?_⟩
              · simp only [if_true, hk, hk0, hids]
                congr 1
              · simp only [hk, hk0, hids]
                constructor
                · intro h; exact absurd h hnot
                · intro h; exact absurd h.symm hlen
          · refine (hall S).transfer (hother S hS) ?_ Iff.rfl
            simp [hS]
    | some num =>
      have hpos : 1 ≤ (usesIn r S0 P).length := by
        by_contra hne
        have := (h0 (by omega)).1
        rw [hrem] at this
        exact Option.noConfusion this
      have hn : (r.uses (some S0)).length ≠ 1 := by
        intro hn
        have := (h1 hpos hn).1
        rw [hrem] at this
        exact Option.noConfusion this
      obtain ⟨hnum, hmemS⟩ := h2 hpos hn
      rw [hrem] at hnum
      have hnum' : num = ((r.uses (some S0)).length : Int) - ((usesIn r S0 P).length : Int) :=
        Option.some.inj hnum
      have hnot : S0 ∉ objs := fun h => by
        have := hmemS.1 h
        omega
      have hstep : step (unusedVisit r) (remaining, objs) (.expr (.ident id)) =
          (fun k => if k = S0 then some (num - 1) else remaining k,
            if num = 1 then objs ++ [S0] else objs) := by
        simp only [step, unusedVisit, hU, hrem]
      rw [hstep]
      refine ⟨?_, fun S => ?_⟩
      · by_cases h1' : num = 1
        · simp only [h1', if_true]
          exact List.Nodup.append hnd (List.nodup_singleton S0)
            (by intro a ha hb; rw [List.mem_singleton] at hb; exact hnot (hb ▸ ha))
        · simp only [h1', if_false]
          exact hnd
      · by_cases hS : S = S0
        · subst hS
          refine ⟨?_, ?_, ?_⟩
          · intro h; omega
          · intro _ hn'
            exact absurd hn' hn
          · intro _ _
            refine ⟨?_, ?_⟩
            · simp only [if_true, hk]
              congr 1
              omega
            · by_cases h1' : num = 1
              · simp only [h1', if_true, hk]
                constructor
                · intro _; omega
                · intro _; simp
              · simp only [h1', if_false, hk]
                constructor
                · intro h; exact absurd h hnot
                · intro h; omega
        · refine (hall S).transfer (hother S hS) ?_ ?_
          · simp [hS]
          · by_cases h1' : num = 1
            · simp [h1', hS]
            · simp [h1']

theorem unusedInv_foldl (r : Reducer) (huse : UseIdentsExact r) (L P : List IdentId)
    (st : (Obj → Option Int) × List Obj) (hinv : UnusedInv r P st) (hnd : (P ++ L).Nodup) :
    UnusedInv r (P ++ L)
      (L.foldl (fun s id => step (unusedVisit r) s (.expr (.ident id))) st) := by
  induction L generalizing P st with
  | nil => simpa using hinv
  | cons id L ih =>
    have h1 : P ++ id :: L = (P ++ [id]) ++ L := by simp
    rw [h1] at hnd ⊢
    rw [List.foldl_cons]
    exact ih (P ++ [id]) _ (unusedInv_step r huse P st id hinv (List.Nodup.of_append_left hnd)) hnd

theorem unusedInv_init (r : Reducer) : UnusedInv r [] (fun _ => none, []) := by
  refine ⟨List.nodup_nil, fun S => ⟨fun _ => ⟨rfl, by simp⟩, ?_, ?_⟩⟩
  · intro h; simp [usesIn] at h
  · intro h; simp [usesIn] at h

/-- C2: when `useIdents` lists for every object, without duplicates, exactly the
identifiers whose `Uses` entry is the object, and the identifier occurrences inside the
nodes of the group are pairwise distinct (the nodes are disjoint subtrees), the result of
`unusedAfterDelete` has no duplicates and holds exactly the objects that have a recorded
use and all of whose recorded uses lie inside the nodes of the group. -/
theorem unusedAfterDelete_exact (r : Reducer) (nodes : List (Option Node))
    (huse : UseIdentsExact r) (hdisj : (groupIdents nodes).Nodup) :
    (unusedAfterDelete r nodes).Nodup ∧
      ∀ S : Obj, S ∈ unusedAfterDelete r nodes ↔
        (r.uses (some S) ≠ [] ∧ ∀ id ∈ r.uses (some S), id ∈ groupIdents nodes) := by
  have hinv := unusedInv_foldl r huse (groupIdents nodes) [] _ (unusedInv_init r)
    (by simpa using hdisj)
  rw [List.nil_append] at hinv
  rw [unusedAfterDelete_eq_foldl]
  obtain ⟨hnd, hall⟩ := hinv
  refine ⟨hnd, fun S => ?_⟩
  obtain ⟨h0, h1, h2⟩ := hall S
  have hle := usesIn_length_le r huse S (groupIdents nodes) hdisj
  have hsub : usesIn r S (groupIdents nodes) ⊆ r.uses (some S) := by
    intro id hid
    simp only [usesIn, List.mem_filter, decide_eq_true_eq] at hid
    exact ((huse S).2 id).2 hid.2
  have hFnd : (usesIn r S (groupIdents nodes)).Nodup := hdisj.filter _
  constructor
  · intro hS
    have hk : (usesIn r S (groupIdents nodes)).length = (r.uses (some S)).length := by
      have hpos : 1 ≤ (usesIn r S (groupIdents nodes)).length := by
        by_contra hne
        exact (h0 (by omega)).2 hS
      by_cases hn : (r.uses (some S)).length = 1
      · omega
      · exact (h2 hpos hn).2.1 hS
    have hpos : 1 ≤ (usesIn r S (groupIdents nodes)).length := by
      by_contra hne
      exact (h0 (by omega)).2 hS
    refine ⟨?_, fun id hid => ?_⟩
    · intro hnil
      rw [hnil, List.length_nil] at hk
      omega
    · have hperm := (List.subperm_of_subset hFnd hsub).perm_of_length_le (le_of_eq hk.symm)
      have hmem := hperm.mem_iff.2 hid
      simp only [usesIn, List.mem_filter] at hmem
      exact hmem.1
  · rintro ⟨hne, hin⟩
    have hsup : r.uses (some S) ⊆ usesIn r S (groupIdents nodes) := by
      intro id hid
      simp only [usesIn, List.mem_filter, decide_eq_true_eq]
      exact ⟨hin id hid, ((huse S).2 id).1 hid⟩
    have hge := (List.subperm_of_subset (huse S).1 hsup).length_le
    have hpos : 1 ≤ (r.uses (some S)).length := by
      cases hu : r.uses (some S) with
      | nil => exact absurd hu hne
      | cons a l => simp
    by_cases hn : (r.uses (some S)).length = 1
    · exact (h1 (by omega) hn).2
    · exact (h2 (by omega) hn).2.2 (by omega)

/-! # afterDelete: what it leaves alone -/

theorem foldl_inv {α β : Type} (P : β → Prop) (f : β → α → β) (l : List α) (s : β)
    (hs : P s) (h : ∀ s a, a ∈ l → P s → P (f s a)) : P (l.foldl f s) := by
  induction l generalizing s with
  | nil => exact hs
  | cons a l ih =>
    rw [List.foldl_cons]
    exact ih (f s a) (h s a (List.mem_cons_self a l) hs)
      (fun s b hb hP => h s b (List.mem_cons_of_mem a hb) hP)

theorem Frame.refl (r : Reducer) : Frame r r := ⟨rfl, rfl, rfl, rfl, rfl, rfl⟩

theorem Frame.trans {r r' r'' : Reducer} (h : Frame r r') (h' : Frame r' r'') :
    Frame r r'' :=
  ⟨h'.1.trans h.1, h'.2.1.trans h.2.1, h'.2.2.1.trans h.2.2.1, h'.2.2.2.1.trans h.2.2.2.1,
    h'.2.2.2.2.1.trans h.2.2.2.2.1, h'.2.2.2.2.2.trans h.2.2.2.2.2⟩

theorem Frame.setName (r : Reducer) (id : IdentId) (name : String) :
    Frame r (r.setName id name) := ⟨rfl, rfl, rfl, rfl, rfl, rfl⟩

theorem Frame.setTok (r : Reducer) (x : AssignId) (tok : Token) :
    Frame r (r.setTok x tok) := ⟨rfl, rfl, rfl, rfl, rfl, rfl⟩

theorem Frame.deleteNamedImport (r : Reducer) (name path : String) :
    Frame r (DeleteNamedImport r name path) := ⟨rfl, rfl, rfl, rfl, rfl, rfl⟩

theorem Frame.addNamedImport (r : Reducer) (name path : String) :
    Frame r (AddNamedImport r name path) := by
  unfold AddNamedImport
  split
  · exact Frame.refl r
  · exact ⟨rfl, rfl, rfl, rfl, rfl, rfl⟩

theorem Frame.file {r r' : Reducer} (h : Frame r r') : r'.file = r.file := by
  unfold Reducer.file
  rw [h.2.2.1, h.2.2.2.1]

theorem deleteNamedImport_toks (r : Reducer) (name path : String) :
    (DeleteNamedImport r name path).toks = r.toks := rfl

theorem addNamedImport_toks (r : Reducer) (name path : String) :
    (AddNamedImport r name path).toks = r.toks := by
  unfold AddNamedImport
  split <;> rfl

theorem afterDeleteVisit_fst (info : Info) (obj : Obj) (n : Node)
    (s : Reducer × List redoVar) : (afterDeleteVisit info obj n s).1 = !n.isAssign := by
  unfold afterDeleteVisit
  split
  · split <;> rfl
  · simp only [Node.isAssign]
    split
    · rfl
    · split
      · split <;> rfl
      · rfl
  · rename_i h1 h2
    cases n with
    | stmt st =>
      cases st with
      | assignStmt x lhs rhs => exact absurd rfl (fun h => h2 x lhs rhs s.1 s.2 h rfl)
      | _ => rfl
    | _ => rfl

theorem afterDeleteVisit_inv (T : AssignId → Prop) (r : Reducer) (info : Info) (obj : Obj)
    (n : Node) (p : Reducer × List redoVar) (hp : VisitInv T r p)
    (hn : ∀ x id, defTarget n = some (x, id) → (info.Defs id).isSome → T x) :
    VisitInv T r (step (afterDeleteVisit info obj) p n) := by
  obtain ⟨r1, vars⟩ := p
  obtain ⟨hF, htok, hT⟩ := hp
  have hmono : ∀ (v' : redoVar) (a : AssignId), (∃ v ∈ vars, v.asgn = some a) →
      ∃ v ∈ vars ++ [v'], v.asgn = some a := by
    rintro v' a ⟨v, hv, hva⟩
    exact ⟨v, List.mem_append_left _ hv, hva⟩
  unfold step afterDeleteVisit
  split
  · rename_i x r1' vars' heq
    obtain ⟨rfl, rfl⟩ := Prod.mk.inj heq
    have hT' : ∀ v ∈ vars ++ [(⟨x, r1.names x, none⟩ : redoVar)], ∀ a,
        v.asgn = some a → T a := by
      intro v hv a hva
      rcases List.mem_append.1 hv with hv | hv
      · exact hT v hv a hva
      · rw [List.mem_singleton] at hv
        subst hv
        exact Option.noConfusion hva
    split
    · refine ⟨hF.trans (Frame.setName r1 x "_"), fun a => ?_, hT'⟩
      exact (htok a).imp id (hmono _ a)
    · exact ⟨hF, fun a => (htok a).imp id (hmono _ a), hT'⟩
  · rename_i x lhs rhs r1' vars' heq
    obtain ⟨rfl, rfl⟩ := Prod.mk.inj heq
    split
    · exact ⟨hF, htok, hT⟩
    · rename_i hlen
      split
      · rename_i id hhead
        split
        · exact ⟨hF, htok, hT⟩
        · rename_i hdef
          have hdef' : info.Defs id = some obj := not_not.1 hdef
          have hlhs : lhs = [.ident id] := by
            cases lhs with
            | nil => simp at hhead
            | cons e es =>
              cases es with
              | nil =>
                simp only [List.head?_cons, Option.some.injEq] at hhead
                rw [hhead]
              | cons e' es' => simp at hlen
          subst hlhs
          refine ⟨hF.trans ((Frame.setName r1 id "_").trans (Frame.setTok _ x .ASSIGN)),
            fun a => ?_, ?_⟩
          · by_cases ha : a = x
            · exact Or.inr ⟨_, List.mem_append_right _ (List.mem_singleton_self _), by rw [ha]⟩
            · refine (htok a).imp (fun h => ?_) (hmono _ a)
              simpa [Reducer.setTok, Reducer.setName, ha] using h
          · intro v hv a hva
            rcases List.mem_append.1 hv with hv | hv
            · exact hT v hv a hva
            · rw [List.mem_singleton] at hv
              subst hv
              obtain rfl : x = a := Option.some.inj hva
              exact hn x id rfl (by rw [hdef']; rfl)
      · exact ⟨hF, htok, hT⟩
  · exact ⟨hF, htok, hT⟩

theorem mem_defTargets {ns : List Node} {n : Node} {q : AssignId × IdentId} (hn : n ∈ ns)
    (hq : defTarget n = some q) : q ∈ defTargets ns :=
  List.mem_filterMap.2 ⟨n, hn, hq⟩

theorem afterDeleteObj_inv (T : AssignId → Prop) (r : Reducer) (hT : TargetsSatisfy T r)
    (d : Deleting) (obj : Obj) (hd : VisitInv T r (d.r, d.vars)) :
    VisitInv T r ((afterDeleteObj d obj).r, (afterDeleteObj d obj).vars) := by
  unfold afterDeleteObj
  split
  · refine ⟨hd.1.trans (Frame.deleteNamedImport _ _ _), fun a => ?_, hd.2.2⟩
    exact hd.2.1 a
  · simp only
    rw [inspectFile_eq_foldl _ (fun n => !n.isAssign)
      (fun n s _ => afterDeleteVisit_fst d.r.info obj n s)]
    refine foldl_inv (VisitInv T r) _ _ _ hd (fun s n hn hs => ?_)
    refine afterDeleteVisit_inv T r d.r.info obj n s hs (fun x id hq hdef => ?_)
    rw [hd.1.file] at hn
    rw [hd.1.1] at hdef
    exact hT (x, id) (mem_defTargets hn hq) hdef
  · exact hd

/-- The reducer `afterDelete` returns is the one it is given up to names, tokens and
imports; a token it has changed belongs to an assignment entered in `vars`. -/
theorem afterDelete_inv (T : AssignId → Prop) (r : Reducer) (hT : TargetsSatisfy T r)
    (nodes : List (Option Node)) :
    VisitInv T r (((unusedAfterDelete r nodes).foldl afterDeleteObj ⟨r, [], []⟩).r,
      ((unusedAfterDelete r nodes).foldl afterDeleteObj ⟨r, [], []⟩).vars) := by
  refine foldl_inv (fun d => VisitInv T r (d.r, d.vars)) _ _ _ ?_
    (fun d obj _ hd => afterDeleteObj_inv T r hT d obj hd)
  exact ⟨Frame.refl r, fun a => Or.inl rfl, fun v hv => by simp at hv⟩

theorem undoVars_toks (vars : List redoVar) (r : Reducer) (a : AssignId) :
    ((∃ v ∈ vars, v.asgn = some a) →
      (vars.foldl (fun r rvar =>
        match rvar.asgn with
        | some asgn => (r.setName rvar.id rvar.name).setTok asgn .DEFINE
        | none => r.setName rvar.id rvar.name) r).toks a = .DEFINE) ∧
    ((¬ ∃ v ∈ vars, v.asgn = some a) →
      (vars.foldl (fun r rvar =>
        match rvar.asgn with
        | some asgn => (r.setName rvar.id rvar.name).setTok asgn .DEFINE
        | none => r.setName rvar.id rvar.name) r).toks a = r.toks a) := by
  induction vars generalizing r with
  | nil => simp
  | cons v vs ih =>
    rw [List.foldl_cons]
    obtain ⟨ih1, ih2⟩ := ih (match v.asgn with
      | some asgn => (r.setName v.id v.name).setTok asgn .DEFINE
      | none => r.setName v.id v.name)
    by_cases hvs : ∃ w ∈ vs, w.asgn = some a
    · refine ⟨fun _ => ih1 hvs, fun hno => ?_⟩
      obtain ⟨w, hw, hwa⟩ := hvs
      exact absurd ⟨w, List.mem_cons_of_mem _ hw, hwa⟩ hno
    · rw [ih2 hvs]
      constructor
      · rintro ⟨w, hw, hwa⟩
        rcases List.mem_cons.1 hw with rfl | hw
        · rw [hwa]
          simp [Reducer.setTok]
        · exact absurd ⟨w, hw, hwa⟩ hvs
      · intro hno
        have hv : v.asgn ≠ some a := fun h => hno ⟨v, List.mem_cons_self _ _, h⟩
        cases hva : v.asgn with
        | none => rfl
        | some b =>
          have hb : a ≠ b := fun h => hv (by rw [hva, h])
          simp [Reducer.setTok, Reducer.setName, hb]

theorem undoDelete_frame (imps : List redoImp) (vars : List redoVar) (r : Reducer) :
    Frame r (undoDelete imps vars r) := by
  unfold undoDelete
  refine foldl_inv (Frame r) _ _ _ ?_ (fun s v _ hs => ?_)
  · exact foldl_inv (Frame r) _ _ _ (Frame.refl r)
      (fun s imp _ hs => hs.trans (Frame.addNamedImport s _ _))
  · cases v.asgn with
    | none => exact hs.trans (Frame.setName s _ _)
    | some a => exact hs.trans ((Frame.setName s _ _).trans (Frame.setTok _ a .DEFINE))

theorem undoImps_toks (imps : List redoImp) (r : Reducer) :
    (imps.foldl (fun r imp => AddNamedImport r imp.name imp.path) r).toks = r.toks :=
  foldl_inv (fun s => s.toks = r.toks) _ _ _ rfl
    (fun s _ _ hs => (addNamedImport_toks s _ _).trans hs)

/-- The tokens after the undo of `afterDelete`: `:=` for the assignments entered in
`vars`, unchanged for the others. -/
theorem undoDelete_toks (imps : List redoImp) (vars : List redoVar) (r : Reducer)
    (a : AssignId) :
    ((∃ v ∈ vars, v.asgn = some a) → (undoDelete imps vars r).toks a = .DEFINE) ∧
    ((¬ ∃ v ∈ vars, v.asgn = some a) → (undoDelete imps vars r).toks a = r.toks a) := by
  have h := undoVars_toks vars
    (imps.foldl (fun r imp => AddNamedImport r imp.name imp.path) r) a
  rw [undoImps_toks] at h
  exact h

/-! # removeStmt -/

theorem okChange_tried (oracle : Oracle) (r : Reducer) :
    (okChange oracle r).2.tried = r.tried ++ [(r.prog, (okChange oracle r).1)] := rfl

theorem okChange_frame (oracle : Oracle) (r : Reducer) :
    (okChange oracle r).2.info = r.info ∧ (okChange oracle r).2.useIdents = r.useIdents ∧
      (okChange oracle r).2.fileOf = r.fileOf ∧ (okChange oracle r).2.list = r.list ∧
      (okChange oracle r).2.toks = r.toks :=
  ⟨rfl, rfl, rfl, rfl, rfl⟩

/-- One trial of `removeStmt` at the list `l`, rejected and undone: the symbol index and
the file around the list are those before the trial, the list is `l`, the trial is
recorded, and every token is `:=` or as before; a token that was `:=` still is. -/
theorem trial_undone (oracle : Oracle) (r0 : Reducer) (nodes : List (Option Node))
    (l : List Stmt) :
    let p := afterDelete nodes r0
    let q := okChange oracle { p.1 with list := l }
    q.2.tried = r0.tried ++ [(q.2.prog, q.1)] ∧ q.2.list = l ∧
    (p.2 q.2).info = r0.info ∧ (p.2 q.2).useIdents = r0.useIdents ∧
    (p.2 q.2).fileOf = r0.fileOf ∧ (p.2 q.2).list = l ∧ (p.2 q.2).tried = q.2.tried ∧
    (∀ a, (p.2 q.2).toks a = .DEFINE ∨ (p.2 q.2).toks a = r0.toks a) ∧
    (TargetsSatisfy (fun a => r0.toks a = .DEFINE) r0 → (p.2 q.2).toks = r0.toks) := by
  intro p q
  have hinv := afterDelete_inv (fun _ => True) r0 (fun _ _ _ => trivial) nodes
  obtain ⟨hF, htok, _⟩ := hinv
  have hq : q.2.toks = p.1.toks := rfl
  have hFu := undoDelete_frame
    ((unusedAfterDelete r0 nodes).foldl afterDeleteObj ⟨r0, [], []⟩).imps
    ((unusedAfterDelete r0 nodes).foldl afterDeleteObj ⟨r0, [], []⟩).vars q.2
  have hu := undoDelete_toks
    ((unusedAfterDelete r0 nodes).foldl afterDeleteObj ⟨r0, [], []⟩).imps
    ((unusedAfterDelete r0 nodes).foldl afterDeleteObj ⟨r0, [], []⟩).vars q.2
  refine ⟨?_, rfl, ?_, ?_, ?_, ?_, ?_, ?_, ?_⟩
  · have h1 : q.2.tried = p.1.tried ++ [(q.2.prog, q.1)] := rfl
    have h2 : p.1.tried = r0.tried := hF.2.2.2.2.1
    rw [h1, h2]
  · exact hFu.1.trans hF.1
  · exact hFu.2.1.trans hF.2.1
  · exact hFu.2.2.1.trans hF.2.2.1
  · exact hFu.2.2.2.1
  · exact hFu.2.2.2.2.1
  · intro a
    by_cases hrec : ∃ v ∈ ((unusedAfterDelete r0 nodes).foldl afterDeleteObj ⟨r0, [], []⟩).vars,
        v.asgn = some a
    · exact Or.inl ((hu a).1 hrec)
    · refine Or.inr (((hu a).2 hrec).trans ?_)
      rw [hq]
      exact (htok a).resolve_right hrec
  · intro hT
    obtain ⟨_, _, hT'⟩ := afterDelete_inv (fun a => r0.toks a = .DEFINE) r0 hT nodes
    funext a
    by_cases hrec : ∃ v ∈ ((unusedAfterDelete r0 nodes).foldl afterDeleteObj ⟨r0, [], []⟩).vars,
        v.asgn = some a
    · obtain ⟨v, hv, hva⟩ := hrec
      exact ((hu a).1 ⟨v, hv, hva⟩).trans (hT' v hv a hva).symm
    · refine ((hu a).2 hrec).trans ?_
      rw [hq]
      exact (htok a).resolve_right hrec

theorem allUnusedNames_congr (r r0 : Reducer) (hi : r0.info = r.info)
    (hu : r0.useIdents = r.useIdents) (gd : GenDecl) :
    allUnusedNames r0 gd = allUnusedNames r gd := by
  cases gd with
  | mk tok specs =>
    unfold allUnusedNames Reducer.uses
    rw [hi, hu]

theorem skipStmt_mono (r r0 : Reducer) (hi : r0.info = r.info)
    (hu : r0.useIdents = r.useIdents) (ht : ∀ a, r.toks a = .DEFINE → r0.toks a = .DEFINE)
    (stmt : Stmt) (h : skipStmt r stmt = true) : skipStmt r0 stmt = true := by
  cases stmt with
  | declStmt gd =>
    simp only [skipStmt] at h ⊢
    rw [allUnusedNames_congr r r0 hi hu]
    exact h
  | assignStmt x lhs rhs =>
    simp only [skipStmt, decide_eq_true_eq] at h ⊢
    exact ht x h
  | _ => simp [skipStmt] at h

theorem skipStmt_congr (r r0 : Reducer) (hi : r0.info = r.info)
    (hu : r0.useIdents = r.useIdents) (ht : r0.toks = r.toks) (stmt : Stmt) :
    skipStmt r0 stmt = skipStmt r stmt := by
  cases stmt with
  | declStmt gd =>
    simp only [skipStmt]
    rw [allUnusedNames_congr r r0 hi hu]
  | assignStmt x lhs rhs =>
    simp only [skipStmt]
    rw [ht]
  | _ => rfl

/-- What `mergeLinesNode` returns is the reducer it is given up to the line table and
the positions. -/
theorem mergeLinesNode_ok (i : Nat) (r r' : Reducer) (h : mergeLinesNode i r = .ok r') :
    r' = { r with lines := r'.lines, layout := r'.layout } := by
  unfold mergeLinesNode at h
  simp only at h
  split at h
  · cases h
  · injection h with h
    rw [← h]

theorem removeStmtLoop_skips (oracle : Oracle) (r : Reducer) (orig : List Stmt) :
    ∀ (rest : List Stmt) (i : Nat) (r0 r' : Reducer),
      (∀ k stmt, rest[k]? = some stmt → orig[i + k]? = some stmt) →
      r0.info = r.info → r0.useIdents = r.useIdents →
      (∀ a, r.toks a = .DEFINE → r0.toks a = .DEFINE) →
      removeStmtLoop oracle orig i rest r0 = .ok r' →
      ∃ js : List Nat,
        (∀ j ∈ js, ∃ stmt, orig[j]? = some stmt ∧ skipStmt r stmt = false) ∧
        r'.tried.map (fun t => t.1.list) =
          r0.tried.map (fun t => t.1.list) ++ js.map (without orig) ∧
        (r'.list = orig ∨ ∃ j ∈ js, r'.list = without orig j) := by
  intro rest
  induction rest with
  | nil =>
    intro i r0 r' _ _ _ _ h
    unfold removeStmtLoop at h
    injection h with h
    subst h
    exact ⟨[], by simp, by simp, Or.inl rfl⟩
  | cons stmt rest ih =>
    intro i r0 r' hget hi hu ht h
    have hget' : ∀ k s, rest[k]? = some s → orig[i + 1 + k]? = some s := by
      intro k s hk
      have := hget (k + 1) s (by simpa using hk)
      rw [show i + 1 + k = i + (k + 1) by omega]
      exact this
    have hstmt : orig[i]? = some stmt := by simpa using hget 0 stmt (by simp)
    unfold removeStmtLoop at h
    by_cases hskip : skipStmt r0 stmt = true
    · rw [if_pos hskip] at h
      exact ih (i + 1) r0 r' hget' hi hu ht h
    · rw [if_neg hskip] at h
      have hns : skipStmt r stmt = false := by
        by_contra hne
        exact hskip (skipStmt_mono r r0 hi hu ht stmt (by simpa using hne))
      obtain ⟨h1, h2, h3, h4, h5, h6, h7, h8, _⟩ :=
        trial_undone oracle r0 [some (.stmt stmt)] (orig.take i ++ orig.drop (i + 1))
      simp only at h1 h2 h3 h4 h5 h6 h7 h8 h
      by_cases hok : (okChange oracle
          { (afterDelete [some (.stmt stmt)] r0).1 with
            list := orig.take i ++ orig.drop (i + 1) }).1 = true
      · rw [if_pos hok] at h
        have hr := mergeLinesNode_ok i _ r' h
        have htr : r'.tried = (okChange oracle
          { (afterDelete [some (.stmt stmt)] r0).1 with
            list := orig.take i ++ orig.drop (i + 1) }).2.tried := by rw [hr]
        have hls : r'.list = (okChange oracle
          { (afterDelete [some (.stmt stmt)] r0).1 with
            list := orig.take i ++ orig.drop (i + 1) }).2.list := by rw [hr]
        refine ⟨[i], ?_, ?_, Or.inr ⟨i, by simp, ?_⟩⟩
        · intro j hj
          rw [List.mem_singleton] at hj
          subst hj
          exact ⟨stmt, hstmt, hns⟩
        · rw [htr, h1]
          simp [without, Reducer.prog, h2]
        · rw [hls]
          exact h2
      · rw [if_neg hok] at h
        obtain ⟨js, hjs, htr, hl⟩ := ih (i + 1) _ r' hget' (h3.trans hi) (h4.trans hu)
          (fun a ha => by
            rcases h8 a with h | h
            · exact h
            · rw [h]; exact ht a ha) h
        refine ⟨i :: js, ?_, ?_, ?_⟩
        · intro j hj
          rcases List.mem_cons.1 hj with rfl | hj
          · exact ⟨stmt, hstmt, hns⟩
          · exact hjs j hj
        · rw [htr, h7, h1]
          simp [without, Reducer.prog, h2]
        · rcases hl with hl | ⟨j, hj, hl⟩
          · exact Or.inl hl
          · exact Or.inr ⟨j, List.mem_cons_of_mem _ hj, hl⟩

theorem mem_without {orig : List Stmt} {j k : Nat} {stmt : Stmt}
    (h : orig[j]? = some stmt) (hjk : j ≠ k) : stmt ∈ without orig k := by
  unfold without
  rw [List.mem_append]
  rcases Nat.lt_or_gt_of_ne hjk with hlt | hgt
  · left
    have : (orig.take k)[j]? = some stmt := by rw [List.getElem?_take_of_lt hlt]; exact h
    exact List.getElem?_mem this
  · right
    have : (orig.drop (k + 1))[j - (k + 1)]? = some stmt := by
      rw [List.getElem?_drop, show k + 1 + (j - (k + 1)) = j by omega]
      exact h
    exact List.getElem?_mem this

theorem allUnusedNames_iff (r : Reducer) (tok : Token) (specs : List Spec) :
    allUnusedNames r (.mk tok specs) = true ↔ UnusedValueSpecs r specs := by
  unfold allUnusedNames UnusedValueSpecs
  rw [List.all_eq_true]
  refine forall_congr' (fun spec => forall_congr' (fun _ => ?_))
  cases spec with
  | valueSpec names type values =>
    simp only [List.all_eq_true, decide_eq_true_eq, Spec.valueSpec.injEq]
    constructor
    · intro h
      refine ⟨names, type, values, ⟨rfl, rfl, rfl⟩, fun name hn => ?_⟩
      have := h name hn
      exact List.length_eq_zero.1 (by omega)
    · rintro ⟨names', type', values', ⟨rfl, rfl, rfl⟩, h⟩ name hn
      rw [h name hn]
      simp
  | typeSpec name type =>
    simp

/-- The statements the switch of `removeStmt` passes over are the defining assignments
and the declaration statements other than those of unused values. -/
theorem skipStmt_iff (r : Reducer) (stmt : Stmt) : skipStmt r stmt = true ↔ Kept r stmt := by
  unfold Kept
  cases stmt with
  | declStmt gd =>
    cases gd with
    | mk tok specs =>
      simp only [skipStmt, Bool.not_eq_true', ← Bool.not_eq_true, allUnusedNames_iff]
      constructor
      · intro h
        exact Or.inr ⟨tok, specs, rfl, h⟩
      · rintro (⟨x, lhs, rhs, h, _⟩ | ⟨tok', specs', h, h'⟩)
        · exact Stmt.noConfusion h
        · injection h with h
          injection h with h1 h2
          rw [h2]
          exact h'
  | assignStmt x lhs rhs => simp [skipStmt]
  | _ => simp [skipStmt]

/-- C5: when `removeStmt` returns, every trial it has made (the new entries of `tried`)
is the deletion of a statement that is neither a defining assignment nor a declaration
statement other than one whose specs are all value specs declaring names without recorded
uses; and every statement of these two kinds is still in the list. -/
theorem removeStmt_skips (oracle : Oracle) (r r' : Reducer)
    (h : removeStmt oracle r = .ok r') :
    ∃ js : List Nat,
      (∀ j ∈ js, ∃ stmt, r.list[j]? = some stmt ∧ ¬ Kept r stmt) ∧
      r'.tried.map (fun t => t.1.list) =
        r.tried.map (fun t => t.1.list) ++ js.map (without r.list) ∧
      ∀ (j : Nat) (stmt : Stmt), r.list[j]? = some stmt → Kept r stmt → stmt ∈ r'.list := by
  unfold removeStmt at h
  simp only at h
  split at h
  · exact Except.noConfusion h
  · obtain ⟨js, hjs, htr, hl⟩ := removeStmtLoop_skips oracle r r.list r.list 0 r r'
      (fun k stmt h => by simpa using h) rfl rfl (fun _ h => h) h
    refine ⟨js, fun j hj => ?_, htr, fun j stmt hj hkept => ?_⟩
    · obtain ⟨s, hs, hns⟩ := hjs j hj
      refine ⟨s, hs, fun hk => ?_⟩
      rw [(skipStmt_iff r s).2 hk] at hns
      exact Bool.noConfusion hns
    · have hskip := (skipStmt_iff r stmt).2 hkept
      rcases hl with hl | ⟨k, hk, hl⟩
      · rw [hl]
        exact List.getElem?_mem hj
      · rw [hl]
        refine mem_without hj (fun hjk => ?_)
        obtain ⟨s, hs, hns⟩ := hjs k hk
        rw [← hjk, hj] at hs
        rw [Option.some.inj hs] at hskip
        rw [hskip] at hns
        exact Bool.noConfusion hns

theorem targetsSatisfy_of_typed (r r0 : Reducer) (ht : TypedAssigns r)
    (hi : r0.info = r.info) (hf : r0.fileOf = r.fileOf) (htok : r0.toks = r.toks)
    (hl : r0.list = r.list ∨ ∃ k, k < r.list.length ∧ r0.list = without r.list k) :
    TargetsSatisfy (fun a => r0.toks a = .DEFINE) r0 := by
  intro q hq hdef
  have hmem : r0.list ∈ r.list :: (List.range r.list.length).map (without r.list) := by
    rcases hl with hl | ⟨k, hk, hl⟩
    · rw [hl]
      exact List.mem_cons_self _ _
    · rw [hl]
      exact List.mem_cons_of_mem _ (List.mem_map.2 ⟨k, List.mem_range.2 hk, rfl⟩)
  simp only [deleteNodes, Reducer.file, hf] at hq
  rw [hi] at hdef
  simp only [htok]
  exact ht r0.list hmem q hq hdef

theorem rejected_cons (r : Reducer) (orig : List Stmt) (i : Nat) (js : List Nat) :
    rejected r orig (i :: js) =
      (if notSkipped r orig i = true then [(without orig i, false)] else []) ++
        rejected r orig js := by
  unfold rejected
  rw [List.filter_cons]
  split <;> simp

theorem removeStmtLoop_first (oracle : Oracle) (r : Reducer) (ht : TypedAssigns r) :
    ∀ (rest : List Stmt) (i : Nat) (r0 r' : Reducer),
      (∀ k, rest[k]? = r.list[i + k]?) →
      r0.info = r.info → r0.useIdents = r.useIdents → r0.fileOf = r.fileOf →
      r0.toks = r.toks →
      (r0.list = r.list ∨ ∃ k, k < r.list.length ∧ r0.list = without r.list k) →
      removeStmtLoop oracle r.list i rest r0 = .ok r' →
      (r'.list = r.list ∧
        r'.tried.map trialList =
          r0.tried.map trialList ++ rejected r r.list (List.range' i rest.length)) ∨
      ∃ j, i ≤ j ∧ j < i + rest.length ∧ notSkipped r r.list j = true ∧
        r'.list = without r.list j ∧
        r'.tried.map trialList =
          r0.tried.map trialList ++ rejected r r.list (List.range' i (j - i)) ++
            [(without r.list j, true)] := by
  intro rest
  induction rest with
  | nil =>
    intro i r0 r' _ _ _ _ _ _ h
    unfold removeStmtLoop at h
    injection h with h
    subst h
    left
    exact ⟨rfl, by simp [rejected]⟩
  | cons stmt rest ih =>
    intro i r0 r' hget hi hu hf htok hl h
    have hget' : ∀ k, rest[k]? = r.list[i + 1 + k]? := by
      intro k
      have := hget (k + 1)
      rw [show i + 1 + k = i + (k + 1) by omega]
      simpa using this
    have hstmt : r.list[i]? = some stmt := by simpa using (hget 0).symm
    have hilt : i < r.list.length := by
      by_contra hge
      rw [List.getElem?_eq_none (by omega)] at hstmt
      exact Option.noConfusion hstmt
    have hns : notSkipped r r.list i = !skipStmt r0 stmt := by
      unfold notSkipped
      rw [hstmt, skipStmt_congr r r0 hi hu htok]
    unfold removeStmtLoop at h
    by_cases hskip : skipStmt r0 stmt = true
    · rw [if_pos hskip] at h
      have hns' : notSkipped r r.list i = false := by rw [hns, hskip]; rfl
      rcases ih (i + 1) r0 r' hget' hi hu hf htok hl h with
        ⟨h1, h2⟩ | ⟨j, hj1, hj2, hj3, hj4, hj5⟩
      · left
        refine ⟨h1, ?_⟩
        rw [h2, List.length_cons, List.range'_succ, rejected_cons, hns']
        simp
      · right
        refine ⟨j, by omega, by simp only [List.length_cons]; omega, hj3, hj4, ?_⟩
        rw [hj5, show j - i = (j - (i + 1)) + 1 by omega, List.range'_succ, rejected_cons, hns']
        simp
    · rw [if_neg hskip] at h
      have hns' : notSkipped r r.list i = true := by
        rw [hns]
        simpa using hskip
      obtain ⟨h1, h2, h3, h4, h5, h6, h7, _, h9⟩ :=
        trial_undone oracle r0 [some (.stmt stmt)] (r.list.take i ++ r.list.drop (i + 1))
      simp only at h1 h2 h3 h4 h5 h6 h7 h9 h
      by_cases hok : (okChange oracle
          { (afterDelete [some (.stmt stmt)] r0).1 with
            list := r.list.take i ++ r.list.drop (i + 1) }).1 = true
      · rw [if_pos hok] at h
        have hr := mergeLinesNode_ok i _ r' h
        have htr : r'.tried = (okChange oracle
          { (afterDelete [some (.stmt stmt)] r0).1 with
            list := r.list.take i ++ r.list.drop (i + 1) }).2.tried := by rw [hr]
        have hls : r'.list = (okChange oracle
          { (afterDelete [some (.stmt stmt)] r0).1 with
            list := r.list.take i ++ r.list.drop (i + 1) }).2.list := by rw [hr]
        right
        refine ⟨i, le_refl i, by simp only [List.length_cons]; omega, hns',
          hls.trans h2, ?_⟩
        rw [htr, h1, hok]
        simp [rejected, trialList, without, Reducer.prog, h2]
      · rw [if_neg hok] at h
        have hok' : (okChange oracle
          { (afterDelete [some (.stmt stmt)] r0).1 with
            list := r.list.take i ++ r.list.drop (i + 1) }).1 = false := by
          simpa using hok
        have htok' := h9 (targetsSatisfy_of_typed r r0 ht hi hf htok hl)
        rcases ih (i + 1) _ r' hget' (h3.trans hi) (h4.trans hu) (h5.trans hf)
          (htok'.trans htok) (Or.inr ⟨i, hilt, h6⟩) h with
          ⟨g1, g2⟩ | ⟨j, hj1, hj2, hj3, hj4, hj5⟩
        · left
          refine ⟨g1, ?_⟩
          rw [g2, h7, h1, hok', List.length_cons, List.range'_succ, rejected_cons, hns']
          simp [trialList, without, Reducer.prog, h2]
        · right
          refine ⟨j, by omega, by simp only [List.length_cons]; omega, hj3, hj4, ?_⟩
          rw [hj5, h7, h1, hok', show j - i = (j - (i + 1)) + 1 by omega, List.range'_succ,
            rejected_cons, hns']
          simp [trialList, without, Reducer.prog, h2]

theorem notSkipped_iff (r : Reducer) (orig : List Stmt) (k : Nat) :
    notSkipped r orig k = true ↔ ∃ stmt, orig[k]? = some stmt ∧ ¬ Kept r stmt := by
  unfold notSkipped
  cases h : orig[k]? with
  | none => simp
  | some stmt =>
    simp only [Bool.not_eq_true', Option.some.injEq, exists_eq_left']
    rw [← skipStmt_iff]
    simp

/-- The indices below `j` of the statements `removeStmt` tries, in order, are the
indices of the statements that are not kept. -/
theorem tried_below (r : Reducer) (orig : List Stmt) (j : Nat) :
    ((List.range j).filter (notSkipped r orig)).Pairwise (fun a b => a < b) ∧
    ∀ k, k ∈ (List.range j).filter (notSkipped r orig) ↔
      k < j ∧ ∃ stmt, orig[k]? = some stmt ∧ ¬ Kept r stmt := by
  refine ⟨List.Pairwise.filter _ (List.pairwise_lt_range j), fun k => ?_⟩
  rw [List.mem_filter, List.mem_range, notSkipped_iff]

/-- When `removeStmt` returns, on a list whose assignments agree with the symbol index,
either the list is the original one, and there was one rejected trial for each statement
that is not kept, in order; or the list is the original one without its statement `j`, a
statement that is not kept, with the other statements in their order: the trial for `j`
was accepted, it was the last trial, and before it there was one rejected trial for each
statement below `j` that is not kept. The trials are given by the increasing list `ts` of
the indices of their statements. -/
theorem removeStmt_returns_first (oracle : Oracle) (r r' : Reducer) (ht : TypedAssigns r)
    (h : removeStmt oracle r = .ok r') :
    ∃ (j : Nat) (ts : List Nat),
      ts.Pairwise (fun a b => a < b) ∧
      (∀ k, k ∈ ts ↔ k < j ∧ ∃ stmt, r.list[k]? = some stmt ∧ ¬ Kept r stmt) ∧
      ((j = r.list.length ∧ r'.list = r.list ∧
          r'.tried.map trialList =
            r.tried.map trialList ++ ts.map (fun k => (without r.list k, false))) ∨
        (j < r.list.length ∧ (∃ stmt, r.list[j]? = some stmt ∧ ¬ Kept r stmt) ∧
          r'.list = r.list.take j ++ r.list.drop (j + 1) ∧
          r'.tried.map trialList =
            r.tried.map trialList ++ ts.map (fun k => (without r.list k, false)) ++
              [(r.list.take j ++ r.list.drop (j + 1), true)])) := by
  unfold removeStmt at h
  simp only at h
  split at h
  · exact Except.noConfusion h
  · rcases removeStmtLoop_first oracle r ht r.list 0 r r' (fun k => by simp) rfl rfl rfl rfl
      (Or.inl rfl) h with ⟨h1, h2⟩ | ⟨j, _, hj2, hj3, hj4, hj5⟩
    · obtain ⟨hp, hm⟩ := tried_below r r.list r.list.length
      refine ⟨r.list.length, _, hp, hm, Or.inl ⟨rfl, h1, ?_⟩⟩
      rw [h2, List.range_eq_range']
      rfl
    · obtain ⟨hp, hm⟩ := tried_below r r.list j
      refine ⟨j, _, hp, hm, Or.inr ⟨by omega, (notSkipped_iff r r.list j).1 hj3, hj4, ?_⟩⟩
      rw [hj5, List.range_eq_range']
      rfl

/-- C6: on `oneBlock`, whose list is the one block of four lines, lines 3 to 6 of the 7
of the file, with an oracle that accepts the deletion of the block, `removeStmt` panics
after the accepted trial, in `mergeLinesNode`: `mergeLines` is called for the lines 3 to
7 and, as it goes one line further after each merge while the line table gets one line
shorter, its third call of `MergeLine` is for line 5 of 5. So does `reduceNode` on the
list. -/
theorem removeStmt_panics_oneBlock :
    oneBlock.list.length = 1 ∧ oneBlock.lines.length = 7 ∧
    lineOf oneBlock.lines (Layout.nth oneBlock.layout 0).pos = 3 ∧
    lineOf oneBlock.lines ((Layout.nth oneBlock.layout 0).stop + 1) = 7 ∧
    (MergeLine oneBlock.lines 3).toOption.map List.length = some 6 ∧
    (mergeLoop 2 3 oneBlock.lines).toOption.map List.length = some 5 ∧
    mergeLoop 3 3 oneBlock.lines = .error .invalidLine ∧
    removeStmt acceptAll oneBlock = .error .invalidLine ∧
    reduceNode acceptAll .stmts oneBlock = .error .invalidLine :=
  ⟨by decide, by decide, by decide, by decide, by decide, by decide, rfl, rfl, rfl⟩

/-! # inlineBlock: the new name -/

theorem underscores_length (s : String) (k : Nat) :
    (underscores s k).length = s.length + k := by
  induction k generalizing s with
  | zero => rfl
  | succ k ih =>
    rw [underscores, ih, String.length_append]
    have : "_".length = 1 := rfl
    omega

theorem lookup_mem {α : Type} (name : String) (l : List (String × α))
    (h : l.lookup name ≠ none) : name ∈ l.map Prod.fst := by
  induction l with
  | nil => exact absurd rfl h
  | cons e l ih =>
    rw [List.lookup_cons] at h
    by_cases he : name = e.1
    · rw [he]
      exact List.mem_cons_self _ _
    · have hb : (name == e.1) = false := by simpa using he
      rw [hb] at h
      exact List.mem_cons_of_mem _ (ih h)

theorem freshLoop_spec (scope : Scope) (fuel : Nat) (s : String) :
    scope.Lookup (freshLoop scope fuel s) = none ∨
      ∀ k, k < fuel → scope.Lookup (underscores s k) ≠ none := by
  induction fuel generalizing s with
  | zero => exact Or.inr (fun k hk => absurd hk (Nat.not_lt_zero k))
  | succ fuel ih =>
    unfold freshLoop
    by_cases h : scope.Lookup s ≠ none
    · rw [if_pos h]
      rcases ih (s ++ "_") with h' | h'
      · exact Or.inl h'
      · refine Or.inr (fun k hk => ?_)
        cases k with
        | zero => exact h
        | succ k => exact h' k (by omega)
    · rw [if_neg h]
      exact Or.inl (not_not.1 h)

theorem freshLoop_eq_underscores (scope : Scope) (fuel : Nat) (s : String) :
    ∃ k, k ≤ fuel ∧ freshLoop scope fuel s = underscores s k := by
  induction fuel generalizing s with
  | zero => exact ⟨0, le_refl 0, rfl⟩
  | succ fuel ih =>
    unfold freshLoop
    split
    · obtain ⟨k, hk, h⟩ := ih (s ++ "_")
      exact ⟨k + 1, by omega, h⟩
    · exact ⟨0, Nat.zero_le _, rfl⟩

/-- The loop that lengthens the new name ends on a name that the block's own scope does
not hold: the fuel of `freshName` is never used up. -/
theorem freshName_lookup (scope : Scope) (name : String) :
    scope.Lookup (freshName scope name) = none := by
  rcases freshLoop_spec scope (scope.elems.length + 1) (name ++ "_") with h | h
  · exact h
  · exfalso
    have hsub : (List.range (scope.elems.length + 1)).map (underscores (name ++ "_")) ⊆
        scope.elems.map Prod.fst := by
      intro c hc
      obtain ⟨k, hk, rfl⟩ := List.mem_map.1 hc
      exact lookup_mem _ _ (h k (List.mem_range.1 hk))
    have hnd : ((List.range (scope.elems.length + 1)).map
        (underscores (name ++ "_"))).Nodup := by
      refine (List.nodup_range _).map_on (fun a _ b _ hab => ?_)
      have := congrArg String.length hab
      rw [underscores_length, underscores_length] at this
      omega
    have := (List.subperm_of_subset hnd hsub).length_le
    simp at this

/-- The new name is the original name followed by one or more underscores. -/
theorem freshName_eq_underscores (scope : Scope) (name : String) :
    ∃ k, freshName scope name = underscores name (k + 1) := by
  obtain ⟨k, _, h⟩ := freshLoop_eq_underscores scope (scope.elems.length + 1) (name ++ "_")
  exact ⟨k, h⟩

/-! # The rules on the example programs -/

theorem mapOf_cons {α : Type} (k : Nat) (v : α) (l : List (Nat × α)) (i : Nat) :
    mapOf ((k, v) :: l) i = if i = k then some v else mapOf l i := by
  unfold mapOf
  rw [List.lookup_cons]
  by_cases h : i = k
  · simp [h]
  · have : (i == k) = false := by simpa using h
    simp [h, this]

theorem mapOf_nil {α : Type} (i : Nat) : mapOf ([] : List (Nat × α)) i = none := rfl

theorem useIdentsExact_twoVars : UseIdentsExact twoVars := by
  intro (S : Nat)
  have hu : ∀ id, twoVars.info.Uses id =
      if id = 4 then some 21 else if id = 5 then some 10 else if id = 6 then some 11
      else none := by
    intro (id : Nat)
    simp only [twoVars, mapOf_cons, mapOf_nil]
  have hs : twoVars.uses (some S) =
      if S = 10 then [5] else if S = 11 then [6] else if S = 21 then [4] else [] := by
    simp only [Reducer.uses, twoVars, useIdentsOf, ← mapOf.eq_1, mapOf_cons, mapOf_nil]
    split_ifs <;> rfl
  rw [hs]
  refine ⟨by split_ifs <;> simp, fun (id : Nat) => ?_⟩
  rw [hu]
  split_ifs <;> subst_vars <;> simp <;> first | assumption | (intro h; subst h; simp_all)

/-- C1: on `twoVars` with the group `println(a, b)`, which leaves both `a` and `b` unused,
`afterDelete` followed by its undo leaves the identifier declaring `a` named `_`: the name
it had before the call, `a`, is lost. -/
theorem afterDelete_undo_twoVars :
    twoVars.names 2 = "a" ∧
    unusedAfterDelete twoVars [some (.stmt printAB)] = [21, 10, 11] ∧
    ((afterDelete [some (.stmt printAB)] twoVars).2
      (afterDelete [some (.stmt printAB)] twoVars).1).names 2 = "_" := by
  decide

/-- C2, at `twoVars` with the group `println(a, b)`. -/
theorem unusedAfterDelete_exact_witness :
    UseIdentsExact twoVars ∧ (groupIdents [some (.stmt printAB)]).Nodup ∧
    ((unusedAfterDelete twoVars [some (.stmt printAB)]).Nodup ∧
      ∀ S : Obj, S ∈ unusedAfterDelete twoVars [some (.stmt printAB)] ↔
        (twoVars.uses (some S) ≠ [] ∧
          ∀ id ∈ twoVars.uses (some S), id ∈ groupIdents [some (.stmt printAB)])) := by
  exact ⟨useIdentsExact_twoVars, by decide,
    unusedAfterDelete_exact twoVars _ useIdentsExact_twoVars (by decide)⟩

/-- C3: when the change flag is set, `reduceNode` returns false at once, for every
argument: the reducer (the tree, the symbol index, the record of oracle calls) is
unchanged. -/
theorem reduceNode_didChange (oracle : Oracle) (v : Value) (r : Reducer)
    (h : r.didChange = true) : reduceNode oracle v r = .ok (false, r) := by
  unfold reduceNode
  rw [if_pos h]

/-- C3, at `twoVars` with the flag set, for a statement list. -/
theorem reduceNode_didChange_witness :
    ({ twoVars with didChange := true } : Reducer).didChange = true ∧
    reduceNode (acceptLength 1) .stmts { twoVars with didChange := true } =
      .ok (false, { twoVars with didChange := true }) :=
  ⟨rfl, reduceNode_didChange (acceptLength 1) .stmts { twoVars with didChange := true } rfl⟩

/-- C4: on `callThenBlock` with an oracle that accepts the deletion of `g()` and no
splice, `removeStmt` leaves the identifier declaring the block's `a` named `a`; after
`reduceNode` it is named `a_`, while the identifier using it is named `a` again. -/
theorem reduceNode_stmts_callThenBlock :
    observe (removeStmt (acceptLength 1) callThenBlock)
      (fun r => (r.names 5, r.names 7, r.tried.map Prod.snd)) = some ("a", "a", [true]) ∧
    observe ((reduceNode (acceptLength 1) .stmts callThenBlock).map Prod.snd)
      (fun r => (r.names 5, r.names 7, r.tried.map Prod.snd, r.list.length)) =
        some ("a_", "a", [true, false], 1) := by
  decide

/-- C7: on `oneBlock` with an oracle that rejects every splice, `inlineBlock` leaves the
identifier declaring the block's `a`, named `a` before the call, named `a_`. -/
theorem inlineBlock_rejected_oneBlock :
    oneBlock.names 5 = "a" ∧
    observe (inlineBlock rejectAll oneBlock)
      (fun r => (r.names 5, r.names 7, r.tried.map Prod.snd, r.list.length)) =
        some ("a_", "a", [false], 1) := by
  decide

/-- C8: on `twoBlocks` with an oracle that rejects the splice of the first block and
accepts that of the second, the candidate of the second trial has the two identifiers of
the first block's `a` named `a_`, and so has the reducer returned. -/
theorem inlineBlock_second_trial_twoBlocks :
    observe (inlineBlock (acceptLength 2) twoBlocks)
      (fun r => (r.tried.map (fun t => (t.1.list.length, t.1.names 5, t.1.names 7, t.2)),
        r.names 5, r.names 7)) =
      some ([(3, "a_", "a_", false), (2, "a_", "a_", true)], "a_", "a_") := by
  decide

/-- C9: on `outerTaken`, where the function's scope holds `a` and `a_`, `inlineBlock`
renames the block's `a` to `a_`, the name of the parameter `a_` of the enclosing scope. -/
theorem inlineBlock_fresh_outerTaken :
    (outerTaken.info.scope 2).Lookup "a_" = some 12 ∧
    observe (inlineBlock (acceptLength 2) outerTaken)
      (fun r => (r.names 5, r.names 7, r.tried.map Prod.snd)) = some ("a_", "a_", [true]) := by
  decide

/-- C10: on `inFuncLit` with the group `println(x)`, the only use of `x`, `afterDelete`
leaves the assignment `x := 1`, inside the function literal assigned to `h`, as it is: its
target is named `x` and its token is `:=`. -/
theorem afterDelete_inFuncLit :
    unusedAfterDelete inFuncLit [some (.stmt printX)] = [21, 11] ∧
    (afterDelete [some (.stmt printX)] inFuncLit).1.names 4 = "x" ∧
    (afterDelete [some (.stmt printX)] inFuncLit).1.toks 1 = .DEFINE := by
  decide

/-- C5, at `callThenBlock` with an oracle that accepts the deletion of `g()`: `removeStmt`
returns there. -/
theorem removeStmt_skips_witness :
    ∃ r' : Reducer, removeStmt (acceptLength 1) callThenBlock = .ok r' ∧
      ∃ js : List Nat,
        (∀ j ∈ js, ∃ stmt, callThenBlock.list[j]? = some stmt ∧ ¬ Kept callThenBlock stmt) ∧
        r'.tried.map (fun t => t.1.list) =
          callThenBlock.tried.map (fun t => t.1.list) ++
            js.map (without callThenBlock.list) ∧
        ∀ (j : Nat) (stmt : Stmt), callThenBlock.list[j]? = some stmt →
          Kept callThenBlock stmt → stmt ∈ r'.list :=
  ⟨_, rfl, removeStmt_skips (acceptLength 1) callThenBlock _ rfl⟩

/-- The trials of a returning `removeStmt`, at `callThenBlock` with an oracle that
accepts the deletion of `g()`. -/
theorem removeStmt_returns_first_witness :
    TypedAssigns callThenBlock ∧
    ∃ r' : Reducer, removeStmt (acceptLength 1) callThenBlock = .ok r' ∧
      ∃ (j : Nat) (ts : List Nat),
        ts.Pairwise (fun a b => a < b) ∧
        (∀ k, k ∈ ts ↔
          k < j ∧ ∃ stmt, callThenBlock.list[k]? = some stmt ∧ ¬ Kept callThenBlock stmt) ∧
        ((j = callThenBlock.list.length ∧ r'.list = callThenBlock.list ∧
            r'.tried.map trialList =
              callThenBlock.tried.map trialList ++
                ts.map (fun k => (without callThenBlock.list k, false))) ∨
          (j < callThenBlock.list.length ∧
            (∃ stmt, callThenBlock.list[j]? = some stmt ∧ ¬ Kept callThenBlock stmt) ∧
            r'.list = callThenBlock.list.take j ++ callThenBlock.list.drop (j + 1) ∧
            r'.tried.map trialList =
              callThenBlock.tried.map trialList ++
                ts.map (fun k => (without callThenBlock.list k, false)) ++
                [(callThenBlock.list.take j ++ callThenBlock.list.drop (j + 1), true)])) :=
  ⟨by unfold TypedAssigns; decide, _, rfl,
    removeStmt_returns_first (acceptLength 1) callThenBlock _
      (by unfold TypedAssigns; decide) rfl⟩

/-! # afterDelete: names, tokens and imports only -/

theorem OnlyNames.same (r : Reducer) : OnlyNames r r := rfl

theorem OnlyNames.then {r r' r'' : Reducer} (h : OnlyNames r r') (h' : OnlyNames r' r'') :
    OnlyNames r r'' := by
  unfold OnlyNames at *
  rw [h', h]

theorem OnlyNames.ofSetName (r : Reducer) (id : IdentId) (name : String) :
    OnlyNames r (r.setName id name) := rfl

theorem OnlyNames.ofSetTok (r : Reducer) (x : AssignId) (tok : Token) :
    OnlyNames r (r.setTok x tok) := rfl

theorem OnlyNames.ofDelete (r : Reducer) (name path : String) :
    OnlyNames r (DeleteNamedImport r name path) := rfl

theorem OnlyNames.ofAdd (r : Reducer) (name path : String) :
    OnlyNames r (AddNamedImport r name path) := by
  unfold AddNamedImport
  split
  · exact OnlyNames.same r
  · rfl

theorem OnlyNames.stmt {r r' : Reducer} (h : OnlyNames r r') : r'.stmt = r.stmt := by
  rw [h]

theorem OnlyNames.expr {r r' : Reducer} (h : OnlyNames r r') : r'.expr = r.expr := by
  rw [h]

theorem OnlyNames.node {r r' : Reducer} (h : OnlyNames r r') : r'.node = r.node := by
  rw [h]

theorem OnlyNames.frame {r r' : Reducer} (h : OnlyNames r r') : Frame r r' := by
  rw [h]
  exact ⟨rfl, rfl, rfl, rfl, rfl, rfl⟩

theorem afterDeleteVisit_onlyNames (r : Reducer) (info : Info) (obj : Obj) (n : Node)
    (p : Reducer × List redoVar) (hp : OnlyNames r p.1) :
    OnlyNames r (step (afterDeleteVisit info obj) p n).1 := by
  obtain ⟨r1, vars⟩ := p
  unfold step afterDeleteVisit
  split
  · rename_i x r1' vars' heq
    obtain ⟨rfl, rfl⟩ := Prod.mk.inj heq
    split
    · exact hp.then (OnlyNames.ofSetName r1 x "_")
    · exact hp
  · rename_i x lhs rhs r1' vars' heq
    obtain ⟨rfl, rfl⟩ := Prod.mk.inj heq
    split
    · exact hp
    · split
      · split
        · exact hp
        · exact hp.then ((OnlyNames.ofSetName r1 _ "_").then (OnlyNames.ofSetTok _ x .ASSIGN))
      · exact hp
  · exact hp

theorem afterDeleteObj_onlyNames (r : Reducer) (d : Deleting) (obj : Obj)
    (hd : OnlyNames r d.r) : OnlyNames r (afterDeleteObj d obj).r := by
  unfold afterDeleteObj
  split
  · exact hd.then (OnlyNames.ofDelete _ _ _)
  · simp only
    rw [inspectFile_eq_foldl _ (fun n => !n.isAssign)
      (fun n s _ => afterDeleteVisit_fst d.r.info obj n s)]
    exact foldl_inv (fun p => OnlyNames r p.1) _ _ (d.r, d.vars) hd
      (fun s n _ hs => afterDeleteVisit_onlyNames r d.r.info obj n s hs)
  · exact hd

/-- The reducer `afterDelete` returns is the one it is given up to names, tokens and
imports. -/
theorem afterDelete_onlyNames (r : Reducer) (nodes : List (Option Node)) :
    OnlyNames r (afterDelete nodes r).1 := by
  unfold afterDelete
  exact foldl_inv (fun d => OnlyNames r d.r) _ _ ⟨r, [], []⟩ (OnlyNames.same r)
    (fun d obj _ hd => afterDeleteObj_onlyNames r d obj hd)

/-- The closure `afterDelete` returns changes names, tokens and imports only. -/
theorem undoDelete_onlyNames (imps : List redoImp) (vars : List redoVar) (r : Reducer) :
    OnlyNames r (undoDelete imps vars r) := by
  unfold undoDelete
  refine foldl_inv (fun s => OnlyNames r s) _ _ _ ?_ (fun s v _ hs => ?_)
  · exact foldl_inv (fun s => OnlyNames r s) _ _ _ (OnlyNames.same r)
      (fun s imp _ hs => hs.then (OnlyNames.ofAdd _ _ _))
  · simp only
    split
    · exact hs.then ((OnlyNames.ofSetName _ _ _).then (OnlyNames.ofSetTok _ _ _))
    · exact hs.then (OnlyNames.ofSetName _ _ _)

theorem afterDelete_undo_onlyNames (r r' : Reducer) (nodes : List (Option Node)) :
    OnlyNames r' ((afterDelete nodes r).2 r') := by
  unfold afterDelete
  exact undoDelete_onlyNames _ _ r'

/-! # reduceNode: the result, the conditional statement, the literal -/

theorem isImportSpec_false (v : Value) (h : ∀ s, v = .node (.importSpec s) → False) :
    v.isImportSpec = false := by
  cases v with
  | stmts => rfl
  | node n =>
    cases n with
    | importSpec s => exact (h s rfl).elim
    | _ => rfl

/-- When `reduceNode` returns, its result is false if the change flag was set or the node
is an import spec, and true otherwise. -/
theorem reduceNode_result (oracle : Oracle) (v : Value) (r : Reducer)
    (res : Bool × Reducer) (h : reduceNode oracle v r = .ok res) :
    res.1 = (!r.didChange && !v.isImportSpec) := by
  unfold reduceNode at h
  by_cases hd : r.didChange = true
  · rw [if_pos hd] at h
    cases h
    simp [hd]
  · rw [if_neg hd] at h
    have hd' : r.didChange = false := by simpa using hd
    rw [hd']
    split at h
    all_goals try dsimp only at h
    all_goals try split at h
    all_goals try split at h
    all_goals try split at h
    all_goals try split at h
    all_goals cases h <;> simp [Value.isImportSpec]

theorem changeStmt_tried (oracle : Oracle) (stmt : Stmt) (r : Reducer) :
    (changeStmt oracle stmt r).2.tried =
      r.tried ++ [(({ r with stmt := stmt } : Reducer).prog, (changeStmt oracle stmt r).1)] := by
  unfold changeStmt okChange
  by_cases h : oracle { r with stmt := stmt } = true <;> simp [h]

theorem changeStmt_stmt (oracle : Oracle) (stmt : Stmt) (r : Reducer) :
    (changeStmt oracle stmt r).2.stmt = if (changeStmt oracle stmt r).1 then stmt else r.stmt := by
  unfold changeStmt okChange
  by_cases h : oracle { r with stmt := stmt } = true <;> simp [h]

theorem changeExpr_tried (oracle : Oracle) (expr : Expr) (r : Reducer) :
    (changeExpr oracle expr r).2.tried =
      r.tried ++ [(({ r with expr := expr } : Reducer).prog, (changeExpr oracle expr r).1)] := by
  unfold changeExpr okChange
  by_cases h : oracle { r with expr := expr } = true <;> simp [h]

theorem changeExpr_expr (oracle : Oracle) (expr : Expr) (r : Reducer) :
    (changeExpr oracle expr r).2.expr = if (changeExpr oracle expr r).1 then expr else r.expr := by
  unfold changeExpr okChange
  by_cases h : oracle { r with expr := expr } = true <;> simp [h]
theorem reduceNode_ifStmt_eq (oracle : Oracle) (r : Reducer) (init : Option Stmt)
    (cond : Expr) (body : List Stmt) (els : Option Stmt) (hd : r.didChange = false) :
    reduceNode oracle (.node (.stmt (.ifStmt init cond body els))) r =
      (let (r, undo) := afterDelete [init.map .stmt, some (.expr cond), els.map .stmt] r
      let (ok, r) := changeStmt oracle (.blockStmt body) r
      if ok then .ok (true, r)
      else
        let r := undo r
        match els with
        | some e =>
          let (r, undo) :=
            afterDelete [init.map .stmt, some (.expr cond), some (.stmt (.blockStmt body))] r
          let (ok, r) := changeStmt oracle e r
          if ok then .ok (true, r) else .ok (true, undo r)
        | none => .ok (true, r)) := by
  unfold reduceNode
  rw [if_neg (by simp [hd])]
  try rfl

theorem afterDelete_tried (r : Reducer) (nodes : List (Option Node)) :
    (afterDelete nodes r).1.tried = r.tried := (afterDelete_onlyNames r nodes).frame.2.2.2.2.1

theorem afterDelete_undo_tried (r r' : Reducer) (nodes : List (Option Node)) :
    ((afterDelete nodes r).2 r').tried = r'.tried :=
  (afterDelete_undo_onlyNames r r' nodes).frame.2.2.2.2.1

/-- C13: for a conditional statement, with the change flag not set, `reduceNode` returns,
and its trials are: the body in the slot, accepted, and then the slot holds the body; or
the body rejected and then, with an else branch, the else branch in the slot, and the
slot holds the else branch when this trial is accepted and what it held before the call
(the conditional statement) when it is rejected; or, without an else branch, the body
rejected and no other trial, and the slot holds what it held before the call. -/
theorem reduceNode_if_body_first (oracle : Oracle) (r : Reducer) (init : Option Stmt)
    (cond : Expr)
    (body : List Stmt) (els : Option Stmt) (hd : r.didChange = false) :
    ∃ r', reduceNode oracle (.node (.stmt (.ifStmt init cond body els))) r = .ok (true, r') ∧
      ((∃ p, r'.tried = r.tried ++ [(p, true)] ∧ p.stmt = .blockStmt body ∧
          r'.stmt = .blockStmt body) ∨
        (∃ e p q, els = some e ∧ r'.tried = r.tried ++ [(p, false), (q, true)] ∧
          p.stmt = .blockStmt body ∧ q.stmt = e ∧ r'.stmt = e) ∨
        (∃ e p q, els = some e ∧ r'.tried = r.tried ++ [(p, false), (q, false)] ∧
          p.stmt = .blockStmt body ∧ q.stmt = e ∧ r'.stmt = r.stmt) ∨
        (∃ p, els = none ∧ r'.tried = r.tried ++ [(p, false)] ∧ p.stmt = .blockStmt body ∧
          r'.stmt = r.stmt)) := by
  rw [reduceNode_ifStmt_eq oracle r init cond body els hd]
  have ht1 := changeStmt_tried oracle (.blockStmt body)
    (afterDelete [init.map .stmt, some (.expr cond), els.map .stmt] r).1
  have hs1 := changeStmt_stmt oracle (.blockStmt body)
    (afterDelete [init.map .stmt, some (.expr cond), els.map .stmt] r).1
  rw [afterDelete_tried] at ht1
  rw [(afterDelete_onlyNames r _).stmt] at hs1
  have hu1 := fun r' => afterDelete_undo_onlyNames r r'
    [init.map .stmt, some (.expr cond), els.map .stmt]
  generalize afterDelete [init.map .stmt, some (.expr cond), els.map .stmt] r = a1 at *
  obtain ⟨r1, undo1⟩ := a1
  simp only at ht1 hs1 hu1 ⊢
  generalize hc1 : changeStmt oracle (.blockStmt body) r1 = c1 at *
  obtain ⟨ok1, r2⟩ := c1
  simp only at ht1 hs1 ⊢
  obtain ⟨p1, hp1, ht1⟩ : ∃ p : Prog, p.stmt = .blockStmt body ∧
      r2.tried = r.tried ++ [(p, ok1)] := ⟨_, rfl, ht1⟩
  cases ok1 with
  | true =>
    refine ⟨r2, by simp, Or.inl ⟨p1, ht1, hp1, ?_⟩⟩
    simpa using hs1
  | false =>
    simp only [Bool.false_eq_true, if_false] at hs1 ⊢
    have hs2 : (undo1 r2).stmt = r.stmt := by rw [(hu1 r2).stmt, hs1]
    have ht2 : (undo1 r2).tried = r.tried ++ [(p1, false)] := by
      rw [(hu1 r2).frame.2.2.2.2.1, ht1]
    cases els with
    | none => exact ⟨undo1 r2, rfl, Or.inr (Or.inr (Or.inr ⟨p1, rfl, ht2, hp1, hs2⟩))⟩
    | some e =>
      simp only
      have ht3 := changeStmt_tried oracle e (afterDelete
        [init.map .stmt, some (.expr cond), some (.stmt (.blockStmt body))] (undo1 r2)).1
      have hs3 := changeStmt_stmt oracle e (afterDelete
        [init.map .stmt, some (.expr cond), some (.stmt (.blockStmt body))] (undo1 r2)).1
      rw [afterDelete_tried, ht2] at ht3
      rw [(afterDelete_onlyNames _ _).stmt, hs2] at hs3
      have hu3 := fun r' => afterDelete_undo_onlyNames (undo1 r2) r'
        [init.map .stmt, some (.expr cond), some (.stmt (.blockStmt body))]
      generalize afterDelete [init.map .stmt, some (.expr cond),
        some (.stmt (.blockStmt body))] (undo1 r2) = a3 at *
      obtain ⟨r3, undo3⟩ := a3
      simp only at ht3 hs3 hu3 ⊢
      generalize hc3 : changeStmt oracle e r3 = c3 at *
      obtain ⟨ok3, r4⟩ := c3
      simp only at ht3 hs3 ⊢
      obtain ⟨p3, hp3, ht3⟩ : ∃ p : Prog, p.stmt = e ∧
          r4.tried = r.tried ++ [(p1, false), (p, ok3)] := ⟨_, rfl, by simpa using ht3⟩
      cases ok3 with
      | true =>
        exact ⟨r4, by simp, Or.inr (Or.inl ⟨e, p1, p3, rfl, ht3, hp1, hp3, by simpa using hs3⟩)⟩
      | false =>
        simp only [Bool.false_eq_true, if_false] at hs3 ⊢
        refine ⟨undo3 r4, rfl, Or.inr (Or.inr (Or.inl ⟨e, p1, p3, rfl, ?_, hp1, hp3, ?_⟩))⟩
        · rw [(hu3 r4).frame.2.2.2.2.1, ht3]
        · rw [(hu3 r4).stmt, hs3]
/-- C15: for a string literal whose raw value is not `""`, and for an integer literal
whose raw value is not `0`, `reduceLit` makes one trial, with the literal at the target
value, and leaves the literal at the target value when the oracle accepts and at its
original raw value when it rejects. For a literal already at the target value, or of
another kind, it returns the reducer as it is: no oracle call, nothing changed. -/
theorem reduceLit_spec (oracle : Oracle) (kind : Token) (value : String) (r : Reducer) :
    (∀ target : String, (kind = .STRING ∧ target = "\"\"") ∨ (kind = .INT ∧ target = "0") →
      value ≠ target →
      (reduceLit oracle kind value r).tried =
          r.tried ++ [(({ r with node := .basicLit kind target } : Reducer).prog,
            oracle { r with node := .basicLit kind target })] ∧
        (reduceLit oracle kind value r).node =
          .basicLit kind (if oracle { r with node := .basicLit kind target } then target
            else value)) ∧
      ((kind = .STRING ∧ value = "\"\"") ∨ (kind = .INT ∧ value = "0") ∨
          (kind ≠ .STRING ∧ kind ≠ .INT) →
        reduceLit oracle kind value r = r) := by
  constructor
  · intro target hk hv
    rcases hk with ⟨rfl, rfl⟩ | ⟨rfl, rfl⟩
    · simp only [reduceLit, okChange, if_neg hv]
      by_cases h : oracle { r with node := .basicLit .STRING "\"\"" } = true <;> simp [h]
    · simp only [reduceLit, okChange, if_neg hv]
      by_cases h : oracle { r with node := .basicLit .INT "0" } = true <;> simp [h]
  · intro h
    rcases h with ⟨rfl, rfl⟩ | ⟨rfl, rfl⟩ | ⟨h1, h2⟩
    · simp [reduceLit]
    · simp [reduceLit]
    · cases kind <;> simp_all [reduceLit]

/-! # reduceSlice -/

theorem loopCandidates_eq (sl : SliceExpr) : loopCandidates [0, 1, 2] sl = sl.boundCandidates := by
  obtain ⟨X, Low, High, Max, S3⟩ := sl
  cases Max <;> cases High <;> cases Low <;> rfl

theorem loopRestored_eq (sl : SliceExpr) : loopRestored [0, 1, 2] sl = sl.afterMax := by
  obtain ⟨X, Low, High, Max, S3⟩ := sl
  cases Max <;> cases High <;> cases Low <;> rfl

theorem reduceSliceLoop_cons_some (oracle : Oracle) (i : Nat) (is : List Nat) (sl : SliceExpr)
    (r : Reducer) (orig : Expr) (h : sl.bound i = some orig) :
    reduceSliceLoop oracle (i :: is) sl r =
      if oracle { r with node := (sl.candidate i).toExpr } then
        (sl.candidate i, (okChange oracle { r with node := (sl.candidate i).toExpr }).2)
      else reduceSliceLoop oracle is (sl.restored i orig)
        { (okChange oracle { r with node := (sl.candidate i).toExpr }).2 with
          node := (sl.restored i orig).toExpr } := by
  rw [reduceSliceLoop, h]
  rfl

theorem reduceSliceLoop_cons_none (oracle : Oracle) (i : Nat) (is : List Nat) (sl : SliceExpr)
    (r : Reducer) (h : sl.bound i = none) :
    reduceSliceLoop oracle (i :: is) sl r = reduceSliceLoop oracle is sl r := by
  rw [reduceSliceLoop, h]

theorem reduceSliceLoop_spec (oracle : Oracle) : ∀ (is : List Nat) (sl : SliceExpr)
    (r : Reducer), ∃ new : List (Prog × Bool),
      (reduceSliceLoop oracle is sl r).2.tried = r.tried ++ new ∧
      (reduceSliceLoop oracle is sl r).2.expr = r.expr ∧
      ((new.map trialView =
            (loopCandidates is sl).map (fun s => ((r.expr, s.toExpr), false)) ∧
          (reduceSliceLoop oracle is sl r).1 = loopRestored is sl) ∨
        ∃ k s, (loopCandidates is sl)[k]? = some s ∧
          new.map trialView =
            ((loopCandidates is sl).take k).map (fun s => ((r.expr, s.toExpr), false)) ++
              [((r.expr, s.toExpr), true)] ∧
          (reduceSliceLoop oracle is sl r).1 = s) := by
  intro is
  induction is with
  | nil =>
    intro sl r
    exact ⟨[], by simp [reduceSliceLoop], by simp [reduceSliceLoop],
      Or.inl ⟨by simp [loopCandidates], by simp [reduceSliceLoop, loopRestored]⟩⟩
  | cons i is ih =>
    intro sl r
    cases h : sl.bound i with
    | none =>
      rw [reduceSliceLoop_cons_none oracle i is sl r h]
      have hc : loopCandidates (i :: is) sl = loopCandidates is sl := by
        rw [loopCandidates, h]
      have hr : loopRestored (i :: is) sl = loopRestored is sl := by
        rw [loopRestored, h]
      rw [hc, hr]
      exact ih sl r
    | some orig =>
      rw [reduceSliceLoop_cons_some oracle i is sl r orig h]
      have hc : loopCandidates (i :: is) sl =
          sl.candidate i :: loopCandidates is (sl.restored i orig) := by
        rw [loopCandidates, h]
      have hr : loopRestored (i :: is) sl = loopRestored is (sl.restored i orig) := by
        rw [loopRestored, h]
      rw [hc, hr]
      by_cases ho : oracle { r with node := (sl.candidate i).toExpr } = true
      · rw [if_pos ho]
        refine ⟨[(({ r with node := (sl.candidate i).toExpr } : Reducer).prog, true)], ?_, ?_,
          Or.inr ⟨0, sl.candidate i, by simp, ?_, rfl⟩⟩
        · simp [okChange, ho]
        · simp [okChange]
        · simp [trialView, Reducer.prog]
      · rw [if_neg ho]
        have ho' : oracle { r with node := (sl.candidate i).toExpr } = false := by
          simpa using ho
        obtain ⟨new, ht, he, hnew⟩ := ih (sl.restored i orig)
          { (okChange oracle { r with node := (sl.candidate i).toExpr }).2 with
            node := (sl.restored i orig).toExpr }
        have he' : ({ (okChange oracle { r with node := (sl.candidate i).toExpr }).2 with
            node := (sl.restored i orig).toExpr } : Reducer).expr = r.expr := by
          simp [okChange]
        rw [he'] at he hnew
        refine ⟨(({ r with node := (sl.candidate i).toExpr } : Reducer).prog, false) :: new,
          ?_, he, ?_⟩
        · rw [ht]
          simp [okChange, ho']
        · rcases hnew with ⟨hv, hres⟩ | ⟨k, s, hk, hv, hres⟩
          · refine Or.inl ⟨?_, hres⟩
            rw [List.map_cons, hv]
            simp [trialView, Reducer.prog]
          · refine Or.inr ⟨k + 1, s, by simpa using hk, ?_, hres⟩
            rw [List.map_cons, hv]
            simp [trialView, Reducer.prog]

/-- The trials of `reduceSlice` are its candidates in order, all rejected, or rejected up
to the first one accepted; the slice expression it leaves is the accepted candidate, or
the one the rejected trials restore. -/
theorem reduceSlice_trials (oracle : Oracle) (sl : SliceExpr) (r : Reducer) :
    ∃ new : List (Prog × Bool),
      (reduceSlice oracle sl r).2.tried = r.tried ++ new ∧
      ((new.map trialView = (sliceCandidates sl r).map (fun c => (c, false)) ∧
          (reduceSlice oracle sl r).1 = sl.afterMax ∧
          (reduceSlice oracle sl r).2.expr = r.expr) ∨
        ∃ k c, (sliceCandidates sl r)[k]? = some c ∧
          new.map trialView =
            ((sliceCandidates sl r).take k).map (fun c => (c, false)) ++ [(c, true)] ∧
          (sl :: sl.boundCandidates)[k]? = some (reduceSlice oracle sl r).1) := by
  unfold reduceSlice
  have ht := changeExpr_tried oracle sl.X r
  have he := changeExpr_expr oracle sl.X r
  have hn : (changeExpr oracle sl.X r).2.node = r.node := by
    unfold changeExpr okChange
    by_cases h : oracle { r with expr := sl.X } = true <;> simp [h]
  generalize changeExpr oracle sl.X r = c at *
  obtain ⟨ok, r1⟩ := c
  simp only at ht he hn ⊢
  cases ok with
  | true =>
    refine ⟨_, ht, Or.inr ⟨0, (sl.X, r.node), by simp [sliceCandidates], ?_, by simp⟩⟩
    simp [trialView, Reducer.prog]
  | false =>
    simp only [Bool.false_eq_true, if_false] at he ⊢
    obtain ⟨new, ht', he', hnew⟩ := reduceSliceLoop_spec oracle [0, 1, 2] sl r1
    rw [loopCandidates_eq, loopRestored_eq, he] at hnew
    refine ⟨(({ r with expr := sl.X } : Reducer).prog, false) :: new,
      by rw [ht', ht]; simp, ?_⟩
    rcases hnew with ⟨hv, hres⟩ | ⟨k, s, hk, hv, hres⟩
    · refine Or.inl ⟨?_, hres, by rw [he', he]⟩
      rw [List.map_cons, hv]
      simp [trialView, Reducer.prog, sliceCandidates]
    · refine Or.inr ⟨k + 1, (r.expr, s.toExpr), ?_, ?_, ?_⟩
      · simp [sliceCandidates, hk]
      · rw [List.map_cons, hv]
        simp [trialView, Reducer.prog, sliceCandidates]
        rfl
      · simpa [hres] using hk

/-- C14: the trials of `reduceSlice` are its candidates in the order base operand, max
bound removed, high bound removed, low bound removed (absent bounds skipped), all
rejected, or rejected up to the first one accepted, which is the last and gives the slice
expression left. In particular, when the max bound is present and the trials are the base
operand, rejected, and one more, accepted, the slice expression left has no max bound,
the three-bound flag false, and the other fields unchanged. -/
theorem reduceSlice_order (oracle : Oracle) (sl : SliceExpr) (r : Reducer) :
    ∃ new : List (Prog × Bool),
      (reduceSlice oracle sl r).2.tried = r.tried ++ new ∧
      (new.map trialView = (sliceCandidates sl r).map (fun c => (c, false)) ∨
        ∃ k c, (sliceCandidates sl r)[k]? = some c ∧
          new.map trialView =
            ((sliceCandidates sl r).take k).map (fun c => (c, false)) ++ [(c, true)] ∧
          (sl :: sl.boundCandidates)[k]? = some (reduceSlice oracle sl r).1) ∧
      (∀ m p q, sl.Max = some m → new = [(p, false), (q, true)] →
        (reduceSlice oracle sl r).1 = { sl with Max := none, Slice3 := false }) := by
  obtain ⟨new, ht, hnew⟩ := reduceSlice_trials oracle sl r
  refine ⟨new, ht, ?_, ?_⟩
  · rcases hnew with ⟨hv, _⟩ | h
    · exact Or.inl hv
    · exact Or.inr h
  · intro m p q hm hpq
    subst hpq
    have hbc : ∃ l, sl.boundCandidates = { sl with Max := none, Slice3 := false } :: l := by
      unfold SliceExpr.boundCandidates
      rw [hm]
      exact ⟨_, rfl⟩
    obtain ⟨l, hl⟩ := hbc
    rcases hnew with ⟨hv, _⟩ | ⟨k, c, hk, hv, hres⟩
    · exfalso
      rw [sliceCandidates, hl] at hv
      simp [trialView] at hv
    · rw [sliceCandidates, hl] at hv hk
      rw [hl] at hres
      match k, hk, hv, hres with
      | 0, hk, hv, hres => simp [trialView] at hv
      | 1, hk, hv, hres => simpa using hres.symm
      | k + 2, hk, hv, hres =>
        exfalso
        simp [trialView] at hv

theorem afterMax_eq (sl : SliceExpr) (hflag : sl.Slice3 = true ↔ sl.Max.isSome = true) :
    sl.afterMax = sl := by
  obtain ⟨X, Low, High, Max, S3⟩ := sl
  cases Max with
  | none => rfl
  | some m =>
    have : S3 = true := hflag.2 rfl
    subst this
    rfl

/-- C18: for a slice expression whose three-bound flag is true exactly when its max bound
is present, when every trial of `reduceSlice` is rejected the base, low, high and max
operands and the flag are as before the call, and so is the slot `*r.expr`. -/
theorem reduceSlice_rejected (oracle : Oracle) (sl : SliceExpr) (r : Reducer)
    (hflag : sl.Slice3 = true ↔ sl.Max.isSome = true)
    (hrej : ∀ t ∈ (reduceSlice oracle sl r).2.tried.drop r.tried.length, t.2 = false) :
    (reduceSlice oracle sl r).1 = sl ∧ (reduceSlice oracle sl r).2.expr = r.expr := by
  obtain ⟨new, ht, hnew⟩ := reduceSlice_trials oracle sl r
  rw [ht, List.drop_left] at hrej
  rcases hnew with ⟨_, hres, he⟩ | ⟨k, c, _, hv, _⟩
  · rw [hres, afterMax_eq sl hflag]
    exact ⟨rfl, he⟩
  · exfalso
    have hmem : (c, true) ∈ new.map trialView := by
      rw [hv]
      simp
    obtain ⟨t, htn, hte⟩ := List.mem_map.1 hmem
    have := hrej t htn
    rw [trialView] at hte
    rw [this] at hte
    simp at hte

/-! # afterDelete: what it neutralizes -/

theorem foldl_handled {α β : Type} (I : β → Prop) (Q : α → β → Prop) (f : β → α → β)
    (hI : ∀ s a, I s → I (f s a)) (ha : ∀ s a, I s → Q a (f s a))
    (hs : ∀ s a b, I s → Q b s → Q b (f s a)) :
    ∀ (l : List α) (s : β), I s → ∀ a ∈ l, Q a (l.foldl f s) := by
  intro l
  induction l with
  | nil => intro s _ a ha'; simp at ha'
  | cons b l ih =>
    intro s hIs a ha'
    rw [List.foldl_cons]
    rcases List.mem_cons.1 ha' with rfl | hmem
    · have h : I (l.foldl f (f s a)) ∧ Q a (l.foldl f (f s a)) :=
        foldl_inv (fun t => I t ∧ Q a t) f l (f s a) ⟨hI s a hIs, ha s a hIs⟩
          (fun t c _ ht => ⟨hI t c ht.1, hs t c a ht.1 ht.2⟩)
      exact h.2
    · exact ih (f s b) (hI s b hIs) a hmem

theorem Blanked.unchanged (r : Reducer) : Blanked r r :=
  ⟨fun _ => Or.inl rfl, fun _ => Or.inl rfl, fun _ h => h⟩

theorem Blanked.andThen {r r' r'' : Reducer} (h : Blanked r r') (h' : Blanked r' r'') :
    Blanked r r'' := by
  refine ⟨fun x => ?_, fun a => ?_, fun s hs => h.2.2 s (h'.2.2 s hs)⟩
  · rcases h'.1 x with h1 | h1
    · rw [h1]; exact h.1 x
    · exact Or.inr h1
  · rcases h'.2.1 a with h1 | h1
    · rw [h1]; exact h.2.1 a
    · exact Or.inr h1

theorem Blanked.blankName (r : Reducer) (id : IdentId) : Blanked r (r.setName id "_") := by
  refine ⟨fun x => ?_, fun _ => Or.inl rfl, fun _ h => h⟩
  unfold Reducer.setName
  by_cases h : x = id
  · exact Or.inr (by simp [h])
  · exact Or.inl (by simp [h])

theorem Blanked.plainTok (r : Reducer) (a : AssignId) : Blanked r (r.setTok a .ASSIGN) := by
  refine ⟨fun _ => Or.inl rfl, fun b => ?_, fun _ h => h⟩
  unfold Reducer.setTok
  by_cases h : b = a
  · exact Or.inr (by simp [h])
  · exact Or.inl (by simp [h])

theorem Blanked.dropImport (r : Reducer) (name path : String) :
    Blanked r (DeleteNamedImport r name path) :=
  ⟨fun _ => Or.inl rfl, fun _ => Or.inl rfl, fun _ h => (List.mem_filter.1 h).1⟩

/-- An object neutralized stays so under the writes of `afterDelete`. -/
theorem NeutralizedObj.mono {info : Info} {ns : List Node} {r r' : Reducer} {obj : Obj}
    (h : NeutralizedObj info ns r obj) (hb : Blanked r r') : NeutralizedObj info ns r' obj := by
  refine ⟨fun name iname ipath hk s hs hp => h.1 name iname ipath hk s (hb.2.2 s hs) hp,
    fun hk => ⟨fun x hx hd => ?_, fun q hq hd => ⟨?_, ?_⟩⟩⟩
  · rcases hb.1 x with h1 | h1
    · rw [h1]; exact (h.2 hk).1 x hx hd
    · exact h1
  · rcases hb.1 q.2 with h1 | h1
    · rw [h1]; exact ((h.2 hk).2 q hq hd).1
    · exact h1
  · rcases hb.2.1 q.1 with h1 | h1
    · rw [h1]; exact ((h.2 hk).2 q hq hd).2
    · exact h1

theorem afterDeleteVisit_blanked (info : Info) (obj : Obj) (n : Node)
    (p : Reducer × List redoVar) : Blanked p.1 (step (afterDeleteVisit info obj) p n).1 := by
  obtain ⟨r1, vars⟩ := p
  unfold step afterDeleteVisit
  split
  · rename_i x r1' vars' heq
    obtain ⟨rfl, rfl⟩ := Prod.mk.inj heq
    split
    · exact Blanked.blankName r1 x
    · exact Blanked.unchanged r1
  · rename_i x lhs rhs r1' vars' heq
    obtain ⟨rfl, rfl⟩ := Prod.mk.inj heq
    split
    · exact Blanked.unchanged r1
    · split
      · split
        · exact Blanked.unchanged r1
        · exact (Blanked.blankName r1 _).andThen (Blanked.plainTok _ x)
      · exact Blanked.unchanged r1
  · exact Blanked.unchanged _

/-- What the traversal of `afterDelete` for the variable `obj` has done at the node `n`
once it has visited it. -/
theorem afterDeleteVisit_handles (info : Info) (obj : Obj) (n : Node)
    (p : Reducer × List redoVar) :
    (∀ x, n = .expr (.ident x) → info.Defs x = some obj →
      (step (afterDeleteVisit info obj) p n).1.names x = "_") ∧
    (∀ q, defTarget n = some q → info.Defs q.2 = some obj →
      (step (afterDeleteVisit info obj) p n).1.names q.2 = "_" ∧
      (step (afterDeleteVisit info obj) p n).1.toks q.1 = .ASSIGN) := by
  obtain ⟨r1, vars⟩ := p
  constructor
  · intro x hn hd
    subst hn
    simp [step, afterDeleteVisit, hd, Reducer.setName]
  · intro q hq hd
    cases n with
    | stmt st =>
      cases st with
      | assignStmt a lhs rhs =>
        cases lhs with
        | nil => simp [defTarget] at hq
        | cons e es =>
          cases es with
          | cons e' es' => simp [defTarget] at hq
          | nil =>
            cases e with
            | ident id =>
              simp only [defTarget, Option.some.injEq] at hq
              subst hq
              simp only at hd
              simp [step, afterDeleteVisit, hd, Reducer.setName, Reducer.setTok]
            | _ => simp [defTarget] at hq
      | _ => simp [defTarget] at hq
    | _ => simp [defTarget] at hq

theorem mem_identsOf {ns : List Node} {x : IdentId} (h : x ∈ identsOf ns) :
    Node.expr (.ident x) ∈ ns := by
  induction ns with
  | nil => simp [identsOf] at h
  | cons n ns ih =>
    by_cases hn : ∃ i, n = .expr (.ident i)
    · obtain ⟨i, rfl⟩ := hn
      rw [identsOf, List.mem_cons] at h
      rcases h with rfl | h
      · exact List.mem_cons_self _ _
      · exact List.mem_cons_of_mem _ (ih h)
    · have : identsOf (n :: ns) = identsOf ns := by
        cases n with
        | expr e =>
          cases e with
          | ident i => exact absurd ⟨i, rfl⟩ hn
          | _ => rfl
        | _ => rfl
      rw [this] at h
      exact List.mem_cons_of_mem _ (ih h)

theorem afterDeleteObj_neutralizes (r : Reducer) (d : Deleting) (obj : Obj)
    (hd : OnlyNames r d.r) :
    Blanked d.r (afterDeleteObj d obj).r ∧
      NeutralizedObj r.info (deleteNodes r) (afterDeleteObj d obj).r obj := by
  have hinfo : d.r.info = r.info := hd.frame.1
  have hfile : d.r.file = r.file := hd.frame.file
  unfold afterDeleteObj
  split
  · rename_i name iname ipath hk
    rw [hinfo] at hk
    refine ⟨Blanked.dropImport _ _ _, fun name' iname' ipath' hk' s hs => ?_,
      fun hv => ?_⟩
    · rw [hk] at hk'
      obtain ⟨rfl, rfl, rfl⟩ := ObjKind.pkgName.inj hk'
      have hf := of_decide_eq_true (List.mem_filter.1 hs).2
      intro hp
      constructor
      · intro hne hn
        apply hf
        rw [if_neg (Ne.symm hne)]
        exact ⟨hn, hp⟩
      · intro heq hn
        apply hf
        rw [if_pos heq.symm]
        exact ⟨hn, hp⟩
    · rw [hk] at hv
      exact ObjKind.noConfusion hv
  · rename_i hk
    rw [hinfo] at hk
    simp only
    rw [inspectFile_eq_foldl _ (fun n => !n.isAssign)
      (fun n s _ => afterDeleteVisit_fst d.r.info obj n s), hfile, hinfo]
    refine ⟨?_, fun name iname ipath hk' => ?_, fun _ => ?_⟩
    · exact foldl_inv (fun p => Blanked d.r p.1) _ _ (d.r, d.vars) (Blanked.unchanged _)
        (fun s n _ hs => hs.andThen (afterDeleteVisit_blanked r.info obj n s))
    · rw [hk] at hk'
      exact ObjKind.noConfusion hk'
    · have hall := foldl_handled (fun _ => True)
        (fun (n : Node) (p : Reducer × List redoVar) =>
          (∀ x, n = .expr (.ident x) → r.info.Defs x = some obj → p.1.names x = "_") ∧
          (∀ q, defTarget n = some q → r.info.Defs q.2 = some obj →
            p.1.names q.2 = "_" ∧ p.1.toks q.1 = .ASSIGN))
        (step (afterDeleteVisit r.info obj)) (fun _ _ _ => trivial)
        (fun s n _ => afterDeleteVisit_handles r.info obj n s)
        (fun s a b _ hb => ?_) (visitFile (fun n => !n.isAssign) r.file) (d.r, d.vars) trivial
      · constructor
        · intro x hx hdx
          exact (hall _ (mem_identsOf hx)).1 x rfl hdx
        · intro q hq hdq
          obtain ⟨n, hn, hnq⟩ := List.mem_filterMap.1 hq
          exact (hall n hn).2 q hnq hdq
      · have hbl := afterDeleteVisit_blanked r.info obj a s
        constructor
        · intro x hbx hdx
          rcases hbl.1 x with h1 | h1
          · rw [h1]; exact hb.1 x hbx hdx
          · exact h1
        · intro q hbq hdq
          constructor
          · rcases hbl.1 q.2 with h1 | h1
            · rw [h1]; exact (hb.2 q hbq hdq).1
            · exact h1
          · rcases hbl.2.1 q.1 with h1 | h1
            · rw [h1]; exact (hb.2 q hbq hdq).2
            · exact h1
  · rename_i hk1 hk2
    rw [hinfo] at hk1 hk2
    exact ⟨Blanked.unchanged _, fun name iname ipath hk' => absurd hk' (hk1 name iname ipath),
      fun hv => absurd hv hk2⟩

/-- After `afterDelete`, every object it found unused is neutralized: the import of a
package is deleted, the identifiers declaring a variable that the traversal reaches are
named `_`. -/
theorem afterDelete_neutralizes (r : Reducer) (nodes : List (Option Node)) :
    Neutralized r.info (deleteNodes r) (unusedAfterDelete r nodes) (afterDelete nodes r).1 := by
  unfold afterDelete Neutralized
  exact foldl_handled (fun d => OnlyNames r d.r)
    (fun obj d => NeutralizedObj r.info (deleteNodes r) d.r obj) afterDeleteObj
    (fun d obj hd => afterDeleteObj_onlyNames r d obj hd)
    (fun d obj hd => (afterDeleteObj_neutralizes r d obj hd).2)
    (fun d obj obj' hd h => h.mono (afterDeleteObj_neutralizes r d obj hd).1)
    (unusedAfterDelete r nodes) ⟨r, [], []⟩ (OnlyNames.same r)

theorem unusedVisit_congr (r s : Reducer) (hi : s.info = r.info)
    (hu : s.useIdents = r.useIdents) : unusedVisit s = unusedVisit r := by
  funext n p
  unfold unusedVisit
  rw [hi, hu]

theorem unusedAfterDelete_congr (r s : Reducer) (hi : s.info = r.info)
    (hu : s.useIdents = r.useIdents) (nodes : List (Option Node)) :
    unusedAfterDelete s nodes = unusedAfterDelete r nodes := by
  unfold unusedAfterDelete
  rw [unusedVisit_congr r s hi hu]

/-- The same, for `afterDelete` called on a reducer `s` that has the symbol index of `r`,
and followed by writes that leave names, tokens and imports alone. -/
theorem afterDelete_neutralizes_at (r s r' : Reducer) (nodes : List (Option Node))
    (hs : s.info = r.info ∧ s.useIdents = r.useIdents)
    (hn : r'.names = (afterDelete nodes s).1.names)
    (ht : r'.toks = (afterDelete nodes s).1.toks)
    (hi : r'.imports = (afterDelete nodes s).1.imports) :
    Neutralized r.info (deleteNodes s) (unusedAfterDelete r nodes) r' := by
  have h := afterDelete_neutralizes s nodes
  rw [unusedAfterDelete_congr r s hs.1 hs.2, hs.1] at h
  intro obj hobj
  have ho := h obj hobj
  unfold NeutralizedObj at ho ⊢
  rw [hn, ht, hi]
  exact ho

theorem afterDelete_neutralizes_of (r s r' : Reducer) (nodes : List (Option Node))
    (hs : s.info = r.info ∧ s.useIdents = r.useIdents ∧ s.file = r.file)
    (hn : r'.names = (afterDelete nodes s).1.names)
    (ht : r'.toks = (afterDelete nodes s).1.toks)
    (hi : r'.imports = (afterDelete nodes s).1.imports) :
    Neutralized r.info (deleteNodes r) (unusedAfterDelete r nodes) r' := by
  have h := afterDelete_neutralizes_at r s r' nodes ⟨hs.1, hs.2.1⟩ hn ht hi
  have hdn : deleteNodes s = deleteNodes r := by
    unfold deleteNodes
    rw [hs.2.2]
  rw [hdn] at h
  exact h
theorem reduceNode_binaryExpr_eq (oracle : Oracle) (r : Reducer) (x y : Expr) (op : Token)
    (hd : r.didChange = false) :
    reduceNode oracle (.node (.expr (.binaryExpr x op y))) r =
      (let (r, undo) := afterDelete [some (.expr y)] r
      let (ok, r) := changeExpr oracle x r
      if ok then .ok (true, r)
      else
        let r := undo r
        let (r, undo) := afterDelete [some (.expr x)] r
        let (ok, r) := changeExpr oracle y r
        if ok then .ok (true, r) else .ok (true, undo r)) := by
  unfold reduceNode
  rw [if_neg (by simp [hd])]
  try rfl

theorem reduceNode_indexExpr_eq (oracle : Oracle) (r : Reducer) (x index : Expr)
    (hd : r.didChange = false) :
    reduceNode oracle (.node (.expr (.indexExpr x index))) r =
      (let (r, undo) := afterDelete [some (.expr index)] r
      let (ok, r) := changeExpr oracle x r
      if ok then .ok (true, r) else .ok (true, undo r)) := by
  unfold reduceNode
  rw [if_neg (by simp [hd])]
  try rfl

theorem reduceNode_compositeLit_eq (oracle : Oracle) (r : Reducer) (type : Option Expr)
    (elts : List Expr) (hd : r.didChange = false) :
    reduceNode oracle (.node (.expr (.compositeLit type elts))) r =
      (if elts.length = 0 then .ok (true, r)
      else
        let orig := elts
        let (r, undo) := afterDeleteExprs elts r
        let (ok, r) := okChange oracle { r with node := .compositeLit type [] }
        if ok then .ok (true, r)
        else
          let r := undo r
          .ok (true, { r with node := .compositeLit type orig })) := by
  unfold reduceNode
  rw [if_neg (by simp [hd])]
  try rfl

theorem trial_neutralizes (change : Reducer → Bool × Reducer)
    (hc : ∀ s, (change s).2.info = s.info ∧ (change s).2.useIdents = s.useIdents ∧
      (change s).2.file = s.file ∧ (change s).2.names = s.names ∧
      (change s).2.toks = s.toks ∧ (change s).2.imports = s.imports ∧
      ∃ q, (change s).2.tried = s.tried ++ [(q, (change s).1)])
    (r s : Reducer) (g : List (Option Node))
    (hs : s.info = r.info ∧ s.useIdents = r.useIdents ∧ s.file = r.file) :
    (Neutralized r.info (deleteNodes r) (unusedAfterDelete r g)
        (change (afterDelete g s).1).2 ∧
      (change (afterDelete g s).1).2.info = r.info) ∧
    (∃ q, (change (afterDelete g s).1).2.tried =
      s.tried ++ [(q, (change (afterDelete g s).1).1)]) ∧
    ((afterDelete g s).2 (change (afterDelete g s).1).2).info = r.info ∧
    ((afterDelete g s).2 (change (afterDelete g s).1).2).useIdents = r.useIdents ∧
    ((afterDelete g s).2 (change (afterDelete g s).1).2).file = r.file ∧
    ((afterDelete g s).2 (change (afterDelete g s).1).2).tried =
      (change (afterDelete g s).1).2.tried := by
  obtain ⟨c1, c2, c3, c4, c5, c6, q, c7⟩ := hc (afterDelete g s).1
  have hF := (afterDelete_onlyNames s g).frame
  have hU := (afterDelete_undo_onlyNames s (change (afterDelete g s).1).2 g).frame
  refine ⟨⟨afterDelete_neutralizes_of r s _ g hs c4 c5 c6, ?_⟩, ⟨q, ?_⟩, ?_, ?_, ?_, ?_⟩
  · rw [c1, hF.1, hs.1]
  · rw [c7, hF.2.2.2.2.1]
  · rw [hU.1, c1, hF.1, hs.1]
  · rw [hU.2.1, c2, hF.2.1, hs.2.1]
  · rw [hU.file, c3, hF.file, hs.2.2]
  · exact hU.2.2.2.2.1

theorem changeExpr_keeps (oracle : Oracle) (expr : Expr) (s : Reducer) :
    (changeExpr oracle expr s).2.info = s.info ∧
    (changeExpr oracle expr s).2.useIdents = s.useIdents ∧
    (changeExpr oracle expr s).2.file = s.file ∧
    (changeExpr oracle expr s).2.names = s.names ∧
    (changeExpr oracle expr s).2.toks = s.toks ∧
    (changeExpr oracle expr s).2.imports = s.imports ∧
    ∃ q, (changeExpr oracle expr s).2.tried = s.tried ++ [(q, (changeExpr oracle expr s).1)] := by
  refine ⟨?_, ?_, ?_, ?_, ?_, ?_, _, changeExpr_tried oracle expr s⟩ <;>
  · unfold changeExpr okChange
    by_cases h : oracle { s with expr := expr } = true <;> simp [h, Reducer.file]

theorem changeStmt_keeps (oracle : Oracle) (stmt : Stmt) (s : Reducer) :
    (changeStmt oracle stmt s).2.info = s.info ∧
    (changeStmt oracle stmt s).2.useIdents = s.useIdents ∧
    (changeStmt oracle stmt s).2.file = s.file ∧
    (changeStmt oracle stmt s).2.names = s.names ∧
    (changeStmt oracle stmt s).2.toks = s.toks ∧
    (changeStmt oracle stmt s).2.imports = s.imports ∧
    ∃ q, (changeStmt oracle stmt s).2.tried = s.tried ++ [(q, (changeStmt oracle stmt s).1)] := by
  refine ⟨?_, ?_, ?_, ?_, ?_, ?_, _, changeStmt_tried oracle stmt s⟩ <;>
  · unfold changeStmt okChange
    by_cases h : oracle { s with stmt := stmt } = true <;> simp [h, Reducer.file]

theorem one_trial (change : Reducer → Bool × Reducer)
    (hc : ∀ s, (change s).2.info = s.info ∧ (change s).2.useIdents = s.useIdents ∧
      (change s).2.file = s.file ∧ (change s).2.names = s.names ∧
      (change s).2.toks = s.toks ∧ (change s).2.imports = s.imports ∧
      ∃ q, (change s).2.tried = s.tried ++ [(q, (change s).1)])
    (r r' : Reducer) (g g' : List (Option Node)) (new : List (Prog × Bool)) (k : Nat)
    (p : Prog)
    (hacc : (change (afterDelete g r).1).1 = true → r' = (change (afterDelete g r).1).2)
    (hrej : (change (afterDelete g r).1).1 = false →
      r'.tried = (change (afterDelete g r).1).2.tried)
    (hnew : r'.tried = r.tried ++ new) (hk : new[k]? = some (p, true))
    (hg : [g][k]? = some g') :
    Neutralized r.info (deleteNodes r) (unusedAfterDelete r g') r' ∧ r'.info = r.info := by
  obtain ⟨hN, ⟨q, ht⟩, _⟩ := trial_neutralizes change hc r r g ⟨rfl, rfl, rfl⟩
  cases hv : (change (afterDelete g r).1).1 with
  | true =>
    rw [hacc hv]
    rw [hacc hv, ht, hv] at hnew
    have hn : new = [(q, true)] := (List.append_cancel_left hnew).symm
    subst hn
    match k, hk, hg with
    | 0, _, hg =>
      simp only [List.getElem?_cons_zero, Option.some.injEq] at hg
      subst hg
      exact hN
    | k + 1, hk, _ => simp at hk
  | false =>
    rw [hrej hv, ht, hv] at hnew
    have hn : new = [(q, false)] := (List.append_cancel_left hnew).symm
    subst hn
    match k, hk with
    | 0, hk => simp at hk
    | k + 1, hk => simp at hk

theorem two_trials (change1 change2 : Reducer → Bool × Reducer)
    (hc1 : ∀ s, (change1 s).2.info = s.info ∧ (change1 s).2.useIdents = s.useIdents ∧
      (change1 s).2.file = s.file ∧ (change1 s).2.names = s.names ∧
      (change1 s).2.toks = s.toks ∧ (change1 s).2.imports = s.imports ∧
      ∃ q, (change1 s).2.tried = s.tried ++ [(q, (change1 s).1)])
    (hc2 : ∀ s, (change2 s).2.info = s.info ∧ (change2 s).2.useIdents = s.useIdents ∧
      (change2 s).2.file = s.file ∧ (change2 s).2.names = s.names ∧
      (change2 s).2.toks = s.toks ∧ (change2 s).2.imports = s.imports ∧
      ∃ q, (change2 s).2.tried = s.tried ++ [(q, (change2 s).1)])
    (r r' : Reducer) (g1 g2 g' : List (Option Node)) (new : List (Prog × Bool)) (k : Nat)
    (p : Prog)
    (h1 : (change1 (afterDelete g1 r).1).1 = true → r' = (change1 (afterDelete g1 r).1).2)
    (h2 : (change1 (afterDelete g1 r).1).1 = false →
      (change2 (afterDelete g2
        ((afterDelete g1 r).2 (change1 (afterDelete g1 r).1).2)).1).1 = true →
      r' = (change2 (afterDelete g2
        ((afterDelete g1 r).2 (change1 (afterDelete g1 r).1).2)).1).2)
    (h3 : (change1 (afterDelete g1 r).1).1 = false →
      (change2 (afterDelete g2
        ((afterDelete g1 r).2 (change1 (afterDelete g1 r).1).2)).1).1 = false →
      r'.tried = (change2 (afterDelete g2
        ((afterDelete g1 r).2 (change1 (afterDelete g1 r).1).2)).1).2.tried)
    (hnew : r'.tried = r.tried ++ new) (hk : new[k]? = some (p, true))
    (hg : [g1, g2][k]? = some g') :
    Neutralized r.info (deleteNodes r) (unusedAfterDelete r g') r' ∧ r'.info = r.info := by
  obtain ⟨hN, ⟨q, ht⟩, hi, hu, hf, htr⟩ :=
    trial_neutralizes change1 hc1 r r g1 ⟨rfl, rfl, rfl⟩
  cases hv : (change1 (afterDelete g1 r).1).1 with
  | true =>
    rw [h1 hv]
    rw [h1 hv, ht, hv] at hnew
    have hn : new = [(q, true)] := (List.append_cancel_left hnew).symm
    subst hn
    match k, hk, hg with
    | 0, _, hg =>
      simp only [List.getElem?_cons_zero, Option.some.injEq] at hg
      subst hg
      exact hN
    | k + 1, hk, _ => simp at hk
  | false =>
    obtain ⟨hN', ⟨q', ht'⟩, _⟩ := trial_neutralizes change2 hc2 r
      ((afterDelete g1 r).2 (change1 (afterDelete g1 r).1).2) g2 ⟨hi, hu, hf⟩
    rw [htr, ht, hv] at ht'
    cases hv' : (change2 (afterDelete g2
        ((afterDelete g1 r).2 (change1 (afterDelete g1 r).1).2)).1).1 with
    | true =>
      rw [h2 hv hv']
      rw [h2 hv hv', ht', hv', List.append_assoc] at hnew
      have hn : new = [(q, false), (q', true)] := (List.append_cancel_left hnew).symm
      subst hn
      match k, hk, hg with
      | 0, hk, _ => simp at hk
      | 1, _, hg =>
        simp only [List.getElem?_cons_succ, List.getElem?_cons_zero, Option.some.injEq] at hg
        subst hg
        exact hN'
      | k + 2, hk, _ => simp at hk
    | false =>
      rw [h3 hv hv', ht', hv', List.append_assoc] at hnew
      have hn : new = [(q, false), (q', false)] := (List.append_cancel_left hnew).symm
      subst hn
      match k, hk with
      | 0, hk => simp at hk
      | 1, hk => simp at hk
      | k + 2, hk => simp at hk

theorem ok_snd_eq {b b' : Bool} {s r' : Reducer}
    (h : (Except.ok (b, s) : Except Panic (Bool × Reducer)) = .ok (b', r')) : r' = s := by
  injection h with h
  exact (Prod.mk.inj h).2.symm

theorem one_trial_match (change : Reducer → Bool × Reducer)
    (hc : ∀ s, (change s).2.info = s.info ∧ (change s).2.useIdents = s.useIdents ∧
      (change s).2.file = s.file ∧ (change s).2.names = s.names ∧
      (change s).2.toks = s.toks ∧ (change s).2.imports = s.imports ∧
      ∃ q, (change s).2.tried = s.tried ++ [(q, (change s).1)])
    (post : Reducer → Reducer) (hpost : ∀ s, (post s).tried = s.tried)
    (r r' : Reducer) (b : Bool) (g g' : List (Option Node)) (new : List (Prog × Bool))
    (k : Nat) (p : Prog)
    (h : (match afterDelete g r with
      | (s, undo) =>
        match change s with
        | (ok, s) => if ok = true then Except.ok (true, s) else Except.ok (true, post (undo s))) =
      (Except.ok (b, r') : Except Panic (Bool × Reducer)))
    (hnew : r'.tried = r.tried ++ new) (hk : new[k]? = some (p, true))
    (hg : [g][k]? = some g') :
    Neutralized r.info (deleteNodes r) (unusedAfterDelete r g') r' ∧ r'.info = r.info := by
  have hU := fun s => (afterDelete_undo_onlyNames r s g).frame.2.2.2.2.1
  refine one_trial change hc r r' g g' new k p ?_ ?_ hnew hk hg
  · revert h
    generalize afterDelete g r = a1
    obtain ⟨s1, undo1⟩ := a1
    simp only
    generalize change s1 = c1
    obtain ⟨ok1, t1⟩ := c1
    simp only
    intro h hv
    rw [if_pos hv] at h
    exact ok_snd_eq h
  · revert h hU
    generalize afterDelete g r = a1
    obtain ⟨s1, undo1⟩ := a1
    simp only
    generalize change s1 = c1
    obtain ⟨ok1, t1⟩ := c1
    simp only
    intro h hU hv
    rw [if_neg (by simp [hv])] at h
    rw [ok_snd_eq h, hpost, hU]

theorem two_trials_match (change1 change2 : Reducer → Bool × Reducer)
    (hc1 : ∀ s, (change1 s).2.info = s.info ∧ (change1 s).2.useIdents = s.useIdents ∧
      (change1 s).2.file = s.file ∧ (change1 s).2.names = s.names ∧
      (change1 s).2.toks = s.toks ∧ (change1 s).2.imports = s.imports ∧
      ∃ q, (change1 s).2.tried = s.tried ++ [(q, (change1 s).1)])
    (hc2 : ∀ s, (change2 s).2.info = s.info ∧ (change2 s).2.useIdents = s.useIdents ∧
      (change2 s).2.file = s.file ∧ (change2 s).2.names = s.names ∧
      (change2 s).2.toks = s.toks ∧ (change2 s).2.imports = s.imports ∧
      ∃ q, (change2 s).2.tried = s.tried ++ [(q, (change2 s).1)])
    (r r' : Reducer) (b : Bool) (g1 g2 g' : List (Option Node)) (new : List (Prog × Bool))
    (k : Nat) (p : Prog)
    (h : (match afterDelete g1 r with
      | (s, undo) =>
        match change1 s with
        | (ok, s) =>
          if ok = true then Except.ok (true, s)
          else
            match afterDelete g2 (undo s) with
            | (s, undo) =>
              match change2 s with
              | (ok, s) =>
                if ok = true then Except.ok (true, s) else Except.ok (true, undo s)) =
      (Except.ok (b, r') : Except Panic (Bool × Reducer)))
    (hnew : r'.tried = r.tried ++ new) (hk : new[k]? = some (p, true))
    (hg : [g1, g2][k]? = some g') :
    Neutralized r.info (deleteNodes r) (unusedAfterDelete r g') r' ∧ r'.info = r.info := by
  have hU := fun s t => (afterDelete_undo_onlyNames s t g2).frame.2.2.2.2.1
  refine two_trials change1 change2 hc1 hc2 r r' g1 g2 g' new k p ?_ ?_ ?_ hnew hk hg
  · revert h
    generalize afterDelete g1 r = a1
    obtain ⟨s1, undo1⟩ := a1
    simp only
    generalize change1 s1 = c1
    obtain ⟨ok1, t1⟩ := c1
    simp only
    intro h hv
    rw [if_pos hv] at h
    exact ok_snd_eq h
  · revert h
    generalize afterDelete g1 r = a1
    obtain ⟨s1, undo1⟩ := a1
    simp only
    generalize change1 s1 = c1
    obtain ⟨ok1, t1⟩ := c1
    simp only
    generalize afterDelete g2 (undo1 t1) = a2
    obtain ⟨s2, undo2⟩ := a2
    simp only
    generalize change2 s2 = c2
    obtain ⟨ok2, t2⟩ := c2
    simp only
    intro h hv hv'
    rw [if_neg (by simp [hv]), if_pos hv'] at h
    exact ok_snd_eq h
  · have hU2 := fun t => hU ((afterDelete g1 r).2 (change1 (afterDelete g1 r).1).2) t
    revert h hU2
    generalize afterDelete g1 r = a1
    obtain ⟨s1, undo1⟩ := a1
    simp only
    generalize change1 s1 = c1
    obtain ⟨ok1, t1⟩ := c1
    simp only
    generalize afterDelete g2 (undo1 t1) = a2
    obtain ⟨s2, undo2⟩ := a2
    simp only
    generalize change2 s2 = c2
    obtain ⟨ok2, t2⟩ := c2
    simp only
    intro h hU2 hv hv'
    rw [if_neg (by simp [hv]), if_neg (by simp [hv'])] at h
    rw [ok_snd_eq h, hU2]

/-- After a trial of `reduceNode` that follows a call of `afterDelete` and is accepted,
the objects `afterDelete` found unused in the group of this trial are neutralized. -/
theorem reduceNode_neutralizes_aux (oracle : Oracle) (v : Value) (r r' : Reducer) (b : Bool)
    (new : List (Prog × Bool)) (k : Nat) (p : Prog) (g : List (Option Node))
    (h : reduceNode oracle v r = .ok (b, r')) (hnew : r'.tried = r.tried ++ new)
    (hk : new[k]? = some (p, true)) (hg : (removedGroups v)[k]? = some g) :
    Neutralized r.info (deleteNodes r) (unusedAfterDelete r g) r' ∧ r'.info = r.info := by
  by_cases hd : r.didChange = true
  · exfalso
    unfold reduceNode at h
    rw [if_pos hd] at h
    have hr := ok_snd_eq h
    subst hr
    have hn : new = [] := by
      have := List.append_cancel_left ((List.append_nil r'.tried).trans hnew)
      exact this.symm
    subst hn
    simp at hk
  · have hd' : r.didChange = false := by simpa using hd
    cases v with
    | stmts => exact absurd hg (by simp [removedGroups])
    | node n =>
      cases n with
      | importSpec s => exact absurd hg (by simp [removedGroups])
      | stmt st =>
        cases st with
        | ifStmt init cond body els =>
          rw [reduceNode_ifStmt_eq oracle r init cond body els hd'] at h
          cases els with
          | none =>
            exact one_trial_match (changeStmt oracle (.blockStmt body))
              (changeStmt_keeps oracle _) id (fun _ => rfl) r r' b _ g new k p h hnew hk hg
          | some e =>
            exact two_trials_match (changeStmt oracle (.blockStmt body)) (changeStmt oracle e)
              (changeStmt_keeps oracle _) (changeStmt_keeps oracle _)
              r r' b _ _ g new k p h hnew hk hg
        | _ => exact absurd hg (by simp [removedGroups])
      | expr e =>
        cases e with
        | compositeLit type elts =>
          rw [reduceNode_compositeLit_eq oracle r type elts hd'] at h
          by_cases hlen : elts.length = 0
          · exfalso
            rw [if_pos hlen] at h
            have hr := ok_snd_eq h
            subst hr
            have hn : new = [] := by
              have := List.append_cancel_left ((List.append_nil r'.tried).trans hnew)
              exact this.symm
            subst hn
            simp at hk
          · rw [if_neg hlen] at h
            exact one_trial_match
              (fun s => okChange oracle { s with node := .compositeLit type [] })
              (fun s => ⟨rfl, rfl, rfl, rfl, rfl, rfl, _, rfl⟩)
              (fun s => { s with node := .compositeLit type elts }) (fun _ => rfl)
              r r' b _ g new k p h hnew hk hg
        | binaryExpr x op y =>
          rw [reduceNode_binaryExpr_eq oracle r x y op hd'] at h
          exact two_trials_match (changeExpr oracle x) (changeExpr oracle y)
            (changeExpr_keeps oracle _) (changeExpr_keeps oracle _)
            r r' b _ _ g new k p h hnew hk hg
        | indexExpr x index =>
          rw [reduceNode_indexExpr_eq oracle r x index hd'] at h
          exact one_trial_match (changeExpr oracle x) (changeExpr_keeps oracle _) id
            (fun _ => rfl) r r' b _ g new k p h hnew hk hg
        | _ => exact absurd hg (by simp [removedGroups])
      | _ => exact absurd hg (by simp [removedGroups])
theorem removeStmtLoop_neutralizes (oracle : Oracle) (r : Reducer) :
    ∀ (rest : List Stmt) (i : Nat) (r0 r' : Reducer),
      (∀ k, rest[k]? = r.list[i + k]?) →
      r0.info = r.info → r0.useIdents = r.useIdents → r0.fileOf = r.fileOf →
      (r0.list = r.list ∨ ∃ k, k < i ∧ r0.list = without r.list k) →
      removeStmtLoop oracle r.list i rest r0 = .ok r' →
      ∃ new : List (Prog × Bool),
        r'.tried = r0.tried ++ new ∧
        ((∀ t ∈ new, t.2 = false) ∨
          ∃ j stmt l, r.list[j]? = some stmt ∧
            r'.list = without r.list j ∧
            (l = r.list ∨ ∃ k, k < j ∧ l = without r.list k) ∧
            Neutralized r.info (visitFile (fun n => !n.isAssign) (r.fileOf l))
              (unusedAfterDelete r [some (.stmt stmt)]) r' ∧ r'.info = r.info) := by
  intro rest
  induction rest with
  | nil =>
    intro i r0 r' _ _ _ _ _ h
    unfold removeStmtLoop at h
    injection h with h
    subst h
    exact ⟨[], by simp, Or.inl (fun t ht => by simp at ht)⟩
  | cons stmt rest ih =>
    intro i r0 r' hget hi hu hf hl h
    have hget' : ∀ k, rest[k]? = r.list[i + 1 + k]? := by
      intro k
      have := hget (k + 1)
      rw [show i + 1 + k = i + (k + 1) by omega]
      simpa using this
    have hstmt : r.list[i]? = some stmt := by simpa using (hget 0).symm
    have hl' : r0.list = r.list ∨ ∃ k, k < i + 1 ∧ r0.list = without r.list k := by
      rcases hl with h | ⟨k, hk, h⟩
      · exact Or.inl h
      · exact Or.inr ⟨k, by omega, h⟩
    unfold removeStmtLoop at h
    by_cases hskip : skipStmt r0 stmt = true
    · rw [if_pos hskip] at h
      exact ih (i + 1) r0 r' hget' hi hu hf hl' h
    · rw [if_neg hskip] at h
      obtain ⟨h1, h2, h3, h4, h5, h6, h7, _, _⟩ :=
        trial_undone oracle r0 [some (.stmt stmt)] (r.list.take i ++ r.list.drop (i + 1))
      simp only at h1 h2 h3 h4 h5 h6 h7 h
      by_cases hok : (okChange oracle
          { (afterDelete [some (.stmt stmt)] r0).1 with
            list := r.list.take i ++ r.list.drop (i + 1) }).1 = true
      · rw [if_pos hok] at h
        have hr := mergeLinesNode_ok i _ r' h
        have htr : r'.tried = (okChange oracle
          { (afterDelete [some (.stmt stmt)] r0).1 with
            list := r.list.take i ++ r.list.drop (i + 1) }).2.tried := by rw [hr]
        have hls : r'.list = (okChange oracle
          { (afterDelete [some (.stmt stmt)] r0).1 with
            list := r.list.take i ++ r.list.drop (i + 1) }).2.list := by rw [hr]
        have hnm : r'.names = (afterDelete [some (.stmt stmt)] r0).1.names := by rw [hr]; rfl
        have htk : r'.toks = (afterDelete [some (.stmt stmt)] r0).1.toks := by rw [hr]; rfl
        have him : r'.imports = (afterDelete [some (.stmt stmt)] r0).1.imports := by
          rw [hr]; rfl
        have hN := afterDelete_neutralizes_at r r0 r' [some (.stmt stmt)] ⟨hi, hu⟩ hnm htk him
        have hin : r'.info = r.info := by
          rw [hr]
          exact ((afterDelete_onlyNames r0 [some (.stmt stmt)]).frame.1).trans hi
        refine ⟨_, htr.trans h1, Or.inr ⟨i, stmt, r0.list, hstmt, hls.trans h2, hl, ?_, hin⟩⟩
        have hdn : deleteNodes r0 = visitFile (fun n => !n.isAssign) (r.fileOf r0.list) := by
          unfold deleteNodes Reducer.file
          rw [hf]
        rw [hdn] at hN
        exact hN
      · rw [if_neg hok] at h
        have hok' : (okChange oracle
          { (afterDelete [some (.stmt stmt)] r0).1 with
            list := r.list.take i ++ r.list.drop (i + 1) }).1 = false := by
          simpa using hok
        obtain ⟨new, hnew, hcases⟩ := ih (i + 1) _ r' hget' (h3.trans hi) (h4.trans hu)
          (h5.trans hf) (Or.inr ⟨i, by omega, h6⟩) h
        refine ⟨((okChange oracle
          { (afterDelete [some (.stmt stmt)] r0).1 with
            list := r.list.take i ++ r.list.drop (i + 1) }).2.prog, false) :: new, ?_, ?_⟩
        · rw [hnew, h7, h1, hok', List.append_assoc]
          rfl
        · rcases hcases with hall | hex
          · left
            intro t ht
            rcases List.mem_cons.1 ht with rfl | ht
            · rfl
            · exact hall t ht
          · exact Or.inr hex

/-- An object that loses its last referencing occurrence with the nodes of a group is
among the objects `unusedAfterDelete` reports for the group. -/
theorem mem_unused_of_orphaned (r : Reducer) (g : List (Option Node))
    (huse : UseIdentsExact r) (hdisj : (groupIdents g).Nodup) (S : Obj)
    (hS : Orphaned r g S) : S ∈ unusedAfterDelete r g := by
  have hinv := unusedInv_foldl r huse (groupIdents g) [] _ (unusedInv_init r)
    (by simpa using hdisj)
  rw [List.nil_append] at hinv
  rw [unusedAfterDelete_eq_foldl]
  obtain ⟨_, hall⟩ := hinv
  obtain ⟨_, h1, h2⟩ := hall S
  obtain ⟨hne, hin⟩ := hS
  have hle := usesIn_length_le r huse S (groupIdents g) hdisj
  have hsup : r.uses (some S) ⊆ usesIn r S (groupIdents g) := by
    intro id hid
    simp only [usesIn, List.mem_filter, decide_eq_true_eq]
    exact ⟨hin id hid, ((huse S).2 id).1 hid⟩
  have hge := (List.subperm_of_subset (huse S).1 hsup).length_le
  have hpos : 1 ≤ (r.uses (some S)).length := by
    cases hu : r.uses (some S) with
    | nil => exact absurd hu hne
    | cons a l => simp
  by_cases hn : (r.uses (some S)).length = 1
  · exact (h1 (by omega) hn).2
  · exact (h2 (by omega) hn).2.2 (by omega)

/-- What `afterDelete` has done for an object leaves neither a declaration nor an import
of it under its name, when no import spec left gives a package its own name and every
identifier declaring the object is reached. -/
theorem NeutralizedObj.undeclared {r r' : Reducer} {l : List Stmt} {S : Obj}
    (h : NeutralizedObj r.info (visitFile (fun n => !n.isAssign) (r.fileOf l)) r' S)
    (hinfo : r'.info = r.info) (hown : OwnNameFree r') (hreach : DeclsReached r l r' S) : Undeclared r' S := by
  rw [Undeclared, hinfo]
  refine ⟨fun name iname ipath hk s hs hc => ?_, fun hk d hd => ?_⟩
  · obtain ⟨hp, hnm⟩ := hc
    have h1 := h.1 name iname ipath hk s hs hp
    by_cases hni : name = iname
    · rcases hnm with hn | ⟨hn, _⟩
      · exact hown s hs S name iname ipath (by rw [hinfo]; exact hk) hni ⟨hn, hp⟩
      · exact h1.2 hni hn
    · rcases hnm with hn | ⟨_, hn⟩
      · exact h1.1 hni hn
      · exact hni hn
  · have hdS : r.info.Defs d.1 = some S ∧ d.2 = r'.names d.1 := by
      unfold declarations at hd
      obtain ⟨x, hx, rfl⟩ := List.mem_map.1 hd
      have := (List.mem_filter.1 hx).2
      rw [hinfo] at this
      exact ⟨by simpa using this, rfl⟩
    rw [hdS.2]
    rcases hreach d hd with hx | ⟨q, hq, hqd⟩
    · exact (h.2 hk).1 d.1 hx hdS.1
    · rw [← hqd]
      exact ((h.2 hk).2 q hq (by rw [hqd]; exact hdS.1)).1

/-! # reduceNode: the constant rule -/

theorem constInNames_eq (info : Info) (obj : Obj) (values : List Expr) :
    ∀ (names : List IdentId) (i : Nat),
      (∀ (j : Nat) (name : IdentId), names[j]? = some name → info.Defs name = some obj →
        i + j < values.length) →
      constInNames info obj values i names =
        .ok (declaredValue info obj names (values.drop i)) := by
  intro names
  induction names with
  | nil => intro i _; simp [constInNames, declaredValue]
  | cons name names ih =>
    intro i h
    unfold constInNames
    by_cases hd : info.Defs name = some obj
    · rw [if_pos hd]
      have hi : i < values.length := by simpa using h 0 name (by simp) hd
      have hdrop : values.drop i = values[i] :: values.drop (i + 1) :=
        List.drop_eq_getElem_cons hi
      rw [declaredValue, hdrop, List.zip_cons_cons, List.find?_cons]
      simp only [hd, decide_True, Option.map_some']
      rw [List.get?_eq_getElem?, List.getElem?_eq_getElem hi]
    · rw [if_neg hd]
      rw [ih (i + 1) (fun j n hj hn => by
        have := h (j + 1) n (by simpa using hj) hn
        omega)]
      by_cases hi : i < values.length
      · have hdrop : values.drop i = values[i] :: values.drop (i + 1) :=
          List.drop_eq_getElem_cons hi
        rw [declaredValue, declaredValue, hdrop, List.zip_cons_cons, List.find?_cons]
        simp only [hd, decide_False]
      · have h1 : values.drop i = [] := List.drop_eq_nil_of_le (by omega)
        have h2 : values.drop (i + 1) = [] := List.drop_eq_nil_of_le (by omega)
        rw [h1, h2]
        simp [declaredValue]

theorem constInSpecs_eq (info : Info) (obj : Obj) :
    ∀ specs : List Spec, HasValues info obj specs →
      constInSpecs info obj specs = .ok (specsValue info obj specs) := by
  intro specs
  induction specs with
  | nil => intro _; rfl
  | cons spec specs ih =>
    intro h
    obtain ⟨names, type, values, rfl, hv⟩ := h spec (List.mem_cons_self _ _)
    have ih' := ih (fun s hs => h s (List.mem_cons_of_mem _ hs))
    have h1 := constInNames_eq info obj values names 0 (fun j n hj hn => by
      have := hv j n hj hn
      omega)
    rw [List.drop_zero] at h1
    unfold constInSpecs specsValue
    rw [h1]
    cases hdv : declaredValue info obj names values with
    | none => simpa using ih'
    | some e => rfl

theorem constVisit_fst (info : Info) (obj : Obj) (n : Node)
    (s : Except Panic (Option Expr)) :
    (constVisit info obj n s).1 = (constVisit info obj n (.ok none)).1 := by
  unfold constVisit
  split
  · split
    · rfl
    · split <;> rfl
  · rfl

theorem constVisit_step (info : Info) (obj : Obj) (n : Node) (cur : Option Expr)
    (h : ∀ specs, constSpecs n = some specs → HasValues info obj specs) :
    step (constVisit info obj) (.ok cur) n =
      .ok (match (constSpecs n).bind (specsValue info obj) with
        | some expr => some expr
        | none => cur) := by
  cases n with
  | stmt st =>
    cases st with
    | declStmt gd =>
      cases gd with
      | mk tok specs =>
        by_cases ht : tok = .CONST
        · subst ht
          have hs := constInSpecs_eq info obj specs (h specs (by simp [constSpecs]))
          simp only [step, constVisit, ne_eq, not_true_eq_false, if_false, hs, constSpecs,
            if_true, Option.some_bind]
          cases hsv : specsValue info obj specs <;> simp [Except.bind]
        · simp [step, constVisit, ht, constSpecs]
    | _ => rfl
  | _ => rfl

theorem foldl_constVisit (info : Info) (obj : Obj) :
    ∀ (ns : List Node) (cur : Option Expr),
      (∀ n ∈ ns, ∀ specs, constSpecs n = some specs → HasValues info obj specs) →
      ns.foldl (step (constVisit info obj)) (.ok cur) =
        .ok (match foundValue info obj ns with
          | some expr => some expr
          | none => cur) := by
  intro ns
  induction ns with
  | nil => intro cur _; rfl
  | cons n ns ih =>
    intro cur h
    rw [List.foldl_cons, constVisit_step info obj n cur (h n (List.mem_cons_self _ _)),
      ih _ (fun m hm => h m (List.mem_cons_of_mem _ hm))]
    unfold foundValue
    rw [List.filterMap_cons]
    cases hn : (constSpecs n).bind (specsValue info obj) with
    | none => rfl
    | some e =>
      simp only
      cases hl : (List.filterMap (fun n => (constSpecs n).bind (specsValue info obj)) ns).getLast? with
      | none =>
        rw [List.getLast?_eq_none_iff] at hl
        rw [hl]
        rfl
      | some e' =>
        rw [List.getLast?_cons, hl]
        rfl

/-- The search of `reduceNode` for the declaration of the constant `obj` ends with the
initializer of the last constant declaration statement reached that has one, when the
names declaring `obj` have a value at their index. -/
theorem constSearch_eq (info : Info) (obj : Obj) (file : File)
    (h : ∀ n ∈ searchNodes info obj file, ∀ specs, constSpecs n = some specs →
      HasValues info obj specs) :
    inspectFile (constVisit info obj) file (.ok none) =
      .ok (foundValue info obj (searchNodes info obj file)) := by
  rw [inspectFile_eq_foldl _ (fun n => (constVisit info obj n (.ok none)).1)
    (fun n s _ => constVisit_fst info obj n s)]
  have hf := foldl_constVisit info obj (searchNodes info obj file) none h
  unfold searchNodes at hf ⊢
  rw [hf]
  cases foundValue info obj (visitFile (fun n => (constVisit info obj n (.ok none)).1) file) <;> rfl
theorem reduceNode_ident_eq (oracle : Oracle) (r : Reducer) (x : IdentId) (obj : Obj)
    (hd : r.didChange = false) (hu : r.info.Uses x = some obj)
    (ht : (r.info.object obj).type = .basic true) :
    reduceNode oracle (.node (.expr (.ident x))) r =
      match inspectFile (constVisit r.info obj) r.file (.ok none) with
      | .error e => .error e
      | .ok none => .ok (true, r)
      | .ok (some expr) => .ok (true, (changeExpr oracle expr r).2) := by
  unfold reduceNode
  rw [if_neg (by simp [hd])]
  show (match r.info.Uses x with
    | none => Except.ok (true, r)
    | some obj =>
      match (r.info.object obj).type with
      | .other => Except.ok (true, r)
      | .basic untyped =>
        if untyped = false then Except.ok (true, r)
        else
          match inspectFile (constVisit r.info obj) r.file (.ok none) with
          | .error e => .error e
          | .ok none => .ok (true, r)
          | .ok (some expr) => .ok (true, (changeExpr oracle expr r).2)) = _
  rw [hu]
  simp only
  rw [ht]
  simp only [Bool.true_eq_false, if_false]

/-- C16, as amended: for an identifier that resolves to an untyped constant, when the
names declaring the constant in the constant declaration statements the search reaches
have a value at their index, `reduceNode` makes a trial exactly when the search finds an
initializer: the value at the index of the first name declaring the constant in its
spec, which may have one name or several. The candidate is that value in the slot; the
slot keeps it when the oracle accepts and gets back what it held when the oracle rejects.
When the search finds none, `reduceNode` returns the reducer as it is. -/
theorem reduceNode_const_inlined (oracle : Oracle) (r : Reducer) (x : IdentId) (obj : Obj)
    (hd : r.didChange = false) (hu : r.info.Uses x = some obj)
    (ht : (r.info.object obj).type = .basic true)
    (hv : ∀ n ∈ searchNodes r.info obj r.file, ∀ specs, constSpecs n = some specs →
      HasValues r.info obj specs) :
    (∀ expr, foundValue r.info obj (searchNodes r.info obj r.file) = some expr →
      ∃ r', reduceNode oracle (.node (.expr (.ident x))) r = .ok (true, r') ∧
        r'.tried = r.tried ++ [(({ r with expr := expr } : Reducer).prog,
          oracle { r with expr := expr })] ∧
        r'.expr = if oracle { r with expr := expr } then expr else r.expr) ∧
    (foundValue r.info obj (searchNodes r.info obj r.file) = none →
      reduceNode oracle (.node (.expr (.ident x))) r = .ok (true, r)) := by
  rw [reduceNode_ident_eq oracle r x obj hd hu ht, constSearch_eq r.info obj r.file hv]
  constructor
  · intro expr hf
    rw [hf]
    refine ⟨_, rfl, ?_, ?_⟩
    · rw [changeExpr_tried]
      unfold changeExpr okChange
      by_cases h : oracle { r with expr := expr } = true <;> simp [h]
    · rw [changeExpr_expr]
      unfold changeExpr okChange
      by_cases h : oracle { r with expr := expr } = true <;> simp [h]
  · intro hf
    rw [hf]

theorem hasValues_sound (info : Info) (obj : Obj) :
    ∀ specs : List Spec, hasValues info obj specs = true → HasValues info obj specs := by
  intro specs
  induction specs with
  | nil => intro _ spec hs; simp at hs
  | cons spec specs ih =>
    intro h spec' hs
    cases spec with
    | typeSpec n t => simp [hasValues] at h
    | valueSpec names type values =>
      rw [hasValues, Bool.and_eq_true] at h
      rcases List.mem_cons.1 hs with rfl | hs
      · refine ⟨names, type, values, rfl, fun i name hi hd => ?_⟩
        have hlt : i < names.length := by
          by_contra hge
          rw [List.getElem?_eq_none (by omega)] at hi
          exact Option.noConfusion hi
        have := List.all_eq_true.1 h.1 i (List.mem_range.2 hlt)
        rw [hi] at this
        simp only [decide_eq_true_eq] at this
        exact this hd
      · exact ih h.2 spec' hs

theorem searchHasValues_sound (info : Info) (obj : Obj) (file : File)
    (h : searchHasValues info obj file = true) :
    ∀ n ∈ searchNodes info obj file, ∀ specs, constSpecs n = some specs →
      HasValues info obj specs := by
  intro n hn specs hs
  have := List.all_eq_true.1 h n hn
  rw [hs] at this
  exact hasValues_sound info obj specs this

/-! # inlineBlock: the accepted splice -/

theorem renameStmt_frame (r : Reducer) (u : List undoIdent) (stmt : Stmt)
    (p : Reducer × List undoIdent) (h : renameStmt r u stmt = .ok p) :
    p.1.tried = r.tried ∧ p.1.list = r.list := by
  have hfold : ∀ (ids : List IdentId) (newName origName : String)
      (q : Reducer × List undoIdent),
      (ids.foldl (fun (p : Reducer × List undoIdent) id =>
        (p.1.setName id newName, p.2 ++ [(⟨id, origName⟩ : undoIdent)])) q).1.tried = q.1.tried ∧
      (ids.foldl (fun (p : Reducer × List undoIdent) id =>
        (p.1.setName id newName, p.2 ++ [(⟨id, origName⟩ : undoIdent)])) q).1.list = q.1.list := by
    intro ids newName origName
    induction ids with
    | nil => intro q; exact ⟨rfl, rfl⟩
    | cons id ids ih =>
      intro q
      rw [List.foldl_cons]
      exact ih _
  unfold renameStmt at h
  split at h
  · split at h
    · cases h; exact ⟨rfl, rfl⟩
    · split at h
      · split at h
        · cases h
        · split at h
          · cases h
          · split at h
            · cases h
            · split at h
              · cases h; exact ⟨rfl, rfl⟩
              · cases h
                exact hfold _ _ _ _
      · cases h; exact ⟨rfl, rfl⟩
  · cases h; exact ⟨rfl, rfl⟩

theorem renameStmts_frame : ∀ (bl : List Stmt) (r : Reducer) (u : List undoIdent)
    (p : Reducer × List undoIdent), renameStmts bl r u = .ok p →
    p.1.tried = r.tried ∧ p.1.list = r.list := by
  intro bl
  induction bl with
  | nil =>
    intro r u p h
    cases h
    exact ⟨rfl, rfl⟩
  | cons stmt rest ih =>
    intro r u p h
    unfold renameStmts at h
    split at h
    · cases h
    · rename_i q hq
      obtain ⟨h1, h2⟩ := renameStmt_frame r u stmt q hq
      obtain ⟨h3, h4⟩ := ih q.1 q.2 p h
      exact ⟨h3.trans h1, h4.trans h2⟩

theorem rejectedSplices_cons (orig : List Stmt) (i : Nat) (js : List Nat) :
    rejectedSplices orig (i :: js) =
      (match spliceAt orig i with
        | some l => [(l, false)]
        | none => []) ++ rejectedSplices orig js := by
  unfold rejectedSplices
  rw [List.filterMap_cons]
  cases spliceAt orig i <;> rfl

theorem undoIdents_frame (undoIdents : List undoIdent) (r : Reducer) :
    (undoIdents.foldl (fun r ui => r.setName ui.id ui.name) r).tried = r.tried := by
  induction undoIdents generalizing r with
  | nil => rfl
  | cons ui rest ih =>
    rw [List.foldl_cons, ih]
    rfl

/-- The line merging of an accepted splice touches the line table and the positions
only. -/
theorem mergeLinesBlock_ok (i n : Nat) (r r' : Reducer) (h : mergeLinesBlock i n r = .ok r') :
    r' = { r with lines := r'.lines, layout := r'.layout } := by
  unfold mergeLinesBlock at h
  simp only at h
  split at h
  · cases h
  · split at h
    · cases h
    · injection h with h
      rw [← h]

/-- When the loop of `inlineBlock` returns, either every splice was rejected and the list
is the original one, or the list is the original one with the block at index `j`
replaced by its statements: the trial for `j` was accepted, it was the last one, and
before it there was one rejected trial for each block at an index below `j`. -/
theorem inlineBlockLoop_first (oracle : Oracle) (orig : List Stmt) :
    ∀ (rest : List Stmt) (i : Nat) (r0 : Reducer) (undoIdents : List undoIdent)
      (r' : Reducer),
      (∀ k, rest[k]? = orig[i + k]?) →
      inlineBlockLoop oracle orig i rest r0 undoIdents = .ok r' →
      (r'.list = orig ∧
        r'.tried.map trialList =
          r0.tried.map trialList ++ rejectedSplices orig (List.range' i rest.length)) ∨
      ∃ j bl, i ≤ j ∧ j < i + rest.length ∧ orig[j]? = some (.blockStmt bl) ∧ bl ≠ [] ∧
        r'.list = orig.take j ++ bl ++ orig.drop (j + 1) ∧
        r'.tried.map trialList =
          r0.tried.map trialList ++ rejectedSplices orig (List.range' i (j - i)) ++
            [(orig.take j ++ bl ++ orig.drop (j + 1), true)] := by
  intro rest
  induction rest with
  | nil =>
    intro i r0 undoIdents r' _ h
    unfold inlineBlockLoop at h
    injection h with h
    subst h
    left
    refine ⟨rfl, ?_⟩
    simp only [undoIdents_frame, List.length_nil, List.range'_zero]
    simp [rejectedSplices]
  | cons stmt rest ih =>
    intro i r0 undoIdents r' hget h
    have hget' : ∀ k, rest[k]? = orig[i + 1 + k]? := by
      intro k
      have := hget (k + 1)
      rw [show i + 1 + k = i + (k + 1) by omega]
      simpa using this
    have hstmt : orig[i]? = some stmt := by simpa using (hget 0).symm
    by_cases hb : ∃ bl, stmt = .blockStmt bl
    · obtain ⟨bl, rfl⟩ := hb
      have hsp : spliceAt orig i = some (orig.take i ++ bl ++ orig.drop (i + 1)) := by
        unfold spliceAt
        rw [hstmt]
      unfold inlineBlockLoop at h
      split at h
      · cases h
      · rename_i r1 u1 hren
        obtain ⟨ht1, _⟩ := renameStmts_frame bl r0 undoIdents (r1, u1) hren
        simp only at ht1 h
        by_cases hok : oracle { r1 with list := orig.take i ++ bl ++ orig.drop (i + 1) } = true
        · simp only [okChange, hok, if_true] at h
          split at h
          · cases h
          · rename_i hlen
            have hr := mergeLinesBlock_ok i bl.length _ r' h
            right
            refine ⟨i, bl, le_refl i, by simp only [List.length_cons]; omega, hstmt,
              fun hnil => hlen (by rw [hnil]; rfl), by rw [hr], ?_⟩
            rw [hr]
            simp [trialList, Reducer.prog, ht1, rejectedSplices]
        · have hok' : oracle { r1 with list := orig.take i ++ bl ++ orig.drop (i + 1) } =
              false := by simpa using hok
          simp only [okChange, hok', Bool.false_eq_true, if_false] at h
          rcases ih (i + 1) _ u1 r' hget' h with ⟨g1, g2⟩ | ⟨j, bl', hj1, hj2, hj3, hj4, hj5, hj6⟩
          · left
            refine ⟨g1, ?_⟩
            rw [g2, List.length_cons, List.range'_succ, rejectedSplices_cons, hsp]
            simp [trialList, Reducer.prog, ht1]
          · right
            refine ⟨j, bl', by omega, by simp only [List.length_cons]; omega, hj3, hj4, hj5, ?_⟩
            rw [hj6, show j - i = (j - (i + 1)) + 1 by omega, List.range'_succ,
              rejectedSplices_cons, hsp]
            simp [trialList, Reducer.prog, ht1]
    · have hsp : spliceAt orig i = none := by
        unfold spliceAt
        rw [hstmt]
        cases stmt with
        | blockStmt bl => exact absurd ⟨bl, rfl⟩ hb
        | _ => rfl
      have hstep : inlineBlockLoop oracle orig i (stmt :: rest) r0 undoIdents =
          inlineBlockLoop oracle orig (i + 1) rest r0 undoIdents := by
        cases stmt with
        | blockStmt bl => exact absurd ⟨bl, rfl⟩ hb
        | _ =>
          rw [inlineBlockLoop]
          exact fun bl hbl => Stmt.noConfusion hbl
      rw [hstep] at h
      rcases ih (i + 1) r0 undoIdents r' hget' h with ⟨g1, g2⟩ | ⟨j, bl', hj1, hj2, hj3, hj4, hj5, hj6⟩
      · left
        refine ⟨g1, ?_⟩
        rw [g2, List.length_cons, List.range'_succ, rejectedSplices_cons, hsp]
        simp
      · right
        refine ⟨j, bl', by omega, by simp only [List.length_cons]; omega, hj3, hj4, hj5, ?_⟩
        rw [hj6, show j - i = (j - (i + 1)) + 1 by omega, List.range'_succ,
          rejectedSplices_cons, hsp]
        simp

/-- When `inlineBlock` returns, either every splice was rejected and the list is the
original one, or the list is the original one with the block at index `j` replaced by its
statements in order, where `j` is the least index of a block whose splice was accepted:
the trials before it, one for each block below `j`, were rejected. The block spliced is
not empty: on an accepted splice of an empty block `inlineBlock` does not return. -/
theorem inlineBlock_first_accepted (oracle : Oracle) (r r' : Reducer)
    (h : inlineBlock oracle r = .ok r') :
    (r'.list = r.list ∧
      r'.tried.map trialList =
        r.tried.map trialList ++ rejectedSplices r.list (List.range r.list.length)) ∨
    ∃ j bl, j < r.list.length ∧ r.list[j]? = some (.blockStmt bl) ∧ bl ≠ [] ∧
      r'.list = r.list.take j ++ bl ++ r.list.drop (j + 1) ∧
      r'.tried.map trialList =
        r.tried.map trialList ++ rejectedSplices r.list (List.range j) ++
          [(r.list.take j ++ bl ++ r.list.drop (j + 1), true)] := by
  unfold inlineBlock at h
  rcases inlineBlockLoop_first oracle r.list r.list 0 r [] r' (fun k => by simp) h with
    ⟨h1, h2⟩ | ⟨j, bl, _, hj2, hj3, hj4, hj5, hj6⟩
  · left
    refine ⟨h1, ?_⟩
    rw [h2, List.range_eq_range']
  · right
    refine ⟨j, bl, by omega, hj3, hj4, hj5, ?_⟩
    rw [hj6, List.range_eq_range']
    rfl

/-! # The rules on the examples -/

/-- `reduceSlice` writes no name, token or import. -/
theorem reduceSlice_onlySlots (oracle : Oracle) (sl : SliceExpr) (r : Reducer) :
    (reduceSlice oracle sl r).2.names = r.names ∧ (reduceSlice oracle sl r).2.toks = r.toks ∧
      (reduceSlice oracle sl r).2.imports = r.imports := by
  have hloop : ∀ (is : List Nat) (sl : SliceExpr) (r : Reducer),
      (reduceSliceLoop oracle is sl r).2.names = r.names ∧
        (reduceSliceLoop oracle is sl r).2.toks = r.toks ∧
        (reduceSliceLoop oracle is sl r).2.imports = r.imports := by
    intro is
    induction is with
    | nil => intro sl r; exact ⟨rfl, rfl, rfl⟩
    | cons i is ih =>
      intro sl r
      cases h : sl.bound i with
      | none =>
        rw [reduceSliceLoop_cons_none oracle i is sl r h]
        exact ih sl r
      | some orig =>
        rw [reduceSliceLoop_cons_some oracle i is sl r orig h]
        split
        · exact ⟨rfl, rfl, rfl⟩
        · exact ih _ _
  unfold reduceSlice
  have hk := changeExpr_keeps oracle sl.X r
  generalize changeExpr oracle sl.X r = c at *
  obtain ⟨ok, r1⟩ := c
  simp only at hk ⊢
  split
  · exact ⟨hk.2.2.2.1, hk.2.2.2.2.1, hk.2.2.2.2.2.1⟩
  · obtain ⟨h1, h2, h3⟩ := hloop [0, 1, 2] sl r1
    exact ⟨h1.trans hk.2.2.2.1, h2.trans hk.2.2.2.2.1, h3.trans hk.2.2.2.2.2.1⟩

/-- C11: on `constPrint` with an oracle that accepts the deletion of `println(c)`, the
only use of the constant `c`, the file after `reduceNode` has no identifier referring to
`c`, while the identifier declaring it is still in the file under the name `c`. -/
theorem reduceNode_orphan_constPrint :
    references constPrint 10 = [5] ∧
    observeNode (reduceNode (acceptLength 1) .stmts constPrint)
      (fun b r => (b, r.tried.map Prod.snd, r.list.length)) = some (true, [true], 1) ∧
    observeNode (reduceNode (acceptLength 1) .stmts constPrint)
      (fun _ r => (references r 10, declarations r 10)) = some ([], [(2, "c")]) := by
  decide

/-- C11, as amended: after a trial accepted through `reduceNode` at a conditional
statement, a composite literal, a binary expression or an index expression, and after a
deletion accepted by `removeStmt`, no variable and no imported package that had
referencing occurrences, all of them in the nodes removed, is left declared or imported
under its name in the file. This is for a file in which no import spec left gives a
package its own name, and for a variable whose declaring identifiers are outside the
assignment statements or the single target of one; for `removeStmt` the file in which
they must be so is the one that has the list as the previous trial left it. Nothing is
said of constants. -/
theorem accepted_neutralizes (oracle : Oracle) (r r' : Reducer)
    (hu : UseIdentsExact r) (hown : OwnNameFree r') :
    (∀ (v : Value) (b : Bool) (new : List (Prog × Bool)) (k : Nat) (p : Prog)
        (g : List (Option Node)),
      reduceNode oracle v r = .ok (b, r') → r'.tried = r.tried ++ new →
      new[k]? = some (p, true) → (removedGroups v)[k]? = some g → (groupIdents g).Nodup →
      ∀ S : Obj, Orphaned r g S → DeclsReached r r.list r' S → Undeclared r' S) ∧
    (∀ (new : List (Prog × Bool)) (p : Prog),
      removeStmt oracle r = .ok r' → r'.tried = r.tried ++ new ++ [(p, true)] →
      ∃ j stmt, r.list[j]? = some stmt ∧ r'.list = without r.list j ∧
        ((groupIdents [some (.stmt stmt)]).Nodup →
          ∀ S : Obj, Orphaned r [some (.stmt stmt)] S →
            (∀ l, (l = r.list ∨ ∃ k, k < j ∧ l = without r.list k) →
              DeclsReached r l r' S) →
            Undeclared r' S)) := by
  constructor
  · intro v b new k p g h hnew hk hg hnd S hS hreach
    obtain ⟨hN, hinfo⟩ := reduceNode_neutralizes_aux oracle v r r' b new k p g h hnew hk hg
    exact (hN S (mem_unused_of_orphaned r g hu hnd S hS)).undeclared hinfo hown hreach
  · intro new p h hnew
    unfold removeStmt at h
    simp only at h
    split at h
    · exact Except.noConfusion h
    · obtain ⟨new', hnew', hcases⟩ := removeStmtLoop_neutralizes oracle r r.list 0 r r'
        (fun k => by simp) rfl rfl rfl (Or.inl rfl) h
      rcases hcases with hall | ⟨j, stmt, l, hj, hl, hlc, hN, hinfo⟩
      · exfalso
        rw [hnew', List.append_assoc] at hnew
        have hn := List.append_cancel_left hnew
        have := hall (p, true) (by rw [hn]; simp)
        simp at this
      · refine ⟨j, stmt, hj, hl, fun hnd S hS hreach => ?_⟩
        exact (hN S (mem_unused_of_orphaned r _ hu hnd S hS)).undeclared hinfo hown
          (hreach l hlc)

theorem useIdentsExact_indexProg : UseIdentsExact indexProg := by
  intro (S : Nat)
  have hu : ∀ id, indexProg.info.Uses id =
      if id = 4 then some 21 else if id = 5 then some 10 else if id = 6 then some 11
      else if id = 8 then some 23 else none := by
    intro (id : Nat)
    simp only [indexProg, mapOf_cons, mapOf_nil]
  have hs : indexProg.uses (some S) =
      if S = 10 then [5] else if S = 11 then [6] else if S = 21 then [4]
      else if S = 23 then [8] else [] := by
    simp only [Reducer.uses, indexProg, useIdentsOf, ← mapOf.eq_1, mapOf_cons, mapOf_nil]
    split_ifs <;> rfl
  rw [hs]
  refine ⟨by split_ifs <;> simp, fun (id : Nat) => ?_⟩
  rw [hu]
  split_ifs <;> subst_vars <;> simp <;> first | assumption | (intro h; subst h; simp_all)

/-- C11, as amended, at `indexProg` with the index expression `s[i]` and an oracle that
accepts `s` in its place, where the variable `i` loses its only referencing occurrence
and its declaration in `i := 0` is left named `_`; and at `twoVars` with an oracle that
accepts the deletion of `println(a, b)`. -/
theorem accepted_neutralizes_witness :
    (∃ r', reduceNode acceptAll (.node (.expr indexSI)) indexProg = .ok (true, r') ∧
      UseIdentsExact indexProg ∧ OwnNameFree r' ∧
      Orphaned indexProg [some (.expr (.ident 6))] 11 ∧
      DeclsReached indexProg indexProg.list r' 11 ∧
      declarations r' 11 = [(3, "_")] ∧ Undeclared r' 11) ∧
    (∃ r', removeStmt (acceptLength 2) twoVars = .ok r' ∧
      UseIdentsExact twoVars ∧ OwnNameFree r' ∧
      declarations r' 10 = [(2, "_")] ∧
      ∃ j stmt, twoVars.list[j]? = some stmt ∧ r'.list = without twoVars.list j ∧
        ((groupIdents [some (.stmt stmt)]).Nodup →
          ∀ S : Obj, Orphaned twoVars [some (.stmt stmt)] S →
            (∀ l, (l = twoVars.list ∨ ∃ k, k < j ∧ l = without twoVars.list k) →
              DeclsReached twoVars l r' S) →
            Undeclared r' S)) :=
  ⟨⟨_, rfl, useIdentsExact_indexProg, by intro s hs; exact absurd hs (List.not_mem_nil s),
      by unfold Orphaned; decide, by unfold DeclsReached; decide, by decide,
      (accepted_neutralizes acceptAll indexProg _ useIdentsExact_indexProg
        (by intro s hs; exact absurd hs (List.not_mem_nil s))).1 (.node (.expr indexSI)) true _ 0 _ _
        rfl rfl rfl rfl (by decide) 11 (by unfold Orphaned; decide)
        (by unfold DeclsReached; decide)⟩,
    ⟨_, rfl, useIdentsExact_twoVars, by intro s hs; exact absurd hs (List.not_mem_nil s), by decide,
      (accepted_neutralizes (acceptLength 2) twoVars _ useIdentsExact_twoVars
        (by intro s hs; exact absurd hs (List.not_mem_nil s))).2 [] _ rfl rfl⟩⟩

/-- C12: on `twoVars` with the literal `1` and an oracle that rejects every candidate,
`reduceNode` returns true though its one trial was rejected and the change flag is not
set; at an empty statement it returns true without any trial. -/
theorem reduceNode_true_rejected :
    observeNode (reduceNode rejectAll (.node (.expr (.basicLit .INT "1"))) twoVars)
      (fun b r => (b, r.tried.map Prod.snd, r.didChange)) = some (true, [false], false) ∧
    observeNode (reduceNode rejectAll (.node (.stmt .emptyStmt)) twoVars)
      (fun b r => (b, r.tried.length, r.didChange)) = some (true, 0, false) := by
  decide

/-- C12, as amended: when `reduceNode` returns, it returns false exactly when the change
flag was set at entry or the node is an import spec; in every other case it returns true,
whether a rewrite was accepted or not. -/
theorem reduceNode_returns (oracle : Oracle) (v : Value) (r : Reducer)
    (res : Bool × Reducer) (h : reduceNode oracle v r = .ok res) :
    res.1 = false ↔ (r.didChange = true ∨ v.isImportSpec = true) := by
  rw [reduceNode_result oracle v r res h]
  cases r.didChange <;> cases v.isImportSpec <;> simp

/-- C12, as amended, at `twoVars` with the literal `1` and an oracle that rejects every
candidate. -/
theorem reduceNode_returns_witness :
    ∃ res, reduceNode rejectAll (.node (.expr (.basicLit .INT "1"))) twoVars = .ok res ∧
      (res.1 = false ↔ (twoVars.didChange = true ∨
        (Value.node (.expr (.basicLit .INT "1"))).isImportSpec = true)) :=
  ⟨_, rfl, reduceNode_returns rejectAll (.node (.expr (.basicLit .INT "1"))) twoVars _ rfl⟩

/-- C13, at `twoVars` with the statement `if a { println(a, b) } else { }` and an oracle
that rejects every candidate. -/
theorem reduceNode_if_body_first_witness :
    twoVars.didChange = false ∧
    ∃ r', reduceNode rejectAll
        (.node (.stmt (.ifStmt none (.ident 5) [printAB] (some (.blockStmt [])))))
        twoVars = .ok (true, r') ∧
      ((∃ p, r'.tried = twoVars.tried ++ [(p, true)] ∧ p.stmt = .blockStmt [printAB] ∧
          r'.stmt = .blockStmt [printAB]) ∨
        (∃ e p q, some (Stmt.blockStmt []) = some e ∧
          r'.tried = twoVars.tried ++ [(p, false), (q, true)] ∧
          p.stmt = .blockStmt [printAB] ∧ q.stmt = e ∧ r'.stmt = e) ∨
        (∃ e p q, some (Stmt.blockStmt []) = some e ∧
          r'.tried = twoVars.tried ++ [(p, false), (q, false)] ∧
          p.stmt = .blockStmt [printAB] ∧ q.stmt = e ∧ r'.stmt = twoVars.stmt) ∨
        (∃ p, some (Stmt.blockStmt []) = none ∧ r'.tried = twoVars.tried ++ [(p, false)] ∧
          p.stmt = .blockStmt [printAB] ∧ r'.stmt = twoVars.stmt)) :=
  ⟨rfl, reduceNode_if_body_first rejectAll twoVars none (.ident 5) [printAB]
    (some (.blockStmt [])) rfl⟩

/-- C16: on `constPair`, where `b` is declared by a spec with two names and two values,
`reduceNode` at the identifier using `b` makes a trial, with the second value, `2`, as
the candidate. -/
theorem reduceNode_const_constPair :
    observeNode (reduceNode acceptAll (.node (.expr (.ident 5))) constPair)
      (fun b r => (b, r.tried.map (fun t => (t.1.expr.litValue, t.2)), r.expr.litValue)) =
      some (true, [(some "2", true)], some "2") := by
  decide

/-- On `constIota`, where the spec of `b` has no value, `reduceNode` at the identifier
using `b` panics: `vs.Values[i]` is out of range. -/
theorem reduceNode_const_constIota (oracle : Oracle) :
    reduceNode oracle (.node (.expr (.ident 5))) constIota = .error .indexOutOfRange := rfl

/-- C16, as amended, at `constPair` with the identifier using `b`. -/
theorem reduceNode_const_inlined_witness :
    constPair.didChange = false ∧ constPair.info.Uses 5 = some 11 ∧
    (constPair.info.object 11).type = .basic true ∧
    searchHasValues constPair.info 11 constPair.file = true ∧
    ((∀ expr, foundValue constPair.info 11 (searchNodes constPair.info 11 constPair.file) =
        some expr →
      ∃ r', reduceNode acceptAll (.node (.expr (.ident 5))) constPair = .ok (true, r') ∧
        r'.tried = constPair.tried ++ [(({ constPair with expr := expr } : Reducer).prog,
          acceptAll { constPair with expr := expr })] ∧
        r'.expr = if acceptAll { constPair with expr := expr } then expr
          else constPair.expr) ∧
    (foundValue constPair.info 11 (searchNodes constPair.info 11 constPair.file) = none →
      reduceNode acceptAll (.node (.expr (.ident 5))) constPair = .ok (true, constPair))) :=
  ⟨rfl, rfl, rfl, by decide,
    reduceNode_const_inlined acceptAll constPair 5 11 rfl rfl rfl
      (searchHasValues_sound _ _ _ (by decide))⟩

/-- C17: on `emptyBlock`, with an oracle that accepts the splice of the empty block,
`inlineBlock` panics after the accepted trial: `bl.List[0]` is out of range. So does
`reduceNode` on `blockThenEmpty`, with an oracle that rejects the candidates of
`removeStmt` and of the first splice and accepts the splice of the empty block. -/
theorem inlineBlock_emptyBlock :
    inlineBlock acceptAll emptyBlock = .error .indexOutOfRange ∧
    reduceNode acceptRenamed .stmts blockThenEmpty = .error .indexOutOfRange :=
  ⟨rfl, rfl⟩

/-- C18, at `twoVars` with the slice expression `s[1:5:10]` and an oracle that rejects
every candidate. -/
theorem reduceSlice_rejected_witness :
    (threeBounds.Slice3 = true ↔ threeBounds.Max.isSome = true) ∧
    (∀ t ∈ (reduceSlice rejectAll threeBounds twoVars).2.tried.drop twoVars.tried.length,
      t.2 = false) ∧
    (reduceSlice rejectAll threeBounds twoVars).1 = threeBounds ∧
    (reduceSlice rejectAll threeBounds twoVars).2.expr = twoVars.expr :=
  ⟨by decide, by decide,
    reduceSlice_rejected rejectAll threeBounds twoVars (by decide) (by decide)⟩

/-- C19: on `emptyBody`, whose list is empty, `removeStmt` panics with any oracle, on the
allocation of a slice of length `-1`; so does `reduceNode` on the list. -/
theorem removeStmt_emptyBody (oracle : Oracle) :
    emptyBody.list.length = 0 ∧
    removeStmt oracle emptyBody = .error .negativeLen ∧
    reduceNode oracle .stmts emptyBody = .error .negativeLen :=
  ⟨rfl, rfl, rfl⟩

/-- C20: on `addAssign`, whose nested block holds `a += 1`, `inlineBlock` looks the target
up in `Defs`, where it has no entry, and panics on `obj.Parent()`, with any oracle and
before any trial; so does `reduceNode` on the list, with an oracle that rejects the
deletion of the block. -/
theorem inlineBlock_addAssign (oracle : Oracle) :
    addAssign.toks 0 = .ADD_ASSIGN ∧ addAssign.info.Defs 5 = none ∧
    inlineBlock oracle addAssign = .error .nilDereference ∧
    reduceNode rejectAll .stmts addAssign = .error .nilDereference :=
  ⟨rfl, rfl, rfl, rfl⟩

end Goreduce
